import Mathlib

/-! # vcxproj: the variable evaluator and the solution-file parser

A shallow embedding of `src/project.cpp` (`vcxproj::evaluate`) and of
`src/solution.cpp` (`SolutionParser`), followed by the properties proved about
them.

Conventions of the embedding:

* a `std::string` is a `List Char`; `std::string::npos` is `none`;
* a `std::map<std::string, std::string>` is an association list searched with
  `List.lookup` (exact match on the key);
* the process environment is a lookup function `getenv`;
* the `while` loop of `evaluate` may run forever (a value may mention its own
  name), so the loop takes a fuel argument and returns `none` when it runs out;
* `std::out_of_range`, thrown by `std::vector::at`, `std::string::substr` and
  `std::string::erase`, is the error of an `Except`.
-/

set_option autoImplicit false

namespace vcxproj

/-! ## Strings -/

/-- Index of the first occurrence of `pat` in `l`. -/
def findIn (pat : List Char) : List Char → Option Nat
  | [] => if pat.isPrefixOf [] then some 0 else none
  | c :: cs => if pat.isPrefixOf (c :: cs) then some 0 else (findIn pat cs).map (· + 1)

/-- The call `s.find(pat, pos)`: the lowest index `≥ pos` at which `pat` occurs in `s`. -/
def find (s pat : List Char) (pos : Nat) : Option Nat :=
  if s.length < pos then none else (findIn pat (s.drop pos)).map (· + pos)

/-- The call `s.substr(pos, len)`, for `pos ≤ s.size()`. -/
def substr (s : List Char) (pos len : Nat) : List Char :=
  (s.drop pos).take len

/-- The call `s.replace(pos, len, v)`, for `pos ≤ s.size()`. -/
def replace (s : List Char) (pos len : Nat) (v : List Char) : List Char :=
  s.take pos ++ v ++ s.drop (pos + len)

/-- The call `var.c_str()` as a C string: the characters before the first NUL. -/
def c_str (s : List Char) : List Char :=
  s.takeWhile (· ≠ Char.ofNat 0)

/-- The two characters that open a variable reference. -/
def tok : List Char := ['$', '(']

/-! ## `vcxproj::evaluate` (src/project.cpp, lines 242-276) -/

/-- A variable table, `std::map<std::string, std::string>`. -/
abbrev VarTable := List (List Char × List Char)

/-- The process environment, `std::getenv`. -/
abbrev Env := List Char → Option (List Char)

/-- Outcome of one evaluation of the loop condition and body of `evaluate`:
either the function returns, or the loop goes round again. -/
inductive Step where
  | done (ok : Bool) (s : List Char)
  | next (s : List Char) (start : Nat)
  deriving DecidableEq, Repr

/-- One round of `while ((start = s.find("$(", start)) != npos) { ... }`; when
the loop condition fails, the final `return s.find("$(") == npos`. -/
def evaluateStep (vars : VarTable) (getenv : Env) (readenv : Bool)
    (s : List Char) (start : Nat) : Step :=
  match find s tok start with
  | none => .done (find s tok 0 == none) s
  | some start =>
    match find s [')'] start with
    | none => .done false s
    | some endPos =>
      let var := substr s (start + 2) (endPos - (start + 2))
      match vars.lookup var with
      | some value => .next (replace s start (endPos - start + 1) value) start
      | none =>
        if !readenv then .done false s
        else
          match getenv (c_str var) with
          | none => .done false s
          | some env => .next (replace s start (endPos + 1 - start) env) start

/-- The loop of `evaluate`, run for at most `fuel` rounds. -/
def evaluateLoop (vars : VarTable) (getenv : Env) (readenv : Bool) :
    Nat → List Char → Nat → Option (Bool × List Char)
  | 0, _, _ => none
  | fuel + 1, s, start =>
    match evaluateStep vars getenv readenv s start with
    | .done ok s' => some (ok, s')
    | .next s' start' => evaluateLoop vars getenv readenv fuel s' start'

/-- The function `evaluate(s, variables, readenv)`: the returned boolean and the
final contents of `s`, or `none` when `fuel` rounds were not enough. -/
def evaluate (fuel : Nat) (s : List Char) (vars : VarTable) (getenv : Env)
    (readenv : Bool) : Option (Bool × List Char) :=
  evaluateLoop vars getenv readenv fuel s 0

/-- The loop states the run of `evaluate` passes through: `Reaches x y` holds
when the loop, entered with string and position `x`, arrives at the top of
the loop with string and position `y` after some number of rounds. -/
inductive Reaches (vars : VarTable) (getenv : Env) (readenv : Bool) :
    List Char × Nat → List Char × Nat → Prop where
  | here (x : List Char × Nat) : Reaches vars getenv readenv x x
  | round (s : List Char) (start : Nat) (s' : List Char) (start' : Nat) (y : List Char × Nat) :
      evaluateStep vars getenv readenv s start = .next s' start' →
      Reaches vars getenv readenv (s', start') y →
      Reaches vars getenv readenv (s, start) y

/-- What a name resolves to: the table first, then (when allowed) the environment. -/
def resolve (vars : VarTable) (getenv : Env) (readenv : Bool)
    (name : List Char) : Option (List Char) :=
  match vars.lookup name with
  | some value => some value
  | none => if readenv then getenv (c_str name) else none

/-- Single-pass expansion: `Expands r s out` holds when `s`, read left to right,
is made of plain characters and closed references `$(name)` (the name running
up to the first `)`), every name resolves under `r`, and `out` is `s` with each
reference replaced by its value. -/
inductive Expands (r : List Char → Option (List Char)) : List Char → List Char → Prop where
  | nil : Expands r [] []
  | char (c : Char) (s out : List Char) :
      tok.isPrefixOf (c :: s) = false → Expands r s out → Expands r (c :: s) (c :: out)
  | token (n v q out : List Char) :
      ')' ∉ n → r n = some v → Expands r q out →
      Expands r ('$' :: '(' :: (n ++ ')' :: q)) (v ++ out)

/-- A value that leaves the scan undisturbed: it contains no `$(` and its last
character is not `$`. -/
def Inert (v : List Char) : Prop :=
  ¬ tok <:+: v ∧ v.getLast? ≠ some '$'

/-- A value that cannot create a `$(` anywhere: inert, non-empty and not
starting with `(`. -/
def Clean (v : List Char) : Prop :=
  Inert v ∧ v ≠ [] ∧ v.head? ≠ some '('


/-! ## Data model (include/vcxproj/project.h, include/solution.h) -/

/-- The enumeration `CppStandard`. -/
inductive CppStandard where
  | Cpp14
  | Cpp17
  | Cpp20
  | CppLatest
  deriving DecidableEq, Repr

/-- The enumeration `ProjectConfiguration::Platform`. -/
inductive Platform where
  | Win32
  | x64
  | Unknown
  deriving DecidableEq, Repr

/-- The struct `ProjectConfiguration`. -/
structure ProjectConfiguration where
  name : List Char := []
  configuration : List Char := []
  platformStr : List Char := []
  platform : Platform := Platform.Unknown
  deriving DecidableEq, Repr

/-- The struct `ItemDefinitionGroup`. -/
structure ItemDefinitionGroup where
  condition : List Char := []
  preprocessorDefinitions : List Char := []
  additionalIncludeDirectories : List Char := []
  cppstd : CppStandard := CppStandard.CppLatest
  deriving DecidableEq, Repr

/-- The struct `Project`. -/
structure Project where
  id : List Char := []
  name : List Char := []
  filepath : List Char := []
  dependencies : List (List Char) := []
  projectConfigurationList : List ProjectConfiguration := []
  compileList : List (List Char) := []
  includeList : List (List Char) := []
  itemDefinitionGroupList : List ItemDefinitionGroup := []
  deriving DecidableEq, Repr

/-- The struct `Solution`. -/
structure Solution where
  name : List Char := []
  filepath : List Char := []
  version : List Char := []
  configurations : List (List Char) := []
  projects : List Project := []
  deriving DecidableEq, Repr

/-! ## String helpers of src/solution.cpp (lines 17-143) -/

/-- The exception `std::out_of_range`; `out_of_fuel` is not a behaviour of the
program, it marks a run of the embedding that was given too little fuel. -/
inductive Exn where
  | out_of_range
  | out_of_fuel
  deriving DecidableEq, Repr

deriving instance DecidableEq for Except

/-- The function `std::isspace` in the "C" locale. -/
def isspace (c : Char) : Bool :=
  c == ' ' || c == '\t' || c == '\n' || c == Char.ofNat 11 || c == Char.ofNat 12 || c == '\r'

/-- The function `starts_with(str, text)`, for a `text` without NUL. -/
def starts_with (str text : List Char) : Bool :=
  text.isPrefixOf str

/-- The function `ends_with(str, c)`: `!str.empty() && str.back() == c`. -/
def ends_with (str : List Char) (c : Char) : Bool :=
  str.getLast? == some c

/-- The function `trimmed`: whitespace is removed from the end, then from the beginning. -/
def trimmed (str : List Char) : List Char :=
  (str.rdropWhile isspace).dropWhile isspace

/-- The `do ... while (r < str.length())` loop of `simplified`, on the characters
not yet read; the result is what the loop writes. One round copies a word and,
if characters remain, writes one space and skips the whitespace after it. -/
def simplifiedLoop : Nat → List Char → List Char
  | 0, _ => []
  | fuel + 1, rest =>
    let word := rest.takeWhile (fun c => !isspace c)
    match rest.dropWhile (fun c => !isspace c) with
    | [] => word
    | c :: rest1 =>
      match (c :: rest1).dropWhile isspace with
      | [] => word ++ [' ']
      | d :: rest2 => word ++ ' ' :: simplifiedLoop fuel (d :: rest2)

/-- The function `simplified`: whitespace is removed from both ends and every
inner run of whitespace becomes one space. The writes of the source go to
positions already read, so the loop is modelled as producing a new string. -/
def simplified (str : List Char) : List Char :=
  let str := (str.rdropWhile isspace).dropWhile isspace
  simplifiedLoop (str.length + 1) str

/-- The first loop of `split`: the pieces between the separators, run for at
most `fuel` pieces. -/
def splitLoop (sep : Char) : Nat → List Char → List (List Char)
  | 0, _ => []
  | fuel + 1, text =>
    match text.dropWhile (fun c => c != sep) with
    | [] => [text.takeWhile (fun c => c != sep)]
    | _ :: rest => text.takeWhile (fun c => c != sep) :: splitLoop sep fuel rest

/-- The function `split(text, sep)`: the pieces between separators, the empty ones removed. -/
def split (text : List Char) (sep : Char) : List (List Char) :=
  (splitLoop sep (text.length + 1) text).filter (fun str => !str.isEmpty)

/-! ## The input stream -/

/-- A `std::istream`: the characters not yet read and the `eofbit`. -/
structure IStream where
  buf : List Char
  eofbit : Bool
  deriving DecidableEq, Repr

/-- The function `read_line`: `std::getline` into a fresh string. On a stream past
its end nothing is extracted. Otherwise characters are extracted up to a
newline, which is consumed and not stored, or up to the end of the input,
which sets `eofbit`. -/
def read_line (stream : IStream) : List Char × IStream :=
  if stream.eofbit then ([], stream)
  else
    match stream.buf.dropWhile (fun c => c != '\n') with
    | [] => (stream.buf.takeWhile (fun c => c != '\n'), { buf := [], eofbit := true })
    | _ :: rest => (stream.buf.takeWhile (fun c => c != '\n'), { buf := rest, eofbit := false })

/-- The function `read_line_simplified`. -/
def read_line_simplified (stream : IStream) : List Char × IStream :=
  ((simplified (read_line stream).1), (read_line stream).2)

/-! ## `SolutionParser` (src/solution.cpp, lines 159-325) -/

namespace SolutionParser

/-- The function `unquoted`. -/
def unquoted (str : List Char) : List Char :=
  if ends_with str '\x22' then str.dropLast.drop 1 else str

/-- The function `unbraced`. -/
def unbraced (str : List Char) : List Char :=
  if ends_with str '\x7d' then str.dropLast.drop 1 else str

/-- The call `items.at(i)`. -/
def vectorAt (items : List (List Char)) (i : Nat) : Except Exn (List Char) :=
  match items[i]? with
  | some item => .ok item
  | none => .error .out_of_range

/-- The prefix whose length `readVersion` skips. -/
def versionPrefix : List Char :=
  "Microsoft Visual Studio Solution File, Format Version ".toList

/-- The function `readVersion`: `line.substr(n)` throws when `n > line.size()`. -/
def readVersion (line : List Char) (solution : Solution) : Except Exn Solution :=
  if line.length < versionPrefix.length then .error .out_of_range
  else .ok { solution with version := line.drop versionPrefix.length }

/-- The first part of `readProject` (lines 203-211): the project read from the
header line. When the line has no `=`, `index + 1` wraps round to 0. -/
def projectStub (line : List Char) : Except Exn Project :=
  let index1 := match find line ['='] 0 with
    | none => 0
    | some index => index + 1
  let line := simplified (line.drop index1)
  let items := split line ','
  match vectorAt items 0, vectorAt items 1, vectorAt items 2 with
  | .ok item0, .ok item1, .ok item2 =>
    .ok { name := unquoted item0,
          filepath := unquoted (trimmed item1),
          id := unbraced (unquoted (trimmed item2)) }
  | _, _, _ => .error .out_of_range

/-- The first loop of `readProjectSection`, for `ProjectSection(ProjectDependencies)`.
A line without `=` makes `line.erase(npos)` throw. -/
def readDependencies : Nat → IStream → Project → Except Exn (Project × IStream)
  | 0, _, _ => .error .out_of_fuel
  | fuel + 1, stream, project =>
    if stream.eofbit then .ok (project, stream)
    else
      let line := (read_line_simplified stream).1
      let stream := (read_line_simplified stream).2
      if line = "EndProjectSection".toList then .ok (project, stream)
      else
        match find line ['='] 0 with
        | none => .error .out_of_range
        | some equal_sign =>
          let line := line.take equal_sign
          let line := trimmed line
          let dependency_id := unbraced line
          readDependencies fuel stream
            { project with dependencies := project.dependencies ++ [dependency_id] }

/-- The loops that consume lines up to a terminator (second loop of
`readProjectSection` and of `readGlobalSection`). -/
def skipSection (terminator : List Char) : Nat → IStream → Except Exn IStream
  | 0, _ => .error .out_of_fuel
  | fuel + 1, stream =>
    if stream.eofbit then .ok stream
    else
      let line := (read_line_simplified stream).1
      let stream := (read_line_simplified stream).2
      if line = terminator then .ok stream
      else skipSection terminator fuel stream

/-- The function `readProjectSection`. -/
def readProjectSection (fuel : Nat) (line : List Char) (stream : IStream) (project : Project) :
    Except Exn (Project × IStream) :=
  if starts_with line "ProjectSection(ProjectDependencies)".toList then
    readDependencies fuel stream project
  else
    match skipSection "EndProjectSection".toList fuel stream with
    | .ok stream => .ok (project, stream)
    | .error e => .error e

/-- The loop of `readProject` (lines 215-224); the project being read is
`solution.projects.back()`, which exists because `readProject` has just pushed
it (the branch for an empty list is never taken). -/
def readProjectBody : Nat → IStream → Solution → Except Exn (Solution × IStream)
  | 0, _, _ => .error .out_of_fuel
  | fuel + 1, stream, solution =>
    if stream.eofbit then .ok (solution, stream)
    else
      let line := simplified (read_line stream).1
      let stream := (read_line stream).2
      if line = "EndProject".toList then .ok (solution, stream)
      else if starts_with line "ProjectSection".toList then
        match solution.projects.getLast? with
        | none => .ok (solution, stream)
        | some back =>
          match readProjectSection fuel line stream back with
          | .error e => .error e
          | .ok (project, stream) =>
            readProjectBody fuel stream
              { solution with projects := solution.projects.dropLast ++ [project] }
      else readProjectBody fuel stream solution

/-- The function `readProject`. -/
def readProject (fuel : Nat) (line : List Char) (stream : IStream) (solution : Solution) :
    Except Exn (Solution × IStream) :=
  match projectStub line with
  | .error e => .error e
  | .ok project =>
    readProjectBody fuel stream { solution with projects := solution.projects ++ [project] }

/-- The first loop of `readGlobalSection`, for
`GlobalSection(SolutionConfigurationPlatforms)`. A line without `=` makes
`line.erase(npos, n)` throw. -/
def readConfigurations : Nat → IStream → Solution → Except Exn (Solution × IStream)
  | 0, _, _ => .error .out_of_fuel
  | fuel + 1, stream, solution =>
    if stream.eofbit then .ok (solution, stream)
    else
      let line := (read_line_simplified stream).1
      let stream := (read_line_simplified stream).2
      if line = "EndGlobalSection".toList then .ok (solution, stream)
      else
        match find line ['='] 0 with
        | none => .error .out_of_range
        | some equal_sign =>
          let line := line.take equal_sign
          let line := line.rdropWhile (fun c => c == ' ')
          readConfigurations fuel stream
            { solution with configurations := solution.configurations ++ [line] }

/-- The function `readGlobalSection`. -/
def readGlobalSection (fuel : Nat) (line : List Char) (stream : IStream) (solution : Solution) :
    Except Exn (Solution × IStream) :=
  if starts_with line "GlobalSection(SolutionConfigurationPlatforms)".toList then
    readConfigurations fuel stream solution
  else
    match skipSection "EndGlobalSection".toList fuel stream with
    | .ok stream => .ok (solution, stream)
    | .error e => .error e

/-- The function `readGlobal`. -/
def readGlobal : Nat → IStream → Solution → Except Exn (Solution × IStream)
  | 0, _, _ => .error .out_of_fuel
  | fuel + 1, stream, solution =>
    if stream.eofbit then .ok (solution, stream)
    else
      let line := (read_line_simplified stream).1
      let stream := (read_line_simplified stream).2
      if line = "EndGlobal".toList then .ok (solution, stream)
      else if starts_with line "GlobalSection(".toList then
        match readGlobalSection fuel line stream solution with
        | .error e => .error e
        | .ok (solution, stream) => readGlobal fuel stream solution
      else readGlobal fuel stream solution

/-- The `while (!stream.eof())` loop of `operator()`; its lines are not simplified. -/
def topLevel : Nat → IStream → Solution → Except Exn Solution
  | 0, _, _ => .error .out_of_fuel
  | fuel + 1, stream, solution =>
    if stream.eofbit then .ok solution
    else
      let line := (read_line stream).1
      let stream := (read_line stream).2
      if starts_with line "Microsoft Visual Studio Solution File, Format Version".toList then
        match readVersion line solution with
        | .error e => .error e
        | .ok solution => topLevel fuel stream solution
      else if starts_with line "Project(".toList then
        match readProject fuel line stream solution with
        | .error e => .error e
        | .ok (solution, stream) => topLevel fuel stream solution
      else if starts_with line "Global".toList then
        match readGlobal fuel stream solution with
        | .error e => .error e
        | .ok (solution, stream) => topLevel fuel stream solution
      else topLevel fuel stream solution

/-- The function `operator()`: the first line is read and dropped, then the loop runs. -/
def parse (fuel : Nat) (stream : IStream) (solution : Solution) : Except Exn Solution :=
  topLevel fuel (read_line stream).2 solution

end SolutionParser

/-- The parser run of `load_solution` on a file with contents `text`: a fresh
stream, an empty solution, and fuel for more rounds than the text has lines. -/
def parseSolution (text : List Char) : Except Exn Solution :=
  SolutionParser.parse (text.length + 2) { buf := text, eofbit := false } {}

/-- The lines joined by newlines: the file whose lines they are. -/
def joinLines : List (List Char) → List Char
  | [] => []
  | [l] => l
  | l :: l' :: ls => l ++ '\n' :: joinLines (l' :: ls)


/-- The stream in which exactly the given lines are still to be read; with no
line left the stream is past its end. -/
def streamOf : List (List Char) → IStream
  | [] => { buf := [], eofbit := true }
  | l :: ls => { buf := joinLines (l :: ls), eofbit := false }

/-- The dependency entry the spec gives for a line `{id} = {id}`: the
whitespace-normalised line up to its first `=`, trimmed and brace-stripped. -/
def dependencyOf (l : List Char) : List Char :=
  SolutionParser.unbraced (trimmed ((simplified l).takeWhile (fun c => c != '=')))

/-- The configuration entry the spec gives for a line: the whitespace-normalised
line truncated at its first `=`, trailing spaces removed. -/
def configurationOf (l : List Char) : List Char :=
  ((simplified l).takeWhile (fun c => c != '=')).rdropWhile (fun c => c == ' ')

/-! ## The shape of a solution file (used to state the properties) -/

/-- A line of a file: a string without a newline. -/
abbrev IsLine (l : List Char) : Prop := '\n' ∉ l

/-- A section inside a block: its header line, its inner lines and its
terminator line. -/
structure Sect where
  header : List Char
  lines : List (List Char)
  terminator : List Char

/-- The lines of a section, in file order. -/
def Sect.render (s : Sect) : List (List Char) :=
  s.header :: (s.lines ++ [s.terminator])

/-- The section is of the kind whose lines are read (dependencies in a project
block, configurations in the global block): its normalised header starts with
`special`. -/
def Sect.isSpecial (special : List Char) (s : Sect) : Bool :=
  starts_with (simplified s.header) special

/-- A section the parser reads to its terminator: the normalised header starts
with `opener`, no inner line normalises to `closer`, the terminator line does,
and in a section of the special kind every inner line contains `=`. -/
def Sect.WF (opener special closer : List Char) (s : Sect) : Prop :=
  IsLine s.header ∧ starts_with (simplified s.header) opener = true ∧
  (∀ l ∈ s.lines, IsLine l ∧ simplified l ≠ closer ∧ (s.isSpecial special = true → '=' ∈ l)) ∧
  IsLine s.terminator ∧ simplified s.terminator = closer

/-- An item of the body of a block: a line that opens nothing, or a section. -/
inductive BodyItem where
  | line (l : List Char)
  | sect (s : Sect)

/-- The lines of a body item. -/
def BodyItem.render : BodyItem → List (List Char)
  | .line l => [l]
  | .sect s => s.render

/-- A body item the parser reads through: a line that neither ends the block
nor opens a section, or a well-formed section. -/
def BodyItem.WF (blockEnd opener special closer : List Char) : BodyItem → Prop
  | .line l => IsLine l ∧ simplified l ≠ blockEnd ∧ starts_with (simplified l) opener = false
  | .sect s => s.WF opener special closer

/-- A block: header line, body items, terminator line. -/
structure Block where
  header : List Char
  body : List BodyItem
  terminator : List Char

/-- The lines of the body of a block. -/
def renderBody (body : List BodyItem) : List (List Char) :=
  body.flatMap BodyItem.render

/-- The lines of a block, in file order. -/
def Block.render (b : Block) : List (List Char) :=
  b.header :: (renderBody b.body ++ [b.terminator])

/-- The entries the special sections of a body contribute, in file order, each
inner line mapped by `entry`. -/
def entriesOf (special : List Char) (entry : List Char → List Char) (body : List BodyItem) :
    List (List Char) :=
  body.flatMap fun item =>
    match item with
    | .line _ => []
    | .sect s => if s.isSpecial special then s.lines.map entry else []

/-- The dependencies a project body declares. -/
def dependenciesOf (body : List BodyItem) : List (List Char) :=
  entriesOf "ProjectSection(ProjectDependencies)".toList dependencyOf body

/-- The configurations a global body declares. -/
def configurationsOf (body : List BodyItem) : List (List Char) :=
  entriesOf "GlobalSection(SolutionConfigurationPlatforms)".toList configurationOf body

/-- A `Project(...)` ... `EndProject` block: the header starts with `Project(` and
holds three fields, the body is read through, the terminator normalises to
`EndProject`. -/
def Block.WFProject (b : Block) : Prop :=
  IsLine b.header ∧ starts_with b.header "Project(".toList = true ∧
  (∃ stub, SolutionParser.projectStub b.header = .ok stub) ∧
  (∀ item ∈ b.body, item.WF "EndProject".toList "ProjectSection".toList
    "ProjectSection(ProjectDependencies)".toList "EndProjectSection".toList) ∧
  IsLine b.terminator ∧ simplified b.terminator = "EndProject".toList

/-- A `Global` ... `EndGlobal` block. -/
def Block.WFGlobal (b : Block) : Prop :=
  IsLine b.header ∧ starts_with b.header "Global".toList = true ∧
  (∀ item ∈ b.body, item.WF "EndGlobal".toList "GlobalSection(".toList
    "GlobalSection(SolutionConfigurationPlatforms)".toList "EndGlobalSection".toList) ∧
  IsLine b.terminator ∧ simplified b.terminator = "EndGlobal".toList

/-- A top-level item of a solution file: a line that opens no block (the
version line is one), a project block or a global block. -/
inductive TopItem where
  | line (l : List Char)
  | project (b : Block)
  | global (b : Block)

/-- The lines of a top-level item. -/
def TopItem.render : TopItem → List (List Char)
  | .line l => [l]
  | .project b => b.render
  | .global b => b.render

/-- A top-level item the parser reads through. A version line must be long
enough for `readVersion`. -/
def TopItem.WF : TopItem → Prop
  | .line l => IsLine l ∧ starts_with l "Project(".toList = false ∧
      starts_with l "Global".toList = false ∧
      (starts_with l "Microsoft Visual Studio Solution File, Format Version".toList = true →
        SolutionParser.versionPrefix.length ≤ l.length)
  | .project b => b.WFProject
  | .global b => b.WFGlobal

/-- The project a project block declares: the stub read from its header line,
with the dependencies of its body. -/
def Block.project? (b : Block) : Option Project :=
  match SolutionParser.projectStub b.header with
  | .ok stub => some { stub with dependencies := dependenciesOf b.body }
  | .error _ => none

/-- The project a top-level item declares, if it is a project block. -/
def TopItem.project? : TopItem → Option Project
  | .project b => b.project?
  | _ => none

/-- The project blocks among the top-level items, in file order. -/
def projectBlocks (items : List TopItem) : List Block :=
  items.filterMap fun item =>
    match item with
    | .project b => some b
    | _ => none

/-- The effect of a top-level item on the solution being built. -/
def TopItem.apply (solution : Solution) : TopItem → Solution
  | .line l =>
    if starts_with l "Microsoft Visual Studio Solution File, Format Version".toList then
      { solution with version := l.drop SolutionParser.versionPrefix.length }
    else solution
  | .project b =>
    match b.project? with
    | some p => { solution with projects := solution.projects ++ [p] }
    | none => solution
  | .global b =>
    { solution with configurations := solution.configurations ++ configurationsOf b.body }

/-- A dependency line `{id} = rhs`: optional whitespace, the braced
identifier, optional whitespace, `=`, and the rest of the line. -/
structure DependencyLine where
  lead : List Char
  id : List Char
  mid : List Char
  rhs : List Char

/-- The text of a dependency line. -/
def DependencyLine.render (d : DependencyLine) : List Char :=
  d.lead ++ '\x7b' :: (d.id ++ '\x7d' :: (d.mid ++ '=' :: d.rhs))

/-- The parts of a dependency line are as named: `lead` and `mid` are
whitespace, the identifier has neither whitespace nor `=`, and the line has
no newline. -/
def DependencyLine.WF (d : DependencyLine) : Prop :=
  (∀ c ∈ d.lead, isspace c = true ∧ c ≠ '\n') ∧
  (∀ c ∈ d.id, isspace c = false ∧ c ≠ '=') ∧
  (∀ c ∈ d.mid, isspace c = true ∧ c ≠ '\n') ∧
  '\n' ∉ d.rhs

/-- The lines of the concrete scenario of the spec, for a first line `first`
and a project type identifier `T`. -/
def scenario (first T : List Char) : List (List Char) :=
  [ first,
    "Microsoft Visual Studio Solution File, Format Version 12.00".toList,
    "Project(\"\x7b".toList ++ T ++ "\x7d\") ".toList ++ '=' ::
      " \"App\", \"App\\App.vcxproj\", \"\x7b11111111-1111-1111-1111-111111111111\x7d\"".toList,
    "EndProject".toList,
    "Global".toList,
    "GlobalSection(SolutionConfigurationPlatforms) = preSolution".toList,
    "Debug|x64 = Debug|x64".toList,
    "EndGlobalSection".toList,
    "EndGlobal".toList ]

/-- A sample file body with two project blocks, the first of which depends on
the second. -/
def sampleItems : List TopItem :=
  [ .line "Microsoft Visual Studio Solution File, Format Version 12.00".toList,
    .project
      { header := "Project(\"\x7bT\x7d\") = \"App\", \"App.vcxproj\", \"\x7bA\x7d\"".toList,
        body := [.sect
          { header := "\tProjectSection(ProjectDependencies) = postProject".toList,
            lines := ["\t\t\x7bB\x7d = \x7bB\x7d".toList],
            terminator := "\tEndProjectSection".toList }],
        terminator := "EndProject".toList },
    .project
      { header := "Project(\"\x7bT\x7d\") = \"Lib\", \"Lib.vcxproj\", \"\x7bB\x7d\"".toList,
        body := [],
        terminator := "EndProject".toList },
    .line [] ]

/-- Two sample dependency lines, with and without whitespace around the parts. -/
def sampleDependencies : List DependencyLine :=
  [ { lead := "\t\t".toList, id := "AAAA".toList, mid := " ".toList,
      rhs := " \x7bAAAA\x7d".toList },
    { lead := [], id := "BBBB".toList, mid := [], rhs := "\x7bBBBB\x7d".toList } ]

/-- The lines of a list of top-level items. -/
def renderItems (items : List TopItem) : List (List Char) :=
  items.flatMap TopItem.render

/-! ## The parsed XML document (tinyxml2, as used by src/project.cpp) -/

/-- An element of the parsed document, `tinyxml2::XMLElement`, reduced to what
the parser asks of it: its name, its attributes, its text (`GetText()`, absent
when the element does not start with a text node) and its child elements in
document order (`FirstChildElement()`, `NextSiblingElement()`). -/
inductive XMLElement where
  | mk (name : List Char) (attributes : List (List Char × List Char))
      (text : Option (List Char)) (children : List XMLElement)

/-- The call `e.Name()`. -/
def XMLElement.Name : XMLElement → List Char
  | .mk name _ _ _ => name

/-- The call `e.Attribute(name)`: the value of the first attribute of that name. -/
def XMLElement.Attribute : XMLElement → List Char → Option (List Char)
  | .mk _ attributes _ _, name => attributes.lookup name

/-- The call `e.GetText()`. -/
def XMLElement.GetText : XMLElement → Option (List Char)
  | .mk _ _ text _ => text

/-- The range `children(e)`: the child elements in document order. -/
def children : XMLElement → List XMLElement
  | .mk _ _ _ cs => cs

/-- The function `elementis`. -/
def elementis (e : XMLElement) (name : List Char) : Bool :=
  e.Name == name

/-! ## The project parser (src/project.cpp, lines 95-237) -/

/-- The body of the loop of `from_xml<ProjectConfiguration>` (lines 106-123). -/
def projectConfigurationChild (ret : ProjectConfiguration) (e : XMLElement) :
    ProjectConfiguration :=
  match e.GetText with
  | none => ret
  | some text =>
    if elementis e "Configuration".toList then { ret with configuration := text }
    else if elementis e "Platform".toList then
      { ret with
        platformStr := text,
        platform :=
          if text = "Win32".toList then Platform.Win32
          else if text = "x64".toList then Platform.x64
          else Platform.Unknown }
    else ret

/-- The function `from_xml<vcxproj::ProjectConfiguration>`. -/
def from_xml_ProjectConfiguration (xml : XMLElement) : ProjectConfiguration :=
  let ret : ProjectConfiguration :=
    match xml.Attribute "Include".toList with
    | some a => { name := a }
    | none => {}
  (children xml).foldl projectConfigurationChild ret

/-- The body of the inner loop of `from_xml<ItemDefinitionGroup>` (lines 146-167). -/
def clCompileChild (ret : ItemDefinitionGroup) (e : XMLElement) : ItemDefinitionGroup :=
  match e.GetText with
  | none => ret
  | some text =>
    if elementis e "PreprocessorDefinitions".toList then
      { ret with preprocessorDefinitions := text }
    else if elementis e "AdditionalIncludeDirectories".toList then
      { ret with additionalIncludeDirectories := ret.additionalIncludeDirectories ++ text }
    else if elementis e "LanguageStandard".toList then
      if text = "stdcpp14".toList then { ret with cppstd := CppStandard.Cpp14 }
      else if text = "stdcpp17".toList then { ret with cppstd := CppStandard.Cpp17 }
      else if text = "stdcpp20".toList then { ret with cppstd := CppStandard.Cpp20 }
      else if text = "stdcpplatest".toList then { ret with cppstd := CppStandard.CppLatest }
      else ret
    else ret

/-- The body of the outer loop of `from_xml<ItemDefinitionGroup>` (lines 141-168). -/
def itemDefinitionGroupChild (ret : ItemDefinitionGroup) (clcompile : XMLElement) :
    ItemDefinitionGroup :=
  if !elementis clcompile "ClCompile".toList then ret
  else (children clcompile).foldl clCompileChild ret

/-- The function `from_xml<vcxproj::ItemDefinitionGroup>`. -/
def from_xml_ItemDefinitionGroup (xml : XMLElement) : ItemDefinitionGroup :=
  let ret : ItemDefinitionGroup :=
    match xml.Attribute "Condition".toList with
    | some condAttr => { condition := condAttr }
    | none => {}
  (children xml).foldl itemDefinitionGroupChild ret

namespace ProjectParser

/-- The body of the loop over a `ProjectConfigurations` item group (lines 201-207). -/
def projectConfigurationsChild (project : Project) (cfg : XMLElement) : Project :=
  if elementis cfg "ProjectConfiguration".toList then
    let pconf := from_xml_ProjectConfiguration cfg
    if pconf.platform != Platform.Unknown then
      { project with projectConfigurationList := project.projectConfigurationList ++ [pconf] }
    else project
  else project

/-- The body of the loop over any other item group (lines 214-227). -/
def itemGroupChild (project : Project) (e : XMLElement) : Project :=
  if elementis e "ClCompile".toList then
    match e.Attribute "Include".toList with
    | some inc => { project with compileList := project.compileList ++ [inc] }
    | none => project
  else if elementis e "ClInclude".toList then
    match e.Attribute "Include".toList with
    | some inc => { project with includeList := project.includeList ++ [inc] }
    | none => project
  else project

/-- The test `labelAttribute && streq(labelAttribute, "ProjectConfigurations")`. -/
def isProjectConfigurations (node : XMLElement) : Bool :=
  match node.Attribute "Label".toList with
  | some labelAttribute => labelAttribute == "ProjectConfigurations".toList
  | none => false

/-- The body of the loop of `operator()` over the children of the root (lines 193-234). -/
def rootChild (project : Project) (node : XMLElement) : Project :=
  if elementis node "ItemGroup".toList then
    if isProjectConfigurations node then
      (children node).foldl projectConfigurationsChild project
    else
      (children node).foldl itemGroupChild project
  else if elementis node "ItemDefinitionGroup".toList then
    { project with
      itemDefinitionGroupList :=
        project.itemDefinitionGroupList ++ [from_xml_ItemDefinitionGroup node] }
  else project

/-- The function `ProjectParser::operator()`: the project after the walk over `root`. -/
def parse (project : Project) (root : XMLElement) : Project :=
  (children root).foldl rootChild project

end ProjectParser

/-! ## What the spec says of a project file (used to state the properties) -/

/-- The platform a `Platform` text stands for. -/
def platformOf : Option (List Char) → Platform
  | some text =>
    if text = "Win32".toList then Platform.Win32
    else if text = "x64".toList then Platform.x64
    else Platform.Unknown
  | none => Platform.Unknown

/-- The texts of the text-bearing children of `xml` called `name`, in document order. -/
def textsOf (name : List Char) (es : List XMLElement) : List (List Char) :=
  es.filterMap fun e => if e.Name = name then e.GetText else none

/-- The `ProjectConfiguration` elements of the item groups labelled
`ProjectConfigurations` among the children of the root, in document order. -/
def configurationElements (root : XMLElement) : List XMLElement :=
  (children root).flatMap fun node =>
    if node.Name = "ItemGroup".toList ∧
        node.Attribute "Label".toList = some "ProjectConfigurations".toList then
      (children node).filter fun cfg => cfg.Name == "ProjectConfiguration".toList
    else []

/-- The children of the item groups not labelled `ProjectConfigurations` among
the children of the root, in document order. -/
def itemElements (root : XMLElement) : List XMLElement :=
  (children root).flatMap fun node =>
    if node.Name = "ItemGroup".toList ∧
        node.Attribute "Label".toList ≠ some "ProjectConfigurations".toList then
      children node
    else []

/-- The `Include` attributes of the elements called `name`, in order; elements
without the attribute give nothing. -/
def includesOf (name : List Char) (es : List XMLElement) : List (List Char) :=
  es.filterMap fun e => if e.Name = name then e.Attribute "Include".toList else none

/-- The elements under the `ClCompile` children of `xml`, in document order. -/
def clCompileElements (xml : XMLElement) : List XMLElement :=
  (children xml).flatMap fun c => if c.Name = "ClCompile".toList then children c else []

/-- The language standard a `LanguageStandard` text names, if it is one of the
four literals. -/
def standardOf (text : List Char) : Option CppStandard :=
  if text = "stdcpp14".toList then some CppStandard.Cpp14
  else if text = "stdcpp17".toList then some CppStandard.Cpp17
  else if text = "stdcpp20".toList then some CppStandard.Cpp20
  else if text = "stdcpplatest".toList then some CppStandard.CppLatest
  else none

/-- The root element whose only child is
`<ItemDefinitionGroup><ClCompile><LanguageStandard>stdcpp20</LanguageStandard></ClCompile></ItemDefinitionGroup>`. -/
def scenarioRoot : XMLElement :=
  .mk "Project".toList [] none
    [.mk "ItemDefinitionGroup".toList [] none
      [.mk "ClCompile".toList [] none
        [.mk "LanguageStandard".toList [] (some "stdcpp20".toList) []]]]

/-- The measure that decreases with every round of the loop of `evaluate` when
values hold no `$(`: the number of characters from the next `$(` at or after
`start` to the end of the string (0 when there is none). -/
def remaining (s : List Char) (start : Nat) : Nat :=
  match find s tok start with
  | some i => s.length - i
  | none => 0

/-- The start of a project block that is inside a
`ProjectSection(ProjectDependencies)` section: the header line of the block,
the body items read through so far, the header line of the section, and the
lines of the section so far, none of which is its terminator. -/
def OpenDependencies (blockHeader : List Char) (body : List BodyItem) (sectHeader : List Char)
    (lines : List (List Char)) : Prop :=
  IsLine blockHeader ∧ starts_with blockHeader "Project(".toList = true ∧
  (∃ stub, SolutionParser.projectStub blockHeader = .ok stub) ∧
  (∀ item ∈ body, item.WF "EndProject".toList "ProjectSection".toList
    "ProjectSection(ProjectDependencies)".toList "EndProjectSection".toList) ∧
  IsLine sectHeader ∧
  starts_with (simplified sectHeader) "ProjectSection(ProjectDependencies)".toList = true ∧
  ∀ l ∈ lines, IsLine l ∧ simplified l ≠ "EndProjectSection".toList

/-- The start of a global block that is inside a
`GlobalSection(SolutionConfigurationPlatforms)` section, in the same way. -/
def OpenConfigurations (blockHeader : List Char) (body : List BodyItem) (sectHeader : List Char)
    (lines : List (List Char)) : Prop :=
  IsLine blockHeader ∧ starts_with blockHeader "Global".toList = true ∧
  (∀ item ∈ body, item.WF "EndGlobal".toList "GlobalSection(".toList
    "GlobalSection(SolutionConfigurationPlatforms)".toList "EndGlobalSection".toList) ∧
  IsLine sectHeader ∧
  starts_with (simplified sectHeader) "GlobalSection(SolutionConfigurationPlatforms)".toList
    = true ∧
  ∀ l ∈ lines, IsLine l ∧ simplified l ≠ "EndGlobalSection".toList

/-- The lines of a file that stops inside the dependencies section of its only
project block. -/
def openProjectSample : List (List Char) :=
  [ "# header".toList,
    "Project(\"\x7bT\x7d\") = \"App\", \"App.vcxproj\", \"\x7bA\x7d\"".toList,
    "\tProjectSection(ProjectDependencies) = postProject".toList,
    "\t\t\x7bB\x7d = \x7bB\x7d".toList ]

/-- The lines of a file that stops inside the configurations section of its
global block. -/
def openGlobalSample : List (List Char) :=
  [ "# header".toList,
    "Global".toList,
    "\tGlobalSection(SolutionConfigurationPlatforms) = preSolution".toList,
    "\t\tDebug|x64 = Debug|x64".toList ]

/-- The lines of a file that stops inside a project section of another kind. -/
def openOtherSample : List (List Char) :=
  [ "# header".toList,
    "Project(\"\x7bT\x7d\") = \"App\", \"App.vcxproj\", \"\x7bA\x7d\"".toList,
    "\tProjectSection(SolutionItems) = preProject".toList,
    "\t\treadme.txt = readme.txt".toList ]

/-- A project header line indented by two spaces. -/
def indentedHeader : List Char :=
  "  Project(\"\x7bT\x7d\") = \"App\", \"App.vcxproj\", \"\x7bA\x7d\"".toList

/-- The maximal runs of non-whitespace characters of a string, in order: the
pieces between the whitespace characters, the empty ones left out. -/
def runs (s : List Char) : List (List Char) :=
  (s.splitOnP isspace).filter fun w => !w.isEmpty


/-! # Lemmas -/

open SolutionParser

/-! ## Searching and the loop of `evaluate` -/

theorem isPrefixOf_nil_right (pat : List Char) : pat.isPrefixOf [] = true ↔ pat = [] := by
  cases pat <;> simp [List.isPrefixOf]

theorem findIn_eq_none_iff (pat l : List Char) : findIn pat l = none ↔ ¬ pat <:+: l := by
  induction l with
  | nil =>
    cases pat <;> simp [findIn, List.isPrefixOf]
  | cons c cs ih =>
    rw [findIn, List.infix_cons_iff]
    by_cases h : pat.isPrefixOf (c :: cs) = true
    · simp [h, List.isPrefixOf_iff_prefix.mp h]
    · have h' : ¬ pat <+: c :: cs := fun hp => h (List.isPrefixOf_iff_prefix.mpr hp)
      simp [h, h', ih]

theorem find_zero (s pat : List Char) : find s pat 0 = findIn pat s := by
  simp [find]

theorem find_append (pre rest pat : List Char) :
    find (pre ++ rest) pat pre.length = (findIn pat rest).map (· + pre.length) := by
  simp [find]

theorem tok_isPrefixOf_append (c d : Char) (s X : List Char) :
    tok.isPrefixOf (c :: d :: s ++ X) = tok.isPrefixOf (c :: d :: s) := by
  simp [tok, List.isPrefixOf]

theorem findIn_tok_inert (v X : List Char) (h : Inert v) :
    findIn tok (v ++ X) = (findIn tok X).map (· + v.length) := by
  induction v with
  | nil => simp
  | cons c v ih =>
    obtain ⟨h1, h2⟩ := h
    have hv : Inert v := by
      refine ⟨fun hi => h1 (List.infix_cons hi), ?_⟩
      cases v with
      | nil => simp
      | cons d v => simpa [List.getLast?_cons_cons] using h2
    have hp : tok.isPrefixOf (c :: v ++ X) = false := by
      cases v with
      | nil =>
        have hc : c ≠ '$' := by simpa using h2
        cases X <;> simp [tok, List.isPrefixOf, hc, Ne.symm hc]
      | cons d v =>
        rw [tok_isPrefixOf_append]
        by_contra hh
        have hh' : tok.isPrefixOf (c :: d :: v) = true := by simpa using hh
        exact h1 (List.isPrefixOf_iff_prefix.mp hh').isInfix
    have : findIn tok (c :: (v ++ X)) = (findIn tok (v ++ X)).map (· + 1) := by
      rw [findIn]; simp only [List.cons_append] at hp; simp [hp]
    rw [List.cons_append, this, ih hv]
    cases findIn tok X <;> simp [Nat.add_assoc]

theorem findIn_char (c : Char) (n X : List Char) (h : c ∉ n) :
    findIn [c] (n ++ c :: X) = some n.length := by
  induction n with
  | nil => simp [findIn, List.isPrefixOf]
  | cons d n ih =>
    have hd : c ≠ d := fun e => h (by simp [e])
    have hn : c ∉ n := fun e => h (List.mem_cons_of_mem _ e)
    simp [findIn, List.isPrefixOf, hd, ih hn]


theorem evaluateStep_congr (vars : VarTable) (getenv : Env) (readenv : Bool)
    (s : List Char) (a b : Nat) (h : find s tok a = find s tok b) :
    evaluateStep vars getenv readenv s a = evaluateStep vars getenv readenv s b := by
  unfold evaluateStep
  rw [h]

theorem evaluateLoop_congr (vars : VarTable) (getenv : Env) (readenv : Bool)
    (fuel : Nat) (s : List Char) (a b : Nat)
    (h : find s tok a = find s tok b) :
    evaluateLoop vars getenv readenv fuel s a = evaluateLoop vars getenv readenv fuel s b := by
  cases fuel with
  | zero => rfl
  | succ fuel => simp only [evaluateLoop, evaluateStep_congr vars getenv readenv s a b h]

theorem evaluateStep_token (vars : VarTable) (getenv : Env) (readenv : Bool)
    (pre n X : List Char) (hn : ')' ∉ n) :
    evaluateStep vars getenv readenv (pre ++ '$' :: '(' :: (n ++ ')' :: X)) pre.length =
      match resolve vars getenv readenv n with
      | some v => .next (pre ++ v ++ X) pre.length
      | none => .done false (pre ++ '$' :: '(' :: (n ++ ')' :: X)) := by
  have h1 : find (pre ++ '$' :: '(' :: (n ++ ')' :: X)) tok pre.length = some pre.length := by
    rw [find_append]; simp [findIn, tok, List.isPrefixOf]
  have h2 : find (pre ++ '$' :: '(' :: (n ++ ')' :: X)) [')'] pre.length
      = some (pre.length + 2 + n.length) := by
    rw [find_append]
    have := findIn_char ')' ('$' :: '(' :: n) X (by simp [hn])
    simp only [List.cons_append] at this
    rw [this]; simp; omega
  have h3 : substr (pre ++ '$' :: '(' :: (n ++ ')' :: X)) (pre.length + 2)
      (pre.length + 2 + n.length - (pre.length + 2)) = n := by
    have : pre ++ '$' :: '(' :: (n ++ ')' :: X) = (pre ++ ['$', '(']) ++ (n ++ ')' :: X) := by simp
    rw [this, substr]
    have hl : pre.length + 2 = (pre ++ ['$', '(']).length := by simp
    rw [hl, List.drop_left]; simp
  have h4 : ∀ v, replace (pre ++ '$' :: '(' :: (n ++ ')' :: X)) pre.length
      (pre.length + 2 + n.length - pre.length + 1) v = pre ++ v ++ X := by
    intro v
    have : pre ++ '$' :: '(' :: (n ++ ')' :: X) = (pre ++ '$' :: '(' :: (n ++ [')'])) ++ X := by simp
    rw [replace, List.take_left]
    have hl : pre.length + (pre.length + 2 + n.length - pre.length + 1)
        = (pre ++ '$' :: '(' :: (n ++ [')'])).length := by simp; omega
    rw [hl, this, List.drop_left]
  have h5 : pre.length + 2 + n.length + 1 - pre.length = pre.length + 2 + n.length - pre.length + 1 := by
    omega
  unfold evaluateStep
  simp only [h1, h2, h3, h4, h5, resolve]
  cases hl : List.lookup n vars with
  | some v => simp
  | none =>
    cases readenv with
    | false => simp
    | true =>
      cases hg : getenv (c_str n) <;> simp

theorem find_skip (pre : List Char) (c : Char) (X : List Char)
    (h : tok.isPrefixOf (c :: X) = false) :
    find (pre ++ c :: X) tok pre.length = find (pre ++ c :: X) tok (pre.length + 1) := by
  have e : pre ++ c :: X = (pre ++ [c]) ++ X := by simp
  have hl : pre.length + 1 = (pre ++ [c]).length := by simp
  rw [find_append]
  conv_rhs => rw [e, hl, find_append]
  rw [findIn]
  simp only [h]
  cases findIn tok X <;> simp; omega

theorem find_skip_inert (pre v X : List Char) (h : Inert v) :
    find (pre ++ v ++ X) tok pre.length = find (pre ++ v ++ X) tok (pre.length + v.length) := by
  have hl : pre.length + v.length = (pre ++ v).length := by simp
  conv_rhs => rw [hl, find_append]
  rw [List.append_assoc, find_append, findIn_tok_inert v X h]
  cases findIn tok X <;> simp; omega

theorem tok_isPrefixOf_cons_append (c : Char) (s t : List Char)
    (h : tok.isPrefixOf (c :: s) = false) (ht : t.head? ≠ some '(') :
    tok.isPrefixOf (c :: (s ++ t)) = false := by
  cases s with
  | nil =>
    cases t with
    | nil => simp [tok, List.isPrefixOf]
    | cons d t =>
      have hd : d ≠ '(' := by simpa using ht
      simp [tok, List.isPrefixOf, Ne.symm hd]
  | cons d s => simpa [tok, List.isPrefixOf] using h

theorem expands_loop (vars : VarTable) (getenv : Env) (readenv : Bool) {s out : List Char}
    (hval : ∀ n v, resolve vars getenv readenv n = some v → Inert v)
    (h : Expands (resolve vars getenv readenv) s out) :
    ∃ k, k ≤ s.length ∧ ∀ (pre t : List Char) (fuel : Nat), t.head? ≠ some '(' →
      evaluateLoop vars getenv readenv (fuel + k) (pre ++ s ++ t) pre.length
        = evaluateLoop vars getenv readenv fuel (pre ++ out ++ t) (pre.length + out.length) := by
  induction h with
  | nil => exact ⟨0, le_refl _, fun pre t fuel _ => by simp⟩
  | char c s out hc _ ih =>
    obtain ⟨k, hk, ih⟩ := ih
    refine ⟨k, by simp; omega, fun pre t fuel ht => ?_⟩
    have hp := tok_isPrefixOf_cons_append c s t hc ht
    have e1 : pre ++ c :: s ++ t = pre ++ c :: (s ++ t) := by simp
    have e2 : pre ++ c :: (s ++ t) = (pre ++ [c]) ++ s ++ t := by simp
    have e3 : pre ++ c :: out ++ t = (pre ++ [c]) ++ out ++ t := by simp
    rw [e1, evaluateLoop_congr vars getenv readenv _ _ _ _ (find_skip pre c (s ++ t) hp), e2, e3]
    have := ih (pre ++ [c]) t fuel ht
    simp only [List.length_append, List.length_singleton, List.length_cons, List.length_nil,
      Nat.zero_add] at this ⊢
    rw [this]; congr 1; omega
  | token n v q out hn hr _ ih =>
    obtain ⟨k, hk, ih⟩ := ih
    refine ⟨k + 1, by simp; omega, fun pre t fuel ht => ?_⟩
    have e1 : pre ++ '$' :: '(' :: (n ++ ')' :: q) ++ t = pre ++ '$' :: '(' :: (n ++ ')' :: (q ++ t)) := by
      simp
    rw [e1, ← Nat.add_assoc, evaluateLoop, evaluateStep_token vars getenv readenv pre n (q ++ t) hn, hr]
    simp only
    have e2 : pre ++ v ++ (q ++ t) = (pre ++ v) ++ q ++ t := by simp
    have e3 : pre ++ (v ++ out) ++ t = (pre ++ v) ++ out ++ t := by simp
    rw [evaluateLoop_congr vars getenv readenv _ _ _ _ (find_skip_inert pre v (q ++ t) (hval n v hr)), e2, e3]
    have := ih (pre ++ v) t fuel ht
    simp only [List.length_append] at this ⊢
    rw [this]; congr 1; omega

theorem expands_clean {r : List Char → Option (List Char)} {s out : List Char}
    (hval : ∀ n v, r n = some v → Clean v) (h : Expands r s out) :
    ¬ tok <:+: out ∧ (out.head? = some '(' → s.head? = some '(') := by
  induction h with
  | nil => simp [tok]
  | char c s out hc _ ih =>
    obtain ⟨ih1, ih2⟩ := ih
    refine ⟨?_, by simp⟩
    rw [List.infix_cons_iff]
    rintro (hp | hi)
    · have hp' := List.isPrefixOf_iff_prefix.mpr hp
      cases out with
      | nil => simp [tok, List.isPrefixOf] at hp'
      | cons d out =>
        simp only [tok, List.isPrefixOf, Bool.and_true, Bool.and_eq_true, beq_iff_eq] at hp'
        have hs := ih2 (by simp [← hp'.2])
        cases s with
        | nil => simp at hs
        | cons e s =>
          simp at hs
          simp [tok, List.isPrefixOf, ← hp'.1, hs] at hc
    · exact ih1 hi
  | token n v q out hn hr _ ih =>
    obtain ⟨⟨hv1, hv2, hv3⟩, ih⟩ := hval n v hr, ih
    constructor
    · rw [← findIn_eq_none_iff, findIn_tok_inert v out hv1, (findIn_eq_none_iff tok out).mpr ih.1]
      rfl
    · intro hh
      cases v with
      | nil => exact absurd rfl hv2
      | cons d v => exact absurd (by simpa using hh) hv3

theorem findIn_char_eq_none (c : Char) (l : List Char) : findIn [c] l = none ↔ c ∉ l := by
  induction l with
  | nil => simp [findIn, List.isPrefixOf]
  | cons d l ih =>
    by_cases h : c = d
    · subst h; simp [findIn, List.isPrefixOf]
    · simp [findIn, List.isPrefixOf, h, ih]

theorem resolve_false (vars : VarTable) (getenv : Env) (n : List Char) :
    resolve vars getenv false n = List.lookup n vars := by
  unfold resolve
  cases List.lookup n vars <;> simp

theorem evaluateLoop_at_end (vars : VarTable) (getenv : Env) (readenv : Bool)
    (fuel : Nat) (out : List Char) (h : ¬ tok <:+: out) :
    evaluateLoop vars getenv readenv (fuel + 1) out out.length = some (true, out) := by
  have h1 : find out tok out.length = none := by
    have := find_append out [] tok
    simpa [findIn, tok, List.isPrefixOf] using this
  have h2 : find out tok 0 = none := by
    rw [find_zero]; exact (findIn_eq_none_iff tok out).mpr h
  simp [evaluateLoop, evaluateStep, h1, h2]

theorem evaluateStep_done_true (vars : VarTable) (getenv : Env) (readenv : Bool)
    (s : List Char) (start : Nat) (out : List Char)
    (h : evaluateStep vars getenv readenv s start = .done true out) : ¬ tok <:+: out := by
  unfold evaluateStep at h
  split at h
  · simp only [Step.done.injEq, beq_iff_eq] at h
    obtain ⟨h1, h2⟩ := h
    subst h2
    rw [find_zero] at h1
    exact (findIn_eq_none_iff tok s).mp (by simpa using h1)
  · split at h
    · simp at h
    · simp only at h
      split at h
      · simp at h
      · split at h
        · simp at h
        · split at h <;> simp at h

theorem evaluateLoop_true (vars : VarTable) (getenv : Env) (readenv : Bool)
    (fuel : Nat) (s : List Char) (start : Nat) (out : List Char)
    (h : evaluateLoop vars getenv readenv fuel s start = some (true, out)) : ¬ tok <:+: out := by
  induction fuel generalizing s start with
  | zero => simp [evaluateLoop] at h
  | succ fuel ih =>
    rw [evaluateLoop] at h
    split at h
    · rename_i ok s' hs
      simp only [Option.some.injEq, Prod.mk.injEq] at h
      obtain ⟨h1, h2⟩ := h
      subst h1 h2
      exact evaluateStep_done_true vars getenv readenv s start _ hs
    · exact ih _ _ h

theorem reaches_loop (vars : VarTable) (getenv : Env) (readenv : Bool)
    {x y : List Char × Nat} (h : Reaches vars getenv readenv x y) :
    ∃ k, ∀ fuel, evaluateLoop vars getenv readenv (fuel + k) x.1 x.2
      = evaluateLoop vars getenv readenv fuel y.1 y.2 := by
  induction h with
  | here x => exact ⟨0, fun _ => rfl⟩
  | round s start s' start' y hs _ ih =>
    obtain ⟨k, ih⟩ := ih
    refine ⟨k + 1, fun fuel => ?_⟩
    rw [← Nat.add_assoc, evaluateLoop, hs]
    exact ih fuel


/-! ## Reading lines -/

theorem takeWhile_ne_of_not_mem (c : Char) (l : List Char) (h : c ∉ l) :
    l.takeWhile (fun x => x != c) = l := by
  rw [List.takeWhile_eq_self_iff]
  intro x hx
  simpa using fun e : x = c => h (e ▸ hx)

theorem dropWhile_ne_of_not_mem (c : Char) (l : List Char) (h : c ∉ l) :
    l.dropWhile (fun x => x != c) = [] := by
  rw [List.dropWhile_eq_nil_iff]
  intro x hx
  simpa using fun e : x = c => h (e ▸ hx)

theorem takeWhile_ne_append (c : Char) (l X : List Char) (h : c ∉ l) :
    (l ++ c :: X).takeWhile (fun x => x != c) = l := by
  induction l with
  | nil => simp
  | cons d l ih =>
    have hd : d ≠ c := fun e => h (by simp [e])
    have hl : c ∉ l := fun e => h (List.mem_cons_of_mem _ e)
    have hb : (d != c) = true := by simpa using hd
    simp [List.takeWhile_cons, hb, ih hl]

theorem dropWhile_ne_append (c : Char) (l X : List Char) (h : c ∉ l) :
    (l ++ c :: X).dropWhile (fun x => x != c) = c :: X := by
  induction l with
  | nil => simp
  | cons d l ih =>
    have hd : d ≠ c := fun e => h (by simp [e])
    have hl : c ∉ l := fun e => h (List.mem_cons_of_mem _ e)
    have hb : (d != c) = true := by simpa using hd
    simp [List.dropWhile_cons, hb, ih hl]

theorem read_line_streamOf (l : List Char) (ls : List (List Char)) (h : '\n' ∉ l) :
    read_line (streamOf (l :: ls)) = (l, streamOf ls) := by
  cases ls with
  | nil =>
    simp [read_line, streamOf, joinLines, dropWhile_ne_of_not_mem _ _ h, takeWhile_ne_of_not_mem _ _ h]
  | cons l' ls =>
    simp [read_line, streamOf, joinLines, dropWhile_ne_append _ _ _ h, takeWhile_ne_append _ _ _ h]

theorem streamOf_eofbit (ls : List (List Char)) : (streamOf ls).eofbit = ls.isEmpty := by
  cases ls <;> rfl

theorem take_length_takeWhile (p : Char → Bool) (x : List Char) :
    x.take (x.takeWhile p).length = x.takeWhile p := by
  induction x with
  | nil => rfl
  | cons d x ih =>
    by_cases h : p d = true
    · simp [List.takeWhile_cons, h, ih]
    · simp [List.takeWhile_cons, h]

theorem find_char_of_mem (c : Char) (x : List Char) (h : c ∈ x) :
    find x [c] 0 = some (x.takeWhile (fun y => y != c)).length := by
  rw [find_zero]
  induction x with
  | nil => simp at h
  | cons d x ih =>
    by_cases hd : c = d
    · subst hd; simp [findIn, List.isPrefixOf]
    · have hx : c ∈ x := by
        rcases List.mem_cons.mp h with e | e
        · exact absurd e hd
        · exact e
      have hb : (d != c) = true := by simpa using Ne.symm hd
      simp [findIn, List.isPrefixOf, hd, ih hx, List.takeWhile_cons, hb]

theorem find_char_of_not_mem (c : Char) (x : List Char) (h : c ∉ x) : find x [c] 0 = none := by
  rw [find_zero]
  exact (findIn_char_eq_none c x).mpr h

theorem read_line_simplified_streamOf (l : List Char) (ls : List (List Char)) (h : '\n' ∉ l) :
    read_line_simplified (streamOf (l :: ls)) = (simplified l, streamOf ls) := by
  simp [read_line_simplified, read_line_streamOf l ls h]

theorem readDependencies_lines (lines : List (List Char)) (term : List Char)
    (rest : List (List Char)) (project : Project) (fuel : Nat)
    (hl : ∀ l ∈ lines, '\n' ∉ l ∧ simplified l ≠ "EndProjectSection".toList ∧ '=' ∈ simplified l)
    (ht : '\n' ∉ term) (hts : simplified term = "EndProjectSection".toList)
    (hf : lines.length < fuel) :
    readDependencies fuel (streamOf (lines ++ term :: rest)) project
      = .ok ({ project with dependencies := project.dependencies ++ lines.map dependencyOf },
          streamOf rest) := by
  induction lines generalizing project fuel with
  | nil =>
    obtain ⟨fuel, rfl⟩ : ∃ f, fuel = f + 1 := ⟨fuel - 1, by simp at hf; omega⟩
    simp [readDependencies, streamOf_eofbit, read_line_simplified_streamOf term rest ht, hts]
  | cons l lines ih =>
    obtain ⟨fuel, rfl⟩ : ∃ f, fuel = f + 1 := ⟨fuel - 1, by simp at hf; omega⟩
    obtain ⟨h1, h2, h3⟩ := hl l (by simp)
    have hf' : lines.length < fuel := by simp at hf; omega
    rw [List.cons_append, readDependencies]
    simp only [streamOf_eofbit, List.isEmpty_cons, Bool.false_eq_true, ↓reduceIte,
      read_line_simplified_streamOf l _ h1, h2, find_char_of_mem '=' _ h3, take_length_takeWhile]
    rw [ih _ _ (fun l' hl' => hl l' (List.mem_cons_of_mem _ hl')) hf']
    simp [dependencyOf]

theorem readConfigurations_lines (lines : List (List Char)) (term : List Char)
    (rest : List (List Char)) (solution : Solution) (fuel : Nat)
    (hl : ∀ l ∈ lines, '\n' ∉ l ∧ simplified l ≠ "EndGlobalSection".toList ∧ '=' ∈ simplified l)
    (ht : '\n' ∉ term) (hts : simplified term = "EndGlobalSection".toList)
    (hf : lines.length < fuel) :
    readConfigurations fuel (streamOf (lines ++ term :: rest)) solution
      = .ok ({ solution with
                configurations := solution.configurations ++ lines.map configurationOf },
          streamOf rest) := by
  induction lines generalizing solution fuel with
  | nil =>
    obtain ⟨fuel, rfl⟩ : ∃ f, fuel = f + 1 := ⟨fuel - 1, by simp at hf; omega⟩
    simp [readConfigurations, streamOf_eofbit, read_line_simplified_streamOf term rest ht, hts]
  | cons l lines ih =>
    obtain ⟨fuel, rfl⟩ : ∃ f, fuel = f + 1 := ⟨fuel - 1, by simp at hf; omega⟩
    obtain ⟨h1, h2, h3⟩ := hl l (by simp)
    have hf' : lines.length < fuel := by simp at hf; omega
    rw [List.cons_append, readConfigurations]
    simp only [streamOf_eofbit, List.isEmpty_cons, Bool.false_eq_true, ↓reduceIte,
      read_line_simplified_streamOf l _ h1, h2, find_char_of_mem '=' _ h3, take_length_takeWhile]
    rw [ih _ _ (fun l' hl' => hl l' (List.mem_cons_of_mem _ hl')) hf']
    simp [configurationOf]

theorem skipSection_lines (terminator : List Char) (lines : List (List Char)) (term : List Char)
    (rest : List (List Char)) (fuel : Nat)
    (hl : ∀ l ∈ lines, '\n' ∉ l ∧ simplified l ≠ terminator)
    (ht : '\n' ∉ term) (hts : simplified term = terminator)
    (hf : lines.length < fuel) :
    skipSection terminator fuel (streamOf (lines ++ term :: rest)) = .ok (streamOf rest) := by
  induction lines generalizing fuel with
  | nil =>
    obtain ⟨fuel, rfl⟩ : ∃ f, fuel = f + 1 := ⟨fuel - 1, by simp at hf; omega⟩
    simp [skipSection, streamOf_eofbit, read_line_simplified_streamOf term rest ht, hts]
  | cons l lines ih =>
    obtain ⟨fuel, rfl⟩ : ∃ f, fuel = f + 1 := ⟨fuel - 1, by simp at hf; omega⟩
    obtain ⟨h1, h2⟩ := hl l (by simp)
    have hf' : lines.length < fuel := by simp at hf; omega
    rw [List.cons_append, skipSection]
    simp only [streamOf_eofbit, List.isEmpty_cons, Bool.false_eq_true, ↓reduceIte,
      read_line_simplified_streamOf l _ h1, h2]
    exact ih _ (fun l' hl' => hl l' (List.mem_cons_of_mem _ hl')) hf'

theorem mem_dropWhile_of_false (p : Char → Bool) (c : Char) (l : List Char)
    (hc : p c = false) (h : c ∈ l) : c ∈ l.dropWhile p := by
  induction l with
  | nil => simp at h
  | cons d l ih =>
    rw [List.dropWhile_cons]
    split
    · rcases List.mem_cons.mp h with e | e
      · subst e; simp_all
      · exact ih e
    · exact h

theorem mem_rdropWhile_of_false (p : Char → Bool) (c : Char) (l : List Char)
    (hc : p c = false) (h : c ∈ l) : c ∈ l.rdropWhile p := by
  rw [List.rdropWhile, List.mem_reverse]
  exact mem_dropWhile_of_false p c _ hc (List.mem_reverse.mpr h)

theorem dropWhile_cons_head_false (p : Char → Bool) (l : List Char) (d : Char) (r : List Char)
    (h : l.dropWhile p = d :: r) : p d = false := by
  induction l with
  | nil => simp at h
  | cons e l ih =>
    rw [List.dropWhile_cons] at h
    split at h
    · exact ih h
    · cases h; simp_all

theorem length_dropWhile_le (p : Char → Bool) (l : List Char) :
    (l.dropWhile p).length ≤ l.length :=
  (List.dropWhile_suffix p).length_le

theorem mem_simplifiedLoop (c : Char) (hc : isspace c = false) (fuel : Nat) (t : List Char)
    (hf : t.length < fuel) (h : c ∈ t) : c ∈ simplifiedLoop fuel t := by
  induction fuel generalizing t with
  | zero => omega
  | succ fuel ih =>
    rw [simplifiedLoop]
    have hsplit := List.takeWhile_append_dropWhile (fun c => !isspace c) t
    rw [← hsplit] at h
    rcases List.mem_append.mp h with hw | hr
    · split
      · simpa using hw
      · split <;> simp [hw]
    · split
      · rename_i heq; rw [heq] at hr; simp at hr
      · rename_i c0 rest1 heq
        rw [heq] at hr
        have hc0 : isspace c0 = true := by
          have := dropWhile_cons_head_false _ _ _ _ heq
          simpa using this
        have hr2 := mem_dropWhile_of_false isspace c _ hc hr
        have hlen : ((c0 :: rest1).dropWhile isspace).length < fuel := by
          have h1 : (c0 :: rest1).dropWhile isspace = rest1.dropWhile isspace := by
            rw [List.dropWhile_cons]; simp [hc0]
          have h2 := length_dropWhile_le isspace rest1
          have h3 := length_dropWhile_le (fun c => !isspace c) t
          rw [heq] at h3
          simp only [List.length_cons] at h3
          rw [h1]; omega
        split
        · rename_i heq2; rw [heq2] at hr2; simp at hr2
        · rename_i d rest2 heq2
          rw [heq2] at hr2 hlen
          have := ih _ hlen hr2
          simp [this]

theorem mem_simplified (c : Char) (hc : isspace c = false) (l : List Char) (h : c ∈ l) :
    c ∈ simplified l := by
  rw [simplified]
  exact mem_simplifiedLoop c hc _ _ (Nat.lt_succ_self _)
    (mem_dropWhile_of_false _ c _ hc (mem_rdropWhile_of_false _ c _ hc h))

theorem isspace_eq : isspace '=' = false := by decide

theorem readProjectSection_sect (s : Sect)
    (hs : s.WF "ProjectSection".toList "ProjectSection(ProjectDependencies)".toList
      "EndProjectSection".toList)
    (rest : List (List Char)) (project : Project) (fuel : Nat) (hf : s.lines.length < fuel) :
    readProjectSection fuel (simplified s.header)
        (streamOf (s.lines ++ s.terminator :: rest)) project
      = .ok ({ project with
                dependencies := project.dependencies ++
                  (if s.isSpecial "ProjectSection(ProjectDependencies)".toList
                    then s.lines.map dependencyOf else []) },
          streamOf rest) := by
  obtain ⟨_, _, hl, ht, hts⟩ := hs
  rw [readProjectSection]
  by_cases hk : s.isSpecial "ProjectSection(ProjectDependencies)".toList = true
  · have hk' : starts_with (simplified s.header) "ProjectSection(ProjectDependencies)".toList
        = true := hk
    rw [if_pos hk', if_pos hk]
    exact readDependencies_lines _ _ _ _ _
      (fun l hl' => ⟨(hl l hl').1, (hl l hl').2.1,
        mem_simplified '=' isspace_eq l ((hl l hl').2.2 hk)⟩) ht hts hf
  · have hk' : ¬ starts_with (simplified s.header) "ProjectSection(ProjectDependencies)".toList
        = true := hk
    rw [if_neg hk', if_neg hk,
      skipSection_lines _ _ _ _ _ (fun l hl' => ⟨(hl l hl').1, (hl l hl').2.1⟩) ht hts hf]
    simp

theorem readGlobalSection_sect (s : Sect)
    (hs : s.WF "GlobalSection(".toList "GlobalSection(SolutionConfigurationPlatforms)".toList
      "EndGlobalSection".toList)
    (rest : List (List Char)) (solution : Solution) (fuel : Nat) (hf : s.lines.length < fuel) :
    readGlobalSection fuel (simplified s.header)
        (streamOf (s.lines ++ s.terminator :: rest)) solution
      = .ok ({ solution with
                configurations := solution.configurations ++
                  (if s.isSpecial "GlobalSection(SolutionConfigurationPlatforms)".toList
                    then s.lines.map configurationOf else []) },
          streamOf rest) := by
  obtain ⟨_, _, hl, ht, hts⟩ := hs
  rw [readGlobalSection]
  by_cases hk : s.isSpecial "GlobalSection(SolutionConfigurationPlatforms)".toList = true
  · have hk' : starts_with (simplified s.header)
        "GlobalSection(SolutionConfigurationPlatforms)".toList = true := hk
    rw [if_pos hk', if_pos hk]
    exact readConfigurations_lines _ _ _ _ _
      (fun l hl' => ⟨(hl l hl').1, (hl l hl').2.1,
        mem_simplified '=' isspace_eq l ((hl l hl').2.2 hk)⟩) ht hts hf
  · have hk' : ¬ starts_with (simplified s.header)
        "GlobalSection(SolutionConfigurationPlatforms)".toList = true := hk
    rw [if_neg hk', if_neg hk,
      skipSection_lines _ _ _ _ _ (fun l hl' => ⟨(hl l hl').1, (hl l hl').2.1⟩) ht hts hf]
    simp

theorem length_renderBody_cons (item : BodyItem) (body : List BodyItem) :
    (renderBody (item :: body)).length = item.render.length + (renderBody body).length := by
  simp [renderBody]

theorem starts_with_ne (x opener other : List Char) (h : starts_with x opener = true)
    (hne : starts_with other opener = false) : x ≠ other := by
  intro e; rw [e] at h; rw [h] at hne; cases hne

theorem readProjectBody_body (body : List BodyItem) (term : List Char) (rest : List (List Char))
    (solution : Solution) (ps : List Project) (p : Project) (fuel : Nat)
    (hb : ∀ item ∈ body, item.WF "EndProject".toList "ProjectSection".toList
      "ProjectSection(ProjectDependencies)".toList "EndProjectSection".toList)
    (ht : IsLine term) (hts : simplified term = "EndProject".toList)
    (hf : (renderBody body).length < fuel) :
    readProjectBody fuel (streamOf (renderBody body ++ term :: rest))
        { solution with projects := ps ++ [p] }
      = .ok ({ solution with
                projects := ps ++ [{ p with dependencies := p.dependencies ++ dependenciesOf body }] },
          streamOf rest) := by
  induction body generalizing p fuel with
  | nil =>
    obtain ⟨fuel, rfl⟩ : ∃ f, fuel = f + 1 := ⟨fuel - 1, by omega⟩
    simp [readProjectBody, renderBody, streamOf_eofbit, read_line_streamOf term rest ht, hts,
      dependenciesOf, entriesOf]
  | cons item body ih =>
    obtain ⟨fuel, rfl⟩ : ∃ f, fuel = f + 1 := ⟨fuel - 1, by omega⟩
    have hb' : ∀ item ∈ body, item.WF "EndProject".toList "ProjectSection".toList
      "ProjectSection(ProjectDependencies)".toList "EndProjectSection".toList :=
      fun i hi => hb i (List.mem_cons_of_mem _ hi)
    have hitem := hb item (by simp)
    rw [length_renderBody_cons] at hf
    cases item with
    | line l =>
      obtain ⟨h1, h2, h3⟩ := hitem
      have hf' : (renderBody body).length < fuel := by simp [BodyItem.render] at hf; omega
      have e : renderBody (BodyItem.line l :: body) ++ term :: rest
          = l :: (renderBody body ++ term :: rest) := by simp [renderBody, BodyItem.render]
      rw [e, readProjectBody]
      simp only [streamOf_eofbit, List.isEmpty_cons, Bool.false_eq_true, ↓reduceIte,
        read_line_streamOf l _ h1, h2, h3]
      rw [ih _ _ hb' hf']
      simp [dependenciesOf, entriesOf]
    | sect s =>
      have hs : s.WF "ProjectSection".toList "ProjectSection(ProjectDependencies)".toList
        "EndProjectSection".toList := hitem
      have hhead := hs.1
      have hopen := hs.2.1
      have hne : simplified s.header ≠ "EndProject".toList :=
        starts_with_ne _ _ _ hopen (by decide)
      have hf1 : s.lines.length < fuel := by
        simp [BodyItem.render, Sect.render] at hf; omega
      have hf2 : (renderBody body).length < fuel := by
        simp [BodyItem.render, Sect.render] at hf; omega
      have e : renderBody (BodyItem.sect s :: body) ++ term :: rest
          = s.header :: (s.lines ++ s.terminator :: (renderBody body ++ term :: rest)) := by
        simp [renderBody, BodyItem.render, Sect.render]
      have hlast : (ps ++ [p]).getLast? = some p := by simp
      have hdrop : (ps ++ [p]).dropLast = ps := by simp
      rw [e, readProjectBody]
      simp only [streamOf_eofbit, List.isEmpty_cons, Bool.false_eq_true, ↓reduceIte,
        read_line_streamOf s.header _ hhead, hne, hopen, hlast, hdrop,
        readProjectSection_sect s hs _ _ fuel hf1]
      rw [ih _ _ hb' hf2]
      simp [dependenciesOf, entriesOf, List.append_assoc]

theorem splitLoop_last (sep : Char) (fuel : Nat) (a : List Char) (h : sep ∉ a) :
    splitLoop sep (fuel + 1) a = [a] := by
  simp [splitLoop, dropWhile_ne_of_not_mem sep a h, takeWhile_ne_of_not_mem sep a h]

theorem splitLoop_piece (sep : Char) (fuel : Nat) (a b : List Char) (h : sep ∉ a) :
    splitLoop sep (fuel + 1) (a ++ sep :: b) = a :: splitLoop sep fuel b := by
  simp [splitLoop, dropWhile_ne_append sep a b h, takeWhile_ne_append sep a b h]

/-- The three fields of a normalised header remainder `"N", "P", "{I}"`. -/
theorem split_three (a b c : List Char) (ha : ',' ∉ a) (hb : ',' ∉ b) (hc : ',' ∉ c)
    (ha' : a ≠ []) (hb' : b ≠ []) (hc' : c ≠ []) :
    split (a ++ ',' :: (b ++ ',' :: c)) ',' = [a, b, c] := by
  have hlen : (a ++ ',' :: (b ++ ',' :: c)).length + 1 = (a.length + b.length + c.length) + 3 := by
    simp; omega
  rw [split, hlen, splitLoop_piece _ _ a _ ha, splitLoop_piece _ _ b _ hb, splitLoop_last _ _ c hc]
  cases a <;> cases b <;> cases c <;> simp_all

theorem find_eq_first (pre rest : List Char) (h : '=' ∉ pre) :
    find (pre ++ '=' :: rest) ['='] 0 = some pre.length := by
  rw [find_zero]; exact findIn_char '=' pre rest h

theorem trimmed_quoted (x : List Char) :
    trimmed (' ' :: '\x22' :: (x ++ ['\x22'])) = '\x22' :: (x ++ ['\x22']) := by
  have e : ' ' :: '\x22' :: (x ++ ['\x22']) = (' ' :: '\x22' :: x) ++ ['\x22'] := by simp
  have h1 : (' ' :: '\x22' :: (x ++ ['\x22'])).rdropWhile isspace = ' ' :: '\x22' :: (x ++ ['\x22']) := by
    rw [e, List.rdropWhile_concat_neg]; decide
  rw [trimmed, h1, List.dropWhile_cons]
  simp [isspace, List.dropWhile_cons]

theorem unquoted_quoted (x : List Char) : unquoted ('\x22' :: (x ++ ['\x22'])) = x := by
  have h1 : ('\x22' :: (x ++ ['\x22'])).getLast? = some '\x22' := by
    rw [← List.cons_append, List.getLast?_append]; simp
  have h2 : ('\x22' :: (x ++ ['\x22'])).dropLast = '\x22' :: x := by
    rw [← List.cons_append, List.dropLast_concat]
  simp [unquoted, ends_with, h1, h2]

theorem unbraced_braced (x : List Char) : unbraced ('\x7b' :: (x ++ ['\x7d'])) = x := by
  have h1 : ('\x7b' :: (x ++ ['\x7d'])).getLast? = some '\x7d' := by
    rw [← List.cons_append, List.getLast?_append]; simp
  have h2 : ('\x7b' :: (x ++ ['\x7d'])).dropLast = '\x7b' :: x := by
    rw [← List.cons_append, List.dropLast_concat]
  simp [unbraced, ends_with, h1, h2]

theorem projectStub_fields (pre rest N P I : List Char) (hpre : '=' ∉ pre)
    (hN : ',' ∉ N) (hP : ',' ∉ P) (hI : ',' ∉ I)
    (hrest : simplified rest = '\x22' :: (N ++ ['\x22']) ++ ',' ::
      ((' ' :: '\x22' :: (P ++ ['\x22'])) ++ ',' :: (' ' :: '\x22' :: (('\x7b' :: (I ++ ['\x7d'])) ++ ['\x22'])))) :
    projectStub (pre ++ '=' :: rest) = .ok { name := N, filepath := P, id := I } := by
  have hd : (pre ++ '=' :: rest).drop (pre.length + 1) = rest := by
    have : pre ++ '=' :: rest = (pre ++ ['=']) ++ rest := by simp
    rw [this]
    have hl : pre.length + 1 = (pre ++ ['=']).length := by simp
    rw [hl, List.drop_left]
  have hsplit := split_three ('\x22' :: (N ++ ['\x22'])) (' ' :: '\x22' :: (P ++ ['\x22']))
    (' ' :: '\x22' :: (('\x7b' :: (I ++ ['\x7d'])) ++ ['\x22']))
    (by simp [hN]) (by simp [hP]) (by simp [hI]) (by simp) (by simp) (by simp)
  rw [projectStub]
  simp only [find_eq_first pre rest hpre, hd, hrest, hsplit, vectorAt]
  simp only [List.getElem?_cons_zero, List.getElem?_cons_succ, unquoted_quoted, trimmed_quoted,
    unbraced_braced]

theorem projectStub_dependencies (line : List Char) (stub : Project)
    (h : projectStub line = .ok stub) : stub.dependencies = [] := by
  rw [projectStub] at h
  split at h
  · cases h; rfl
  · cases h

theorem readGlobal_body (body : List BodyItem) (term : List Char) (rest : List (List Char))
    (solution : Solution) (fuel : Nat)
    (hb : ∀ item ∈ body, item.WF "EndGlobal".toList "GlobalSection(".toList
      "GlobalSection(SolutionConfigurationPlatforms)".toList "EndGlobalSection".toList)
    (ht : IsLine term) (hts : simplified term = "EndGlobal".toList)
    (hf : (renderBody body).length < fuel) :
    readGlobal fuel (streamOf (renderBody body ++ term :: rest)) solution
      = .ok ({ solution with
                configurations := solution.configurations ++ configurationsOf body },
          streamOf rest) := by
  induction body generalizing solution fuel with
  | nil =>
    obtain ⟨fuel, rfl⟩ : ∃ f, fuel = f + 1 := ⟨fuel - 1, by omega⟩
    simp [readGlobal, renderBody, streamOf_eofbit, read_line_simplified_streamOf term rest ht, hts,
      configurationsOf, entriesOf]
  | cons item body ih =>
    obtain ⟨fuel, rfl⟩ : ∃ f, fuel = f + 1 := ⟨fuel - 1, by omega⟩
    have hb' : ∀ item ∈ body, item.WF "EndGlobal".toList "GlobalSection(".toList
      "GlobalSection(SolutionConfigurationPlatforms)".toList "EndGlobalSection".toList :=
      fun i hi => hb i (List.mem_cons_of_mem _ hi)
    have hitem := hb item (by simp)
    rw [length_renderBody_cons] at hf
    cases item with
    | line l =>
      obtain ⟨h1, h2, h3⟩ := hitem
      have hf' : (renderBody body).length < fuel := by simp [BodyItem.render] at hf; omega
      have e : renderBody (BodyItem.line l :: body) ++ term :: rest
          = l :: (renderBody body ++ term :: rest) := by simp [renderBody, BodyItem.render]
      rw [e, readGlobal]
      simp only [streamOf_eofbit, List.isEmpty_cons, Bool.false_eq_true, ↓reduceIte,
        read_line_simplified_streamOf l _ h1, h2, h3]
      rw [ih _ _ hb' hf']
      simp [configurationsOf, entriesOf]
    | sect s =>
      have hs : s.WF "GlobalSection(".toList
        "GlobalSection(SolutionConfigurationPlatforms)".toList "EndGlobalSection".toList := hitem
      have hhead := hs.1
      have hopen := hs.2.1
      have hne : simplified s.header ≠ "EndGlobal".toList :=
        starts_with_ne _ _ _ hopen (by decide)
      have hf1 : s.lines.length < fuel := by
        simp [BodyItem.render, Sect.render] at hf; omega
      have hf2 : (renderBody body).length < fuel := by
        simp [BodyItem.render, Sect.render] at hf; omega
      have e : renderBody (BodyItem.sect s :: body) ++ term :: rest
          = s.header :: (s.lines ++ s.terminator :: (renderBody body ++ term :: rest)) := by
        simp [renderBody, BodyItem.render, Sect.render]
      rw [e, readGlobal]
      simp only [streamOf_eofbit, List.isEmpty_cons, Bool.false_eq_true, ↓reduceIte,
        read_line_simplified_streamOf s.header _ hhead, hne, hopen,
        readGlobalSection_sect s hs _ _ fuel hf1]
      rw [ih _ _ hb' hf2]
      simp [configurationsOf, entriesOf, List.append_assoc]

theorem starts_with_head (x : List Char) (a b : Char) (as bs : List Char)
    (h : starts_with x (a :: as) = true) (hab : a ≠ b) : starts_with x (b :: bs) = false := by
  cases x with
  | nil => simp [starts_with, List.isPrefixOf] at h
  | cons c x =>
    simp only [starts_with, List.isPrefixOf, Bool.and_eq_true, beq_iff_eq] at h
    have : b ≠ c := by rw [← h.1]; exact Ne.symm hab
    simp [starts_with, List.isPrefixOf, this]

theorem length_renderItems_cons (item : TopItem) (items : List TopItem) :
    (renderItems (item :: items)).length = item.render.length + (renderItems items).length := by
  simp [renderItems]

theorem topLevel_items (items : List TopItem) (solution : Solution) (fuel : Nat)
    (hwf : ∀ item ∈ items, item.WF) (hf : (renderItems items).length < fuel) :
    topLevel fuel (streamOf (renderItems items)) solution
      = .ok (items.foldl TopItem.apply solution) := by
  induction items generalizing solution fuel with
  | nil =>
    obtain ⟨fuel, rfl⟩ : ∃ f, fuel = f + 1 := ⟨fuel - 1, by omega⟩
    simp [topLevel, renderItems, streamOf_eofbit]
  | cons item items ih =>
    obtain ⟨fuel, rfl⟩ : ∃ f, fuel = f + 1 := ⟨fuel - 1, by omega⟩
    have hwf' : ∀ item ∈ items, item.WF := fun i hi => hwf i (List.mem_cons_of_mem _ hi)
    have hitem := hwf item (by simp)
    rw [length_renderItems_cons] at hf
    rw [List.foldl_cons]
    cases item with
    | line l =>
      obtain ⟨h1, h2, h3, h4⟩ := hitem
      have hf' : (renderItems items).length < fuel := by simp [TopItem.render] at hf; omega
      have e : renderItems (TopItem.line l :: items) = l :: renderItems items := by
        simp [renderItems, TopItem.render]
      rw [e, topLevel]
      simp only [streamOf_eofbit, List.isEmpty_cons, Bool.false_eq_true, ↓reduceIte,
        read_line_streamOf l _ h1, h2, h3]
      by_cases hv : starts_with l
          "Microsoft Visual Studio Solution File, Format Version".toList = true
      · have hlen := h4 hv
        simp only [hv, ↓reduceIte, readVersion, Nat.not_lt.mpr hlen, TopItem.apply]
        exact ih _ _ hwf' hf'
      · simp only [hv, Bool.false_eq_true, ↓reduceIte, TopItem.apply]
        exact ih _ _ hwf' hf'
    | project b =>
      obtain ⟨h1, h2, ⟨stub, h3⟩, h4, h5, h6⟩ := hitem
      have hv : starts_with b.header
          "Microsoft Visual Studio Solution File, Format Version".toList = false :=
        starts_with_head b.header 'P' 'M' _ _ h2 (by decide)
      have hf1 : (renderBody b.body).length < fuel := by
        simp [TopItem.render, Block.render] at hf; omega
      have hf2 : (renderItems items).length < fuel := by
        simp [TopItem.render, Block.render] at hf; omega
      have e : renderItems (TopItem.project b :: items)
          = b.header :: (renderBody b.body ++ b.terminator :: renderItems items) := by
        simp [renderItems, TopItem.render, Block.render]
      rw [e, topLevel]
      simp only [streamOf_eofbit, List.isEmpty_cons, Bool.false_eq_true, ↓reduceIte,
        read_line_streamOf b.header _ h1, hv, h2, readProject, h3,
        readProjectBody_body b.body b.terminator _ solution solution.projects stub fuel h4 h5 h6 hf1,
        TopItem.apply, Block.project?, projectStub_dependencies _ _ h3, List.nil_append]
      exact ih _ _ hwf' hf2
    | global b =>
      obtain ⟨h1, h2, h4, h5, h6⟩ := hitem
      have hv : starts_with b.header
          "Microsoft Visual Studio Solution File, Format Version".toList = false :=
        starts_with_head b.header 'G' 'M' _ _ h2 (by decide)
      have hp : starts_with b.header "Project(".toList = false :=
        starts_with_head b.header 'G' 'P' _ _ h2 (by decide)
      have hf1 : (renderBody b.body).length < fuel := by
        simp [TopItem.render, Block.render] at hf; omega
      have hf2 : (renderItems items).length < fuel := by
        simp [TopItem.render, Block.render] at hf; omega
      have e : renderItems (TopItem.global b :: items)
          = b.header :: (renderBody b.body ++ b.terminator :: renderItems items) := by
        simp [renderItems, TopItem.render, Block.render]
      rw [e, topLevel]
      simp only [streamOf_eofbit, List.isEmpty_cons, Bool.false_eq_true, ↓reduceIte,
        read_line_streamOf b.header _ h1, hv, hp, h2,
        readGlobal_body b.body b.terminator _ solution fuel h4 h5 h6 hf1, TopItem.apply]
      exact ih _ _ hwf' hf2

theorem length_le_joinLines (ls : List (List Char)) : ls.length ≤ (joinLines ls).length + 1 := by
  induction ls with
  | nil => simp
  | cons l ls ih =>
    cases ls with
    | nil => simp [joinLines]
    | cons l' ls =>
      simp only [joinLines, List.length_cons, List.length_append] at ih ⊢
      omega

theorem parseSolution_items (first : List Char) (items : List TopItem)
    (hfirst : IsLine first) (hwf : ∀ item ∈ items, item.WF) :
    parseSolution (joinLines (first :: renderItems items))
      = .ok (items.foldl TopItem.apply {}) := by
  have h := length_le_joinLines (first :: renderItems items)
  simp only [List.length_cons] at h
  have hs : ({ buf := joinLines (first :: renderItems items), eofbit := false } : IStream)
      = streamOf (first :: renderItems items) := rfl
  rw [parseSolution, parse, hs, read_line_streamOf first _ hfirst]
  exact topLevel_items items {} _ hwf (by omega)

theorem foldl_apply_projects (items : List TopItem) (solution : Solution) :
    (items.foldl TopItem.apply solution).projects
      = solution.projects ++ items.filterMap TopItem.project? := by
  induction items generalizing solution with
  | nil => simp
  | cons item items ih =>
    rw [List.foldl_cons, ih]
    cases item with
    | line l =>
      simp only [TopItem.apply, TopItem.project?, List.filterMap_cons]
      split <;> rfl
    | project b =>
      simp only [TopItem.apply, TopItem.project?, List.filterMap_cons]
      cases b.project? <;> simp
    | global b => simp [TopItem.apply, TopItem.project?]

theorem dropWhile_append_false (p : Char → Bool) (x : List Char) (c : Char) (y : List Char)
    (hc : p c = false) : (x ++ c :: y).dropWhile p = x.dropWhile p ++ c :: y := by
  induction x with
  | nil => simp [List.dropWhile_cons, hc]
  | cons d x ih =>
    by_cases hd : p d = true
    · simp [List.dropWhile_cons, hd, ih]
    · simp [List.dropWhile_cons, hd]

theorem rdropWhile_append_false (p : Char → Bool) (a : List Char) (c : Char) (b : List Char)
    (hc : p c = false) : (a ++ c :: b).rdropWhile p = a ++ c :: b.rdropWhile p := by
  simp only [List.rdropWhile, List.reverse_append, List.reverse_cons, List.append_assoc,
    List.singleton_append]
  rw [dropWhile_append_false p _ c _ hc]
  simp

theorem dropWhile_all (p : Char → Bool) (x y : List Char) (hx : ∀ c ∈ x, p c = true) :
    (x ++ y).dropWhile p = y.dropWhile p := by
  induction x with
  | nil => rfl
  | cons d x ih =>
    have hd := hx d (by simp)
    simp [List.dropWhile_cons, hd, ih (fun c hc => hx c (List.mem_cons_of_mem _ hc))]

theorem takeWhile_all (p : Char → Bool) (x y : List Char) (hx : ∀ c ∈ x, p c = true) :
    (x ++ y).takeWhile p = x ++ y.takeWhile p := by
  induction x with
  | nil => rfl
  | cons d x ih =>
    have hd := hx d (by simp)
    simp [List.takeWhile_cons, hd, ih (fun c hc => hx c (List.mem_cons_of_mem _ hc))]

theorem simplifiedLoop_prefix (fuel : Nat) (t : List Char) :
    ∃ Z, simplifiedLoop (fuel + 1) t = t.takeWhile (fun c => !isspace c) ++ Z := by
  rw [simplifiedLoop]
  split
  · exact ⟨[], by simp⟩
  · split
    · exact ⟨_, rfl⟩
    · exact ⟨_, rfl⟩

/-- The normalised form of `lead w mid c x`, for a word `w` and a
non-whitespace `c`: the word, one space if `mid` is not empty, then `c`. -/
theorem simplified_word (lead w mid : List Char) (c : Char) (x : List Char)
    (hlead : ∀ a ∈ lead, isspace a = true) (hw : ∀ a ∈ w, isspace a = false) (hw' : w ≠ [])
    (hmid : ∀ a ∈ mid, isspace a = true) (hc : isspace c = false) :
    ∃ Y, simplified (lead ++ (w ++ (mid ++ c :: x)))
      = w ++ ((if mid = [] then [] else [' ']) ++ c :: Y) := by
  have hnw : ∀ a ∈ w, (fun c => !isspace c) a = true := fun a ha => by simp [hw a ha]
  obtain ⟨w0, w1, rfl⟩ : ∃ w0 w1, w = w0 :: w1 := by
    cases w with
    | nil => exact absurd rfl hw'
    | cons a b => exact ⟨a, b, rfl⟩
  have hw0 : isspace w0 = false := hw w0 (by simp)
  -- trimming
  have e1 : lead ++ (w0 :: w1 ++ (mid ++ c :: x)) = (lead ++ (w0 :: w1 ++ mid)) ++ c :: x := by simp
  have h1 : (lead ++ (w0 :: w1 ++ (mid ++ c :: x))).rdropWhile isspace
      = lead ++ (w0 :: (w1 ++ (mid ++ c :: x.rdropWhile isspace))) := by
    rw [e1, rdropWhile_append_false _ _ _ _ hc]; simp
  have h2 : (lead ++ (w0 :: (w1 ++ (mid ++ c :: x.rdropWhile isspace)))).dropWhile isspace
      = w0 :: (w1 ++ (mid ++ c :: x.rdropWhile isspace)) := by
    rw [dropWhile_all _ _ _ hlead, List.dropWhile_cons]; simp [hw0]
  rw [simplified, h1, h2]
  generalize x.rdropWhile isspace = x'
  cases mid with
  | nil =>
    obtain ⟨Z, hZ⟩ := simplifiedLoop_prefix (w0 :: (w1 ++ ([] ++ c :: x'))).length
      (w0 :: (w1 ++ ([] ++ c :: x')))
    rw [hZ]
    have e2 : w0 :: (w1 ++ ([] ++ c :: x')) = (w0 :: w1) ++ c :: x' := by simp
    rw [e2, takeWhile_all _ _ _ hnw, List.takeWhile_cons]
    simp only [hc, Bool.not_false, ↓reduceIte, if_true]
    exact ⟨x'.takeWhile (fun c => !isspace c) ++ Z, by simp⟩
  | cons m mid =>
    have hm : isspace m = true := hmid m (by simp)
    have hmid' : ∀ a ∈ mid, isspace a = true := fun a ha => hmid a (List.mem_cons_of_mem _ ha)
    have e2 : w0 :: (w1 ++ (m :: mid ++ c :: x')) = (w0 :: w1) ++ m :: (mid ++ c :: x') := by simp
    have ht : ((w0 :: w1) ++ m :: (mid ++ c :: x')).takeWhile (fun c => !isspace c) = w0 :: w1 := by
      rw [takeWhile_all _ _ _ hnw, List.takeWhile_cons]; simp [hm]
    have hd : ((w0 :: w1) ++ m :: (mid ++ c :: x')).dropWhile (fun c => !isspace c)
        = m :: (mid ++ c :: x') := by
      rw [dropWhile_all _ _ _ hnw, List.dropWhile_cons]; simp [hm]
    have hd2 : (m :: (mid ++ c :: x')).dropWhile isspace = c :: x' := by
      rw [List.dropWhile_cons]; simp only [hm, ↓reduceIte]
      rw [dropWhile_all _ _ _ hmid', List.dropWhile_cons]; simp [hc]
    have hlen : ((w0 :: w1) ++ m :: (mid ++ c :: x')).length + 1
        = (w1.length + mid.length + x'.length + 2) + 1 + 1 := by simp; omega
    rw [e2, hlen, simplifiedLoop]
    simp only [ht, hd, hd2]
    obtain ⟨Z, hZ⟩ := simplifiedLoop_prefix (w1.length + mid.length + x'.length + 2) (c :: x')
    rw [hZ, List.takeWhile_cons]
    simp only [hc, Bool.not_false, ↓reduceIte, if_true]
    exact ⟨x'.takeWhile (fun c => !isspace c) ++ Z, by simp⟩

theorem trimmed_word (w0 : Char) (w1 : List Char) (e : Char) (sp : List Char)
    (hw0 : isspace w0 = false) (he : isspace e = false) (hsp : ∀ a ∈ sp, isspace a = true) :
    trimmed (w0 :: (w1 ++ e :: sp)) = w0 :: (w1 ++ [e]) := by
  have e1 : w0 :: (w1 ++ e :: sp) = (w0 :: w1) ++ e :: sp := by simp
  have h1 : sp.rdropWhile isspace = [] := by
    rw [List.rdropWhile, List.reverse_eq_nil_iff, List.dropWhile_eq_nil_iff]
    intro a ha
    exact hsp a (List.mem_reverse.mp ha)
  rw [trimmed, e1, rdropWhile_append_false _ _ _ _ he, h1, List.cons_append, List.dropWhile_cons]
  simp [hw0]

theorem dependencyLine_spec (d : DependencyLine) (hd : d.WF) :
    IsLine d.render ∧ simplified d.render ≠ "EndProjectSection".toList ∧ '=' ∈ d.render ∧
      dependencyOf d.render = d.id := by
  obtain ⟨hlead, hid, hmid, hrhs⟩ := hd
  have hw : ∀ a ∈ '\x7b' :: (d.id ++ ['\x7d']), isspace a = false := by
    intro a ha
    simp only [List.mem_cons, List.mem_append, List.mem_singleton, List.not_mem_nil,
      or_false] at ha
    rcases ha with rfl | ha | rfl
    · decide
    · exact (hid a ha).1
    · decide
  have hr : d.render = d.lead ++ (('\x7b' :: (d.id ++ ['\x7d'])) ++ (d.mid ++ '=' :: d.rhs)) := by
    simp [DependencyLine.render]
  obtain ⟨Y, hY⟩ := simplified_word d.lead ('\x7b' :: (d.id ++ ['\x7d'])) d.mid '=' d.rhs
    (fun a ha => (hlead a ha).1) hw (by simp) (fun a ha => (hmid a ha).1) (by decide)
  rw [← hr] at hY
  have hnl : ∀ a ∈ d.id, a ≠ '\n' := by
    intro a ha e
    have := (hid a ha).1
    rw [e] at this
    exact absurd this (by decide)
  refine ⟨?_, ?_, ?_, ?_⟩
  · intro hmem
    simp only [DependencyLine.render, List.mem_append, List.mem_cons] at hmem
    rcases hmem with h | h | h | h | h | h | h
    · exact (hlead _ h).2 rfl
    · exact absurd h (by decide)
    · exact hnl _ h rfl
    · exact absurd h (by decide)
    · exact (hmid _ h).2 rfl
    · exact absurd h (by decide)
    · exact hrhs h
  · rw [hY]
    intro h
    have := congrArg List.head? h
    simp at this
  · simp [DependencyLine.render]
  · have hne : '=' ∉ '\x7b' :: (d.id ++ ['\x7d']) := by
      intro hmem
      simp only [List.mem_cons, List.mem_append, List.mem_singleton, List.not_mem_nil,
        or_false] at hmem
      rcases hmem with h | h | h
      · exact absurd h (by decide)
      · exact (hid _ h).2 rfl
      · exact absurd h (by decide)
    rw [dependencyOf, hY]
    by_cases hm : d.mid = []
    · simp only [hm, ↓reduceIte, List.nil_append]
      rw [takeWhile_ne_append '=' _ _ hne]
      have := trimmed_word '\x7b' d.id '\x7d' [] (by decide) (by decide) (by simp)
      rw [this, unbraced_braced]
    · simp only [hm, ↓reduceIte]
      have e : '\x7b' :: (d.id ++ ['\x7d']) ++ ([' '] ++ '=' :: Y)
          = ('\x7b' :: (d.id ++ ['\x7d', ' '])) ++ '=' :: Y := by simp
      have hne' : '=' ∉ '\x7b' :: (d.id ++ ['\x7d', ' ']) := by
        intro hmem
        simp only [List.mem_cons, List.mem_append, List.mem_singleton, List.not_mem_nil,
          or_false] at hmem
        rcases hmem with h | h | h | h
        · exact absurd h (by decide)
        · exact (hid _ h).2 rfl
        · exact absurd h (by decide)
        · exact absurd h (by decide)
      rw [e, takeWhile_ne_append '=' _ _ hne']
      have := trimmed_word '\x7b' d.id '\x7d' [' '] (by decide) (by decide) (by simp; decide)
      rw [this, unbraced_braced]

theorem starts_with_append (x a b : List Char) (h : starts_with x (a ++ b) = true) :
    starts_with x a = true := by
  rw [starts_with, List.isPrefixOf_iff_prefix] at *
  exact (List.prefix_append a b).trans h

theorem entriesOf_append (special : List Char) (entry : List Char → List Char)
    (a b : List BodyItem) :
    entriesOf special entry (a ++ b) = entriesOf special entry a ++ entriesOf special entry b := by
  simp [entriesOf]

theorem entriesOf_eq_nil (special : List Char) (entry : List Char → List Char)
    (body : List BodyItem) (h : ∀ s, BodyItem.sect s ∈ body → s.isSpecial special = false) :
    entriesOf special entry body = [] := by
  induction body with
  | nil => rfl
  | cons item body ih =>
    have ih' := ih (fun s hs => h s (List.mem_cons_of_mem _ hs))
    cases item with
    | line l => simpa [entriesOf] using ih'
    | sect s =>
      have hs := h s (by simp)
      simp only [entriesOf, List.flatMap_cons, hs, Bool.false_eq_true, ↓reduceIte,
        List.nil_append]
      exact ih'


theorem forall₂_projectBlocks (items : List TopItem) (hwf : ∀ item ∈ items, item.WF) :
    List.Forall₂
      (fun (b : Block) (p : Project) =>
        ∃ stub, projectStub b.header = .ok stub ∧
          p = { stub with dependencies := dependenciesOf b.body })
      (projectBlocks items) (items.filterMap TopItem.project?) := by
  induction items with
  | nil => exact List.Forall₂.nil
  | cons item items ih =>
    have ih' := ih (fun i hi => hwf i (List.mem_cons_of_mem _ hi))
    have hitem := hwf item (by simp)
    cases item with
    | line l => simpa [projectBlocks, TopItem.project?] using ih'
    | global b => simpa [projectBlocks, TopItem.project?] using ih'
    | project b =>
      obtain ⟨_, _, ⟨stub, hstub⟩, _⟩ := hitem
      have hp : b.project? = some { stub with dependencies := dependenciesOf b.body } := by
        simp [Block.project?, hstub]
      simp only [projectBlocks, TopItem.project?, List.filterMap_cons, hp]
      exact List.Forall₂.cons ⟨stub, hstub, rfl⟩ ih'


/-- The top-level items of the scenario, with `extra` trailing items. -/
theorem scenario_items (first T : List Char) (hfirst : IsLine first) (hT : IsLine T)
    (hT' : '=' ∉ T) (extra : List TopItem) (hextra : ∀ item ∈ extra, item.WF) :
    parseSolution (joinLines (scenario first T ++ renderItems extra))
      = .ok (extra.foldl TopItem.apply
          { version := "12.00".toList,
            configurations := ["Debug|x64".toList],
            projects := [{ name := "App".toList, filepath := "App\\App.vcxproj".toList,
                           id := "11111111-1111-1111-1111-111111111111".toList,
                           dependencies := [] }] }) := by
  let hdr : List Char := "Project(\"\x7b".toList ++ T ++ "\x7d\") ".toList ++ '=' ::
      " \"App\", \"App\\App.vcxproj\", \"\x7b11111111-1111-1111-1111-111111111111\x7d\"".toList
  let items : List TopItem :=
    [ .line "Microsoft Visual Studio Solution File, Format Version 12.00".toList,
      .project ⟨hdr, [], "EndProject".toList⟩,
      .global ⟨"Global".toList,
        [.sect ⟨"GlobalSection(SolutionConfigurationPlatforms) = preSolution".toList,
          ["Debug|x64 = Debug|x64".toList], "EndGlobalSection".toList⟩],
        "EndGlobal".toList⟩ ]
  have hstub := (projectStub_fields ("Project(\"\x7b".toList ++ T ++ "\x7d\") ".toList)
    " \"App\", \"App\\App.vcxproj\", \"\x7b11111111-1111-1111-1111-111111111111\x7d\"".toList
    "App".toList "App\\App.vcxproj".toList "11111111-1111-1111-1111-111111111111".toList
    (by
      intro h
      rcases List.mem_append.mp h with h | h
      · rcases List.mem_append.mp h with h | h
        · exact absurd h (by decide)
        · exact hT' h
      · exact absurd h (by decide))
    (by decide) (by decide) (by decide) (by decide))
  have hhdr : IsLine hdr := by
    intro h
    simp only [hdr, List.mem_append, List.mem_cons] at h
    rcases h with ((h | h) | h) | h | h
    · exact absurd h (by decide)
    · exact hT h
    · exact absurd h (by decide)
    · exact absurd h (by decide)
    · exact absurd h (by decide)
  have hwf : ∀ item ∈ items ++ extra, item.WF := by
    intro item hitem
    rcases List.mem_append.mp hitem with h | h
    · simp only [items, List.mem_cons, List.mem_singleton, List.not_mem_nil, or_false] at h
      rcases h with rfl | rfl | rfl
      · exact ⟨by decide, by decide, by decide, fun _ => by decide⟩
      · refine ⟨hhdr, ?_, ⟨_, hstub⟩, by simp, (by decide : IsLine "EndProject".toList),
          (by decide : simplified "EndProject".toList = "EndProject".toList)⟩
        simp [hdr, starts_with, List.isPrefixOf]
      · refine ⟨by decide, by decide, ?_, by decide, by decide⟩
        intro item hitem
        simp only [List.mem_singleton] at hitem
        subst hitem
        refine ⟨by decide, by decide, ?_, by decide, by decide⟩
        intro l hl
        simp only [List.mem_singleton] at hl
        subst hl
        exact ⟨by decide, by decide, fun _ => by decide⟩
    · exact hextra item h
  have hrender : scenario first T ++ renderItems extra = first :: renderItems (items ++ extra) := by
    simp [scenario, renderItems, items, TopItem.render, Block.render, renderBody, BodyItem.render,
      Sect.render, hdr]
  rw [hrender, parseSolution_items first _ hfirst hwf, List.foldl_append]
  have hcfg : configurationsOf
      [.sect ⟨"GlobalSection(SolutionConfigurationPlatforms) = preSolution".toList,
          ["Debug|x64 = Debug|x64".toList], "EndGlobalSection".toList⟩]
      = ["Debug|x64".toList] := by decide
  have hv : starts_with "Microsoft Visual Studio Solution File, Format Version 12.00".toList
      "Microsoft Visual Studio Solution File, Format Version".toList = true := by decide
  have hver : ("Microsoft Visual Studio Solution File, Format Version 12.00".toList).drop
      versionPrefix.length = "12.00".toList := by decide
  simp only [items, List.foldl_cons, List.foldl_nil, TopItem.apply, Block.project?, hstub, hcfg,
    hv, hver, ↓reduceIte, dependenciesOf, entriesOf, List.flatMap_nil, List.nil_append]


/-! # The claims -/

/-- C1 (counterexample): every reference of `$(A)` names a key of the table
`A ↦ $(B)`, yet `evaluate` with `readenv = false` returns false and leaves
`$(B)` in the string. The same happens with values that hold no `$(` but are
empty (`$$(A)(B)`, `A ↦ ""`), start with `(` (`$$(A)`, `A ↦ (B)`) or end with
`$` (`$(A)(B)`, `A ↦ $`). -/
theorem evaluate_known_tokens_counterexample :
    Expands (fun n => List.lookup n [("A".toList, "$(B)".toList)]) "$(A)".toList "$(B)".toList ∧
    evaluate 2 "$(A)".toList [("A".toList, "$(B)".toList)] (fun _ => none) false
      = some (false, "$(B)".toList) ∧
    tok <:+: "$(B)".toList ∧
    evaluate 2 "$$(A)(B)".toList [("A".toList, [])] (fun _ => none) false
      = some (false, "$(B)".toList) ∧
    evaluate 2 "$$(A)".toList [("A".toList, "(B)".toList)] (fun _ => none) false
      = some (false, "$(B)".toList) ∧
    evaluate 2 "$(A)(B)".toList [("A".toList, "$".toList)] (fun _ => none) false
      = some (false, "$(B)".toList) := by
  refine ⟨?_, by decide, ⟨[], [ 'B', ')' ], rfl⟩, by decide, by decide, by decide⟩
  exact Expands.token ['A'] "$(B)".toList [] [] (by decide) (by decide) Expands.nil

/-- C1 (amended): when no value of the table is empty, starts with `(`, ends
with `$` or contains `$(`, and `s` read left to right consists of plain
characters and closed references `$(name)` whose names are keys of the table,
`evaluate(s, V, false)` returns true, the final string is `s` with every
reference replaced by its value, and it contains no `$(`. -/
theorem evaluate_known_tokens (vars : VarTable) (getenv : Env) (s out : List Char)
    (hval : ∀ n v, List.lookup n vars = some v → Clean v)
    (hs : Expands (fun n => List.lookup n vars) s out)
    (fuel : Nat) (hfuel : s.length < fuel) :
    evaluate fuel s vars getenv false = some (true, out) ∧ ¬ tok <:+: out := by
  have hr : resolve vars getenv false = fun n => List.lookup n vars :=
    funext (resolve_false vars getenv)
  have hclean := (expands_clean hval hs).1
  refine ⟨?_, hclean⟩
  rw [← hr] at hs
  obtain ⟨k, hk, hloop⟩ := expands_loop vars getenv false
    (fun n v h => (hval n v (by rwa [resolve_false] at h)).1) hs
  have h := hloop [] [] (fuel - k - 1 + 1) (by simp)
  have e : fuel - k - 1 + 1 + k = fuel := by omega
  simp only [List.nil_append, List.append_nil, List.length_nil, Nat.zero_add, e] at h
  rw [evaluate, h]
  exact evaluateLoop_at_end vars getenv false _ out hclean

/-- C1 (witness): the amended statement at `x$(A)y` with `A ↦ ab`. -/
theorem evaluate_known_tokens_witness :
    evaluate 7 "x$(A)y".toList [("A".toList, "ab".toList)] (fun _ => none) false
      = some (true, "xaby".toList) ∧ ¬ tok <:+: "xaby".toList :=
  evaluate_known_tokens [("A".toList, "ab".toList)] (fun _ => none) "x$(A)y".toList
    "xaby".toList
    (by
      intro n v h
      simp only [List.lookup] at h
      split at h
      · cases h
        refine ⟨⟨by decide, by decide⟩, by decide, by decide⟩
      · cases h)
    (Expands.char 'x' _ _ (by decide)
      (Expands.token ['A'] "ab".toList ['y'] ['y'] (by decide) (by decide)
        (Expands.char 'y' _ _ (by decide) Expands.nil)))
    7 (by decide)

/-- C2 (counterexample): `$(X)` is a reference of `$(A)$(X)` and `X` is neither in
the table nor in the environment, yet `evaluate` with `readenv = true` returns
true: the value of `A` opens a reference that swallows `$(X)`. The same
happens with the value `$`, which joins the `(` after it. -/
theorem evaluate_unresolved_counterexample :
    List.lookup "X".toList [("A".toList, "$(Q".toList), ("Q$(X".toList, "ok".toList)] = none ∧
    evaluate 3 "$(A)$(X)".toList [("A".toList, "$(Q".toList), ("Q$(X".toList, "ok".toList)]
      (fun _ => none) true = some (true, "ok".toList) ∧
    List.lookup "X".toList [("A".toList, "$".toList), ("Q$(X".toList, "ok".toList)] = none ∧
    evaluate 3 "$(A)(Q$(X)".toList [("A".toList, "$".toList), ("Q$(X".toList, "ok".toList)]
      (fun _ => none) true = some (true, "ok".toList) := by
  decide

/-- C2 (amended): when no value that can be substituted (a value of the table,
and with `readenv` a value of the environment) contains `$(` or ends with `$`,
and `s` is `p ++ $(n) ++ q` where `p` consists of plain characters and closed
references that all resolve, `n` has no `)`, `n` is not a key of the table and
(with `readenv`) is not in the environment, `evaluate` returns false and the
string is the expansion of `p` followed by `$(n)` and `q` unchanged. -/
theorem evaluate_unresolved (vars : VarTable) (getenv : Env) (readenv : Bool)
    (p p' n q : List Char)
    (hval : ∀ m v, resolve vars getenv readenv m = some v → Inert v)
    (hp : Expands (resolve vars getenv readenv) p p')
    (hn : ')' ∉ n)
    (hvars : List.lookup n vars = none)
    (henv : readenv = true → getenv (c_str n) = none)
    (fuel : Nat) (hfuel : p.length < fuel) :
    evaluate fuel (p ++ '$' :: '(' :: (n ++ ')' :: q)) vars getenv readenv
      = some (false, p' ++ '$' :: '(' :: (n ++ ')' :: q)) := by
  have habs : resolve vars getenv readenv n = none := by
    unfold resolve
    rw [hvars]
    cases readenv with
    | false => rfl
    | true => simpa using henv rfl
  obtain ⟨k, hk, hloop⟩ := expands_loop vars getenv readenv hval hp
  have h := hloop [] ('$' :: '(' :: (n ++ ')' :: q)) (fuel - k - 1 + 1) (by simp)
  have e : fuel - k - 1 + 1 + k = fuel := by omega
  simp only [List.nil_append, List.length_nil, Nat.zero_add, e] at h
  rw [evaluate, h, evaluateLoop, evaluateStep_token vars getenv readenv p' n q hn, habs]

/-- C2 (witness): the amended statement at `$(A)-$(X)!` with `A ↦ a`, `X` unknown. -/
theorem evaluate_unresolved_witness :
    evaluate 6 "$(A)-$(X)!".toList [("A".toList, "a".toList)] (fun _ => none) true
      = some (false, "a-$(X)!".toList) :=
  evaluate_unresolved [("A".toList, "a".toList)] (fun _ => none) true
    "$(A)-".toList "a-".toList "X".toList "!".toList
    (by
      intro m v h
      simp only [resolve, List.lookup] at h
      split at h
      · rename_i heq
        split at heq
        · cases heq; cases h
          exact ⟨by decide, by decide⟩
        · cases heq
      · simp at h)
    (Expands.token ['A'] "a".toList ['-'] ['-'] (by decide) (by decide)
      (Expands.char '-' _ _ (by decide) Expands.nil))
    (by decide) (by decide) (fun _ => rfl) 6 (by decide)

/-- C3: when the scan of `evaluate`, started on `s`, arrives at the top of the
loop with string `s'` and position `start`, the next `$(` of `s'` from `start`
is at `i`, and no `)` occurs in `s'` from `i` on, that round returns false with
the string `s'` as it is, and so `evaluate` on `s` returns false with final
string `s'` (for every fuel from some `k` on). With `s' = s` and `start = 0`
this is the case of a first `$(` with no later `)`: `s` is unchanged. -/
theorem evaluate_unclosed (vars : VarTable) (getenv : Env) (readenv : Bool)
    (s s' : List Char) (start i : Nat)
    (hreach : Reaches vars getenv readenv (s, 0) (s', start))
    (hopen : find s' tok start = some i)
    (hclose : ')' ∉ s'.drop i) :
    evaluateStep vars getenv readenv s' start = .done false s' ∧
    ∃ k, ∀ fuel, evaluate (k + fuel) s vars getenv readenv = some (false, s') := by
  have hc : find s' [')'] i = none := by
    unfold find
    split
    · rfl
    · rw [(findIn_char_eq_none ')' _).mpr hclose]; rfl
  have hstep : evaluateStep vars getenv readenv s' start = .done false s' := by
    unfold evaluateStep
    simp only [hopen, hc]
  refine ⟨hstep, ?_⟩
  obtain ⟨k, hk⟩ := reaches_loop vars getenv readenv hreach
  refine ⟨k + 1, fun fuel => ?_⟩
  have e : k + 1 + fuel = (fuel + 1) + k := by omega
  rw [evaluate, e, hk]
  simp only [evaluateLoop, hstep]

/-- C3 (witness): on `$(A)x$(B` with `A ↦ a` the scan substitutes `A`, then meets
`$(B` with no `)` after it; the result is false with string `ax$(B`. -/
theorem evaluate_unclosed_witness :
    evaluateStep [("A".toList, "a".toList)] (fun _ => none) true "ax$(B".toList 0
      = .done false "ax$(B".toList ∧
    ∃ k, ∀ fuel,
      evaluate (k + fuel) "$(A)x$(B".toList [("A".toList, "a".toList)] (fun _ => none) true
        = some (false, "ax$(B".toList) :=
  evaluate_unclosed [("A".toList, "a".toList)] (fun _ => none) true
    "$(A)x$(B".toList "ax$(B".toList 0 2
    (Reaches.round _ _ _ _ _ (by decide) (Reaches.here _))
    (by decide) (by decide)

/-- C4: when `n ↦ v` is in the table, `p` has no `$` and `n` has no `)`,
`evaluate` on `p ++ $(n) ++ q` spends one round replacing the reference and
then runs exactly as `evaluate` on `p ++ v ++ q`: one returns a boolean and a
final string if and only if the other returns the same ones. With
`A ↦ $(B)`, `B ↦ x` the string `$(A)` evaluates to `x` with result true. -/
theorem evaluate_unfolds (vars : VarTable) (getenv : Env) (readenv : Bool)
    (p n v q : List Char)
    (hv : List.lookup n vars = some v) (hp : '$' ∉ p) (hn : ')' ∉ n) :
    (∀ fuel, evaluate (fuel + 1) (p ++ '$' :: '(' :: (n ++ ')' :: q)) vars getenv readenv
      = evaluate fuel (p ++ v ++ q) vars getenv readenv) ∧
    (∀ r, (∃ fuel, evaluate fuel (p ++ '$' :: '(' :: (n ++ ')' :: q)) vars getenv readenv = some r)
      ↔ (∃ fuel, evaluate fuel (p ++ v ++ q) vars getenv readenv = some r)) ∧
    evaluate 3 "$(A)".toList [("A".toList, "$(B)".toList), ("B".toList, "x".toList)]
      getenv readenv = some (true, "x".toList) := by
  have hin : Inert p := by
    constructor
    · rintro ⟨a, b, hab⟩
      exact hp (by rw [← hab]; simp [tok])
    · intro hl
      exact hp (List.mem_of_getLast?_eq_some hl)
  have hres : resolve vars getenv readenv n = some v := by simp [resolve, hv]
  have key : ∀ fuel, evaluate (fuel + 1) (p ++ '$' :: '(' :: (n ++ ')' :: q)) vars getenv readenv
      = evaluate fuel (p ++ v ++ q) vars getenv readenv := by
    intro fuel
    have h1 := find_skip_inert [] p ('$' :: '(' :: (n ++ ')' :: q)) hin
    have h2 := find_skip_inert [] p (v ++ q) hin
    simp only [List.nil_append, List.length_nil, Nat.zero_add] at h1 h2
    rw [evaluate, evaluate, evaluateLoop_congr vars getenv readenv _ _ _ _ h1, evaluateLoop,
      evaluateStep_token vars getenv readenv p n q hn, hres]
    simp only
    rw [List.append_assoc, evaluateLoop_congr vars getenv readenv _ _ _ _ h2]
  refine ⟨key, fun r => ⟨?_, ?_⟩, ?_⟩
  · rintro ⟨fuel, h⟩
    cases fuel with
    | zero => simp [evaluate, evaluateLoop] at h
    | succ fuel => exact ⟨fuel, by rw [← key]; exact h⟩
  · rintro ⟨fuel, h⟩
    exact ⟨fuel + 1, by rw [key]; exact h⟩
  · rfl

/-- C4 (witness): `a$(A)$(B)` with `A ↦ $(B)`, `B ↦ x` runs as `a$(B)$(B)` does. -/
theorem evaluate_unfolds_witness :
    (∀ fuel, evaluate (fuel + 1) ("a".toList ++ '$' :: '(' :: ("A".toList ++ ')' :: "$(B)".toList))
        [("A".toList, "$(B)".toList), ("B".toList, "x".toList)] (fun _ => none) false
      = evaluate fuel ("a".toList ++ "$(B)".toList ++ "$(B)".toList)
        [("A".toList, "$(B)".toList), ("B".toList, "x".toList)] (fun _ => none) false) ∧
    (∀ r, (∃ fuel, evaluate fuel ("a".toList ++ '$' :: '(' :: ("A".toList ++ ')' :: "$(B)".toList))
        [("A".toList, "$(B)".toList), ("B".toList, "x".toList)] (fun _ => none) false = some r)
      ↔ (∃ fuel, evaluate fuel ("a".toList ++ "$(B)".toList ++ "$(B)".toList)
        [("A".toList, "$(B)".toList), ("B".toList, "x".toList)] (fun _ => none) false = some r)) ∧
    evaluate 3 "$(A)".toList [("A".toList, "$(B)".toList), ("B".toList, "x".toList)]
      (fun _ => none) false = some (true, "x".toList) :=
  evaluate_unfolds [("A".toList, "$(B)".toList), ("B".toList, "x".toList)] (fun _ => none) false
    "a".toList "A".toList "$(B)".toList "$(B)".toList (by decide) (by decide) (by decide)

/-- C5: whenever `evaluate` returns true, the final string contains no `$(`
(so a final string that contains `$(` can only come with the result false);
this holds for every table, environment and `readenv`. -/
theorem evaluate_true_no_reference (fuel : Nat) (s : List Char) (vars : VarTable)
    (getenv : Env) (readenv : Bool) (out : List Char)
    (h : evaluate fuel s vars getenv readenv = some (true, out)) :
    ¬ tok <:+: out :=
  evaluateLoop_true vars getenv readenv fuel s 0 out h

/-- C5 (witness): `$(A)/$(B)` with `A ↦ $(B)`, `B ↦ x` returns true with `x/x`. -/
theorem evaluate_true_no_reference_witness : ¬ tok <:+: "x/x".toList :=
  evaluate_true_no_reference 5 "$(A)/$(B)".toList
    [("A".toList, "$(B)".toList), ("B".toList, "x".toList)] (fun _ => none) false
    "x/x".toList (by decide)

/-- C6: on the lines of the scenario (any first line, any project type
identifier without `=`), with or without a newline after `EndGlobal`, the
parser returns version `12.00`, exactly one project, with name `App`, filepath
`App\App.vcxproj`, id `11111111-1111-1111-1111-111111111111` and no
dependencies, and the configurations `[Debug|x64]`. -/
theorem parseSolution_scenario (first T : List Char) (hfirst : IsLine first) (hT : IsLine T)
    (hT' : '=' ∉ T) (newline : Bool) :
    parseSolution (joinLines (scenario first T ++ (if newline then [[]] else [])))
      = .ok { version := "12.00".toList,
              configurations := ["Debug|x64".toList],
              projects := [{ name := "App".toList, filepath := "App\\App.vcxproj".toList,
                             id := "11111111-1111-1111-1111-111111111111".toList,
                             dependencies := [] }] } := by
  cases newline with
  | false =>
    have := scenario_items first T hfirst hT hT' [] (by simp)
    simpa [renderItems] using this
  | true =>
    have := scenario_items first T hfirst hT hT' [.line []]
      (by
        intro item hitem
        simp only [List.mem_singleton] at hitem
        subst hitem
        exact ⟨by decide, by decide, by decide, fun h => absurd h (by decide)⟩)
    simpa [renderItems, TopItem.render, TopItem.apply, starts_with, List.isPrefixOf] using this

/-- C6 (witness): the scenario with a byte-order-mark first line, the
Visual C++ project type identifier and a final newline. -/
theorem parseSolution_scenario_witness :
    parseSolution (joinLines (scenario "\xef\xbb\xbf".toList
        "8BC9CEB8-8B4A-11D0-8D11-00A0C91BC942".toList ++ (if true = true then [[]] else [])))
      = .ok { version := "12.00".toList,
              configurations := ["Debug|x64".toList],
              projects := [{ name := "App".toList, filepath := "App\\App.vcxproj".toList,
                             id := "11111111-1111-1111-1111-111111111111".toList,
                             dependencies := [] }] } :=
  parseSolution_scenario "\xef\xbb\xbf".toList "8BC9CEB8-8B4A-11D0-8D11-00A0C91BC942".toList
    (by decide) (by decide) (by decide) true

/-- C7: for a text made of a first line followed by top-level items that the
parser reads through (lines that open no block, `Project(` ... `EndProject`
blocks, `Global` ... `EndGlobal` blocks), the parser returns a solution whose
`projects` has exactly one entry per project block, in file order, the entry
of a block being the stub read from its header line together with the
dependencies of its body. -/
theorem parseSolution_projects (first : List Char) (items : List TopItem)
    (hfirst : IsLine first) (hwf : ∀ item ∈ items, item.WF) :
    ∃ sol, parseSolution (joinLines (first :: renderItems items)) = .ok sol ∧
      sol.projects.length = (projectBlocks items).length ∧
      List.Forall₂
        (fun (b : Block) (p : Project) =>
          ∃ stub, projectStub b.header = .ok stub ∧
            p = { stub with dependencies := dependenciesOf b.body })
        (projectBlocks items) sol.projects := by
  refine ⟨_, parseSolution_items first items hfirst hwf, ?_⟩
  have hp := foldl_apply_projects items {}
  simp only [List.nil_append] at hp
  have hf := forall₂_projectBlocks items hwf
  rw [hp]
  exact ⟨hf.length_eq.symm, hf⟩

/-- C7 (witness): the sample file has two project blocks and the parser returns
two projects, in file order. -/
theorem parseSolution_projects_witness :
    ∃ sol, parseSolution (joinLines ("# header".toList :: renderItems sampleItems)) = .ok sol ∧
      sol.projects.length = (projectBlocks sampleItems).length ∧
      List.Forall₂
        (fun (b : Block) (p : Project) =>
          ∃ stub, projectStub b.header = .ok stub ∧
            p = { stub with dependencies := dependenciesOf b.body })
        (projectBlocks sampleItems) sol.projects :=
  parseSolution_projects "# header".toList sampleItems (by decide)
    (by
      intro item h
      simp only [sampleItems, List.mem_cons, List.mem_singleton, List.not_mem_nil, or_false] at h
      rcases h with rfl | rfl | rfl | rfl
      · exact ⟨by decide, by decide, by decide, fun _ => by decide⟩
      · refine ⟨by decide, by decide,
          ⟨{ name := "App".toList, filepath := "App.vcxproj".toList, id := "A".toList },
            by decide⟩, ?_, by decide, by decide⟩
        intro item hitem
        simp only [List.mem_singleton] at hitem
        subst hitem
        exact ⟨by decide, by decide, by decide, by decide, by decide⟩
      · exact ⟨by decide, by decide,
          ⟨{ name := "Lib".toList, filepath := "Lib.vcxproj".toList, id := "B".toList },
            by decide⟩, by simp, by decide, by decide⟩
      · exact ⟨by decide, by decide, by decide, fun h => absurd h (by decide)⟩)

/-- C8 (counterexample): the header line
`Project("{T}") = "My  App", "P", "{I}"` has the name `My  App` (two
spaces) between the quotes of its first field, but the stub gets the name
`My App`: the text after `=` is whitespace-normalised before it is split. -/
theorem projectStub_name_counterexample :
    projectStub "Project(\"\x7bT\x7d\") = \"My  App\", \"P\", \"\x7bI\x7d\"".toList
      = .ok { name := "My App".toList, filepath := "P".toList, id := "I".toList,
              dependencies := [] } ∧
    "My App".toList ≠ "My  App".toList := by
  decide

/-- C8 (amended): for a header line `Project("{T}") =` followed by a text
whose whitespace-normalised form is `"N", "P", "{I}"` (no `=` in `T`, no comma
in `N`, `P`, `I`), the stub read from the line has name `N`, filepath `P`,
id `I` and no dependencies, and `readProject` appends that stub to
`solution.projects` before it reads the body of the block. A run of
whitespace inside the quotes of the raw line is thus stored as one space. -/
theorem readProject_stub (T rest N P I : List Char)
    (hT : '=' ∉ T) (hN : ',' ∉ N) (hP : ',' ∉ P) (hI : ',' ∉ I)
    (hrest : simplified rest = '\x22' :: (N ++ ['\x22']) ++ ',' ::
      ((' ' :: '\x22' :: (P ++ ['\x22'])) ++ ',' ::
        (' ' :: '\x22' :: (('\x7b' :: (I ++ ['\x7d'])) ++ ['\x22']))))
    (fuel : Nat) (stream : IStream) (solution : Solution) :
    projectStub ("Project(\"\x7b".toList ++ T ++ "\x7d\") ".toList ++ '=' :: rest)
      = .ok { name := N, filepath := P, id := I, dependencies := [] } ∧
    readProject fuel ("Project(\"\x7b".toList ++ T ++ "\x7d\") ".toList ++ '=' :: rest)
        stream solution
      = readProjectBody fuel stream
          { solution with
            projects := solution.projects ++
              [{ name := N, filepath := P, id := I, dependencies := [] }] } := by
  have hpre : '=' ∉ "Project(\"\x7b".toList ++ T ++ "\x7d\") ".toList := by
    intro h
    rcases List.mem_append.mp h with h | h
    · rcases List.mem_append.mp h with h | h
      · exact absurd h (by decide)
      · exact hT h
    · exact absurd h (by decide)
  have h := projectStub_fields _ rest N P I hpre hN hP hI hrest
  exact ⟨h, by rw [readProject, h]⟩

/-- C8 (witness): the header line of the scenario of the spec. -/
theorem readProject_stub_witness :
    projectStub ("Project(\"\x7b".toList ++ "8BC9".toList ++ "\x7d\") ".toList ++
        '=' :: " \"App\",  \"App\\App.vcxproj\", \"\x7b1111\x7d\"".toList)
      = .ok { name := "App".toList, filepath := "App\\App.vcxproj".toList,
              id := "1111".toList, dependencies := [] } ∧
    readProject 3 ("Project(\"\x7b".toList ++ "8BC9".toList ++ "\x7d\") ".toList ++
        '=' :: " \"App\",  \"App\\App.vcxproj\", \"\x7b1111\x7d\"".toList)
        (streamOf ["EndProject".toList]) {}
      = readProjectBody 3 (streamOf ["EndProject".toList])
          { ({} : Solution) with
            projects := ({} : Solution).projects ++
              [{ name := "App".toList, filepath := "App\\App.vcxproj".toList,
                 id := "1111".toList, dependencies := [] }] } :=
  readProject_stub "8BC9".toList " \"App\",  \"App\\App.vcxproj\", \"\x7b1111\x7d\"".toList
    "App".toList "App\\App.vcxproj".toList "1111".toList
    (by decide) (by decide) (by decide) (by decide) (by decide) 3 _ _

/-- C9: a project block whose body holds one `ProjectSection(ProjectDependencies)`
section of `K` lines `{id} = ...` (the other body items being lines and
sections of other kinds) is read to its `EndProject`, and the project appended
has exactly the `K` identifiers of those lines as its dependencies, in line
order, whitespace and braces removed, right-hand sides ignored. -/
theorem readProject_dependencies (header : List Char) (stub : Project)
    (pre post : List BodyItem) (secHeader secTerm term : List Char)
    (deps : List DependencyLine) (rest : List (List Char)) (solution : Solution) (fuel : Nat)
    (hstub : projectStub header = .ok stub)
    (hpre : ∀ item ∈ pre, item.WF "EndProject".toList "ProjectSection".toList
      "ProjectSection(ProjectDependencies)".toList "EndProjectSection".toList)
    (hpre' : ∀ s, BodyItem.sect s ∈ pre →
      s.isSpecial "ProjectSection(ProjectDependencies)".toList = false)
    (hpost : ∀ item ∈ post, item.WF "EndProject".toList "ProjectSection".toList
      "ProjectSection(ProjectDependencies)".toList "EndProjectSection".toList)
    (hpost' : ∀ s, BodyItem.sect s ∈ post →
      s.isSpecial "ProjectSection(ProjectDependencies)".toList = false)
    (hsec : IsLine secHeader ∧
      starts_with (simplified secHeader) "ProjectSection(ProjectDependencies)".toList = true)
    (hdeps : ∀ d ∈ deps, d.WF)
    (hsecTerm : IsLine secTerm ∧ simplified secTerm = "EndProjectSection".toList)
    (hterm : IsLine term ∧ simplified term = "EndProject".toList)
    (hfuel : (renderBody pre).length + deps.length + (renderBody post).length + 2 < fuel) :
    readProject fuel header
        (streamOf (renderBody pre ++ secHeader :: (deps.map DependencyLine.render ++
          secTerm :: (renderBody post ++ term :: rest)))) solution
      = .ok ({ solution with
                projects := solution.projects ++
                  [{ stub with dependencies := deps.map DependencyLine.id }] },
          streamOf rest) ∧
    (deps.map DependencyLine.id).length = deps.length := by
  refine ⟨?_, by simp⟩
  let sec : Sect := ⟨secHeader, deps.map DependencyLine.render, secTerm⟩
  have hspecial : sec.isSpecial "ProjectSection(ProjectDependencies)".toList = true := hsec.2
  have hsecWF : sec.WF "ProjectSection".toList "ProjectSection(ProjectDependencies)".toList
      "EndProjectSection".toList := by
    refine ⟨hsec.1, ?_, ?_, hsecTerm.1, hsecTerm.2⟩
    · exact starts_with_append _ "ProjectSection".toList "(ProjectDependencies)".toList hsec.2
    · intro l hl
      obtain ⟨d, hd, rfl⟩ := List.mem_map.mp hl
      obtain ⟨h1, h2, h3, _⟩ := dependencyLine_spec d (hdeps d hd)
      exact ⟨h1, h2, fun _ => h3⟩
  have hbody : ∀ item ∈ pre ++ BodyItem.sect sec :: post,
      item.WF "EndProject".toList "ProjectSection".toList
        "ProjectSection(ProjectDependencies)".toList "EndProjectSection".toList := by
    intro item hitem
    rcases List.mem_append.mp hitem with h | h
    · exact hpre item h
    · rcases List.mem_cons.mp h with h | h
      · subst h; exact hsecWF
      · exact hpost item h
  have hrender : renderBody (pre ++ BodyItem.sect sec :: post) ++ term :: rest
      = renderBody pre ++ secHeader :: (deps.map DependencyLine.render ++
          secTerm :: (renderBody post ++ term :: rest)) := by
    simp [renderBody, BodyItem.render, Sect.render, sec]
  have hlen : (renderBody (pre ++ BodyItem.sect sec :: post)).length < fuel := by
    simp [renderBody, BodyItem.render, Sect.render, sec] at hfuel ⊢
    omega
  have hdepsOf : dependenciesOf (pre ++ BodyItem.sect sec :: post)
      = deps.map DependencyLine.id := by
    have e : pre ++ BodyItem.sect sec :: post = pre ++ ([BodyItem.sect sec] ++ post) := by simp
    rw [dependenciesOf, e, entriesOf_append, entriesOf_append, entriesOf_eq_nil _ _ pre hpre',
      entriesOf_eq_nil _ _ post hpost']
    simp only [entriesOf, List.flatMap_cons, List.flatMap_nil, hspecial, ↓reduceIte,
      List.nil_append, List.append_nil, sec, List.map_map]
    apply List.map_congr_left
    intro d hd
    exact (dependencyLine_spec d (hdeps d hd)).2.2.2
  rw [readProject, hstub, ← hrender]
  simp only
  rw [readProjectBody_body _ term rest solution solution.projects stub fuel hbody hterm.1 hterm.2
    hlen, hdepsOf, projectStub_dependencies _ _ hstub, List.nil_append]

/-- C9 (witness): a block with a two-line dependencies section yields the two
identifiers `AAAA` and `BBBB`. -/
theorem readProject_dependencies_witness :
    readProject 5 "Project(\"\x7bT\x7d\") = \"App\", \"App.vcxproj\", \"\x7bA\x7d\"".toList
        (streamOf (renderBody [] ++
          "\tProjectSection(ProjectDependencies) = postProject".toList ::
            (sampleDependencies.map DependencyLine.render ++
              "\tEndProjectSection".toList :: (renderBody [] ++ "EndProject".toList :: []))))
        {}
      = .ok ({ ({} : Solution) with
                projects := ({} : Solution).projects ++
                  [{ ({ name := "App".toList, filepath := "App.vcxproj".toList,
                        id := "A".toList } : Project) with
                     dependencies := sampleDependencies.map DependencyLine.id }] },
          streamOf []) ∧
    (sampleDependencies.map DependencyLine.id).length = sampleDependencies.length :=
  readProject_dependencies
    "Project(\"\x7bT\x7d\") = \"App\", \"App.vcxproj\", \"\x7bA\x7d\"".toList
    { name := "App".toList, filepath := "App.vcxproj".toList, id := "A".toList }
    [] [] "\tProjectSection(ProjectDependencies) = postProject".toList
    "\tEndProjectSection".toList "EndProject".toList sampleDependencies [] {} 5
    (by decide) (by simp) (by simp) (by simp) (by simp) (by decide)
    (by
      intro d hd
      simp only [sampleDependencies, List.mem_cons, List.mem_singleton, List.not_mem_nil,
        or_false] at hd
      rcases hd with rfl | rfl <;> exact ⟨by decide, by decide, by decide, by decide⟩)
    (by decide) (by decide) (by decide)

/-- C10: `readGlobalSection`, entered with a header and a stream whose next lines
are `lines` followed by a line that normalises to `EndGlobalSection`, reads
exactly those lines. For a header that starts with
`GlobalSection(SolutionConfigurationPlatforms)`, every line containing `=`,
it appends one entry per line, in line order: the normalised line truncated
at its first `=`, trailing spaces removed. For any other header it appends
nothing. The line `Debug|x64 = Debug|x64` gives the entry `Debug|x64`. -/
theorem readGlobalSection_configurations (header : List Char) (lines : List (List Char))
    (term : List Char) (rest : List (List Char)) (solution : Solution) (fuel : Nat)
    (hlines : ∀ l ∈ lines, IsLine l ∧ simplified l ≠ "EndGlobalSection".toList)
    (heq : starts_with header "GlobalSection(SolutionConfigurationPlatforms)".toList = true →
      ∀ l ∈ lines, '=' ∈ l)
    (hterm : IsLine term ∧ simplified term = "EndGlobalSection".toList)
    (hfuel : lines.length < fuel) :
    readGlobalSection fuel header (streamOf (lines ++ term :: rest)) solution
      = .ok ({ solution with
                configurations := solution.configurations ++
                  (if starts_with header "GlobalSection(SolutionConfigurationPlatforms)".toList
                    then lines.map fun l =>
                      ((simplified l).takeWhile (fun c => c != '=')).rdropWhile
                        (fun c => c == ' ')
                    else []) },
          streamOf rest) ∧
    ((simplified "Debug|x64 = Debug|x64".toList).takeWhile (fun c => c != '=')).rdropWhile
      (fun c => c == ' ') = "Debug|x64".toList := by
  refine ⟨?_, by decide⟩
  by_cases hk : starts_with header "GlobalSection(SolutionConfigurationPlatforms)".toList = true
  · rw [readGlobalSection, if_pos hk, if_pos hk]
    exact readConfigurations_lines lines term rest solution fuel
      (fun l hl => ⟨(hlines l hl).1, (hlines l hl).2,
        mem_simplified '=' isspace_eq l (heq hk l hl)⟩)
      hterm.1 hterm.2 hfuel
  · rw [readGlobalSection, if_neg hk, if_neg hk,
      skipSection_lines _ lines term rest fuel hlines hterm.1 hterm.2 hfuel]
    simp

/-- C10 (witness): a configurations section with two lines yields `Debug|x64`
and `Release|x64`. -/
theorem readGlobalSection_configurations_witness :
    readGlobalSection 3 "GlobalSection(SolutionConfigurationPlatforms) = preSolution".toList
        (streamOf (["\t\tDebug|x64 = Debug|x64".toList, "\t\tRelease|x64 = Release|x64".toList]
          ++ "\tEndGlobalSection".toList :: ["EndGlobal".toList])) {}
      = .ok ({ ({} : Solution) with
                configurations := ({} : Solution).configurations ++
                  (if starts_with
                      "GlobalSection(SolutionConfigurationPlatforms) = preSolution".toList
                      "GlobalSection(SolutionConfigurationPlatforms)".toList
                    then ["\t\tDebug|x64 = Debug|x64".toList,
                      "\t\tRelease|x64 = Release|x64".toList].map fun l =>
                      ((simplified l).takeWhile (fun c => c != '=')).rdropWhile
                        (fun c => c == ' ')
                    else []) },
          streamOf ["EndGlobal".toList]) ∧
    ((simplified "Debug|x64 = Debug|x64".toList).takeWhile (fun c => c != '=')).rdropWhile
      (fun c => c == ' ') = "Debug|x64".toList :=
  readGlobalSection_configurations
    "GlobalSection(SolutionConfigurationPlatforms) = preSolution".toList
    ["\t\tDebug|x64 = Debug|x64".toList, "\t\tRelease|x64 = Release|x64".toList]
    "\tEndGlobalSection".toList ["EndGlobal".toList] {} 3
    (by decide) (by decide) (by decide) (by decide)

/-! ## Walking the XML tree -/

theorem foldl_field_append {α β γ : Type} (f : β → α → β) (field : β → List γ)
    (g : α → List γ) (h : ∀ b a, field (f b a) = field b ++ g a) (l : List α) (b : β) :
    field (l.foldl f b) = field b ++ l.flatMap g := by
  induction l generalizing b with
  | nil => simp
  | cons a l ih => rw [List.foldl_cons, ih, h, List.flatMap_cons, List.append_assoc]

theorem foldl_field_eq {α β γ : Type} (f : β → α → β) (field : β → γ)
    (h : ∀ b a, field (f b a) = field b) (l : List α) (b : β) :
    field (l.foldl f b) = field b := by
  induction l generalizing b with
  | nil => rfl
  | cons a l ih => rw [List.foldl_cons, ih, h]

theorem foldl_flatMap {α β γ : Type} (f : β → α → β) (g : γ → List α) (l : List γ) (b : β) :
    (l.flatMap g).foldl f b = l.foldl (fun acc c => (g c).foldl f acc) b := by
  induction l generalizing b with
  | nil => rfl
  | cons c l ih => rw [List.flatMap_cons, List.foldl_append, ih, List.foldl_cons]

theorem getLast?_getD_cons {γ : Type} (a : γ) (l : List γ) (d : γ) :
    (a :: l).getLast?.getD d = l.getLast?.getD a := by
  cases l with
  | nil => rfl
  | cons b l => simp [List.getLast?_cons_cons, List.getLast?_eq_getLast, List.getLast?]

/-- The value a field holds after a loop in which some steps overwrite it:
the last value written, or the initial one. -/
theorem foldl_field_last {α β γ : Type} (f : β → α → β) (field : β → γ)
    (w : α → Option γ) (h : ∀ b a, field (f b a) = (w a).getD (field b)) (l : List α) (b : β) :
    field (l.foldl f b) = (l.filterMap w).getLast?.getD (field b) := by
  induction l generalizing b with
  | nil => rfl
  | cons a l ih =>
    rw [List.foldl_cons, ih, h, List.filterMap_cons]
    cases hw : w a with
    | none => simp
    | some v => simp [getLast?_getD_cons]

theorem elementis_iff (e : XMLElement) (name : List Char) :
    elementis e name = true ↔ e.Name = name := by
  simp [elementis]

theorem isProjectConfigurations_iff (node : XMLElement) :
    ProjectParser.isProjectConfigurations node = true ↔
      node.Attribute "Label".toList = some "ProjectConfigurations".toList := by
  unfold ProjectParser.isProjectConfigurations
  cases node.Attribute "Label".toList <;> simp

/-! ### `from_xml<ProjectConfiguration>` -/

theorem projectConfigurationChild_platform (ret : ProjectConfiguration) (e : XMLElement) :
    (projectConfigurationChild ret e).platform
      = ((if e.Name = "Platform".toList then e.GetText else none).map
          fun t => platformOf (some t)).getD ret.platform := by
  unfold projectConfigurationChild
  cases hg : e.GetText with
  | none => simp
  | some text =>
    by_cases h1 : e.Name = "Configuration".toList
    · simp_all [elementis]
    · by_cases h2 : e.Name = "Platform".toList
      · simp_all [elementis, platformOf]
      · simp_all [elementis]

theorem foldl_projectConfigurationChild_platform (es : List XMLElement)
    (ret : ProjectConfiguration) (h : ret.platform = Platform.Unknown) :
    (es.foldl projectConfigurationChild ret).platform
      = platformOf ((textsOf "Platform".toList es).getLast?) := by
  have hfm : es.filterMap
      (fun e => (if e.Name = "Platform".toList then e.GetText else none).map
        fun t => platformOf (some t))
      = (textsOf "Platform".toList es).map fun t => platformOf (some t) := by
    rw [textsOf, List.map_filterMap]
  rw [foldl_field_last projectConfigurationChild ProjectConfiguration.platform _
    projectConfigurationChild_platform, h, hfm, List.getLast?_map]
  cases (textsOf "Platform".toList es).getLast? <;> simp [platformOf]

theorem from_xml_ProjectConfiguration_platform (cfg : XMLElement) :
    (from_xml_ProjectConfiguration cfg).platform
      = platformOf ((textsOf "Platform".toList (children cfg)).getLast?) := by
  unfold from_xml_ProjectConfiguration
  cases cfg.Attribute "Include".toList <;>
    exact foldl_projectConfigurationChild_platform _ _ rfl

/-! ### `from_xml<ItemDefinitionGroup>` -/

theorem clCompileChild_cppstd (ret : ItemDefinitionGroup) (e : XMLElement) :
    (clCompileChild ret e).cppstd
      = ((if e.Name = "LanguageStandard".toList then e.GetText else none).bind
          standardOf).getD ret.cppstd := by
  unfold clCompileChild
  cases hg : e.GetText with
  | none => simp
  | some text =>
    by_cases h1 : e.Name = "PreprocessorDefinitions".toList
    · simp_all [elementis]
    · by_cases h2 : e.Name = "AdditionalIncludeDirectories".toList
      · simp_all [elementis]
      · by_cases h3 : e.Name = "LanguageStandard".toList
        · simp_all [elementis, standardOf]
          split_ifs <;> rfl
        · simp_all [elementis]

theorem clCompileChild_preprocessorDefinitions (ret : ItemDefinitionGroup) (e : XMLElement) :
    (clCompileChild ret e).preprocessorDefinitions
      = (if e.Name = "PreprocessorDefinitions".toList then e.GetText else none).getD
          ret.preprocessorDefinitions := by
  unfold clCompileChild
  cases hg : e.GetText with
  | none => simp
  | some text =>
    by_cases h1 : e.Name = "PreprocessorDefinitions".toList
    · simp_all [elementis]
    · by_cases h2 : e.Name = "AdditionalIncludeDirectories".toList
      · simp_all [elementis]
      · by_cases h3 : e.Name = "LanguageStandard".toList
        · simp_all [elementis]
          split_ifs <;> rfl
        · simp_all [elementis]

theorem clCompileChild_additionalIncludeDirectories (ret : ItemDefinitionGroup)
    (e : XMLElement) :
    (clCompileChild ret e).additionalIncludeDirectories
      = ret.additionalIncludeDirectories ++
        (if e.Name = "AdditionalIncludeDirectories".toList then e.GetText else none).getD [] := by
  unfold clCompileChild
  cases hg : e.GetText with
  | none => simp
  | some text =>
    by_cases h1 : e.Name = "PreprocessorDefinitions".toList
    · simp_all [elementis]
    · by_cases h2 : e.Name = "AdditionalIncludeDirectories".toList
      · simp_all [elementis]
      · by_cases h3 : e.Name = "LanguageStandard".toList
        · simp_all [elementis]
          split_ifs <;> rfl
        · simp_all [elementis]

theorem clCompileChild_condition (ret : ItemDefinitionGroup) (e : XMLElement) :
    (clCompileChild ret e).condition = ret.condition := by
  unfold clCompileChild
  cases e.GetText with
  | none => rfl
  | some text => simp only; split_ifs <;> rfl

theorem foldl_itemDefinitionGroupChild (cs : List XMLElement) (ret : ItemDefinitionGroup) :
    cs.foldl itemDefinitionGroupChild ret
      = (cs.flatMap fun c => if c.Name = "ClCompile".toList then children c else []).foldl
          clCompileChild ret := by
  induction cs generalizing ret with
  | nil => rfl
  | cons c cs ih =>
    rw [List.foldl_cons, ih, List.flatMap_cons, List.foldl_append]
    congr 1
    unfold itemDefinitionGroupChild
    by_cases h : c.Name = "ClCompile".toList <;> simp_all [elementis]

theorem from_xml_ItemDefinitionGroup_eq (xml : XMLElement) :
    from_xml_ItemDefinitionGroup xml
      = (clCompileElements xml).foldl clCompileChild
          (match xml.Attribute "Condition".toList with
            | some condAttr => { condition := condAttr }
            | none => {}) := by
  unfold from_xml_ItemDefinitionGroup clCompileElements
  exact foldl_itemDefinitionGroupChild _ _

/-! ### `ProjectParser::operator()` -/

theorem flatMap_toList_eq_filterMap {α β : Type} (w : α → Option β) (l : List α) :
    l.flatMap (fun x => (w x).toList) = l.filterMap w := by
  induction l with
  | nil => rfl
  | cons a l ih =>
    rw [List.flatMap_cons, List.filterMap_cons, ih]
    cases w a <;> rfl

theorem filterMap_flatMap' {α β γ : Type} (w : β → Option γ) (g : α → List β) (l : List α) :
    (l.flatMap g).filterMap w = l.flatMap fun x => (g x).filterMap w := by
  induction l with
  | nil => rfl
  | cons a l ih => rw [List.flatMap_cons, List.filterMap_append, ih, List.flatMap_cons]

theorem flatMap_getD_eq_flatten (w : XMLElement → Option (List Char)) (l : List XMLElement) :
    l.flatMap (fun x => (w x).getD []) = (l.filterMap w).flatten := by
  induction l with
  | nil => rfl
  | cons a l ih =>
    rw [List.flatMap_cons, List.filterMap_cons, ih]
    cases w a <;> simp

theorem projectConfigurationsChild_list (p : Project) (cfg : XMLElement) :
    (ProjectParser.projectConfigurationsChild p cfg).projectConfigurationList
      = p.projectConfigurationList ++
        (if cfg.Name = "ProjectConfiguration".toList ∧
            (from_xml_ProjectConfiguration cfg).platform ≠ Platform.Unknown
          then [from_xml_ProjectConfiguration cfg] else []) := by
  unfold ProjectParser.projectConfigurationsChild
  by_cases h1 : cfg.Name = "ProjectConfiguration".toList
  · by_cases h2 : (from_xml_ProjectConfiguration cfg).platform = Platform.Unknown
    · simp_all [elementis]
    · simp_all [elementis]
  · simp_all [elementis]

theorem projectConfigurationsChild_other (p : Project) (cfg : XMLElement) :
    (ProjectParser.projectConfigurationsChild p cfg).compileList = p.compileList ∧
    (ProjectParser.projectConfigurationsChild p cfg).includeList = p.includeList ∧
    (ProjectParser.projectConfigurationsChild p cfg).itemDefinitionGroupList = p.itemDefinitionGroupList := by
  unfold ProjectParser.projectConfigurationsChild
  by_cases h1 : elementis cfg "ProjectConfiguration".toList = true
  · by_cases h2 : (from_xml_ProjectConfiguration cfg).platform = Platform.Unknown <;>
      simp_all
  · simp_all

theorem itemGroupChild_compileList (p : Project) (e : XMLElement) :
    (ProjectParser.itemGroupChild p e).compileList
      = p.compileList ++
        (if e.Name = "ClCompile".toList then e.Attribute "Include".toList else none).toList := by
  unfold ProjectParser.itemGroupChild
  by_cases h1 : e.Name = "ClCompile".toList
  · cases ha : e.Attribute "Include".toList <;> simp_all [elementis]
  · by_cases h2 : e.Name = "ClInclude".toList
    · cases ha : e.Attribute "Include".toList <;> simp_all [elementis]
    · simp_all [elementis]

theorem itemGroupChild_includeList (p : Project) (e : XMLElement) :
    (ProjectParser.itemGroupChild p e).includeList
      = p.includeList ++
        (if e.Name = "ClInclude".toList then e.Attribute "Include".toList else none).toList := by
  unfold ProjectParser.itemGroupChild
  by_cases h1 : e.Name = "ClCompile".toList
  · cases ha : e.Attribute "Include".toList <;> simp_all [elementis]
  · by_cases h2 : e.Name = "ClInclude".toList
    · cases ha : e.Attribute "Include".toList <;> simp_all [elementis]
    · simp_all [elementis]

theorem itemGroupChild_other (p : Project) (e : XMLElement) :
    (ProjectParser.itemGroupChild p e).projectConfigurationList = p.projectConfigurationList ∧
    (ProjectParser.itemGroupChild p e).itemDefinitionGroupList = p.itemDefinitionGroupList := by
  unfold ProjectParser.itemGroupChild
  by_cases h1 : elementis e "ClCompile".toList = true
  · cases e.Attribute "Include".toList <;> simp_all
  · by_cases h2 : elementis e "ClInclude".toList = true
    · cases e.Attribute "Include".toList <;> simp_all
    · simp_all

/-- What a child `node` of the root does to one list field of the project,
given what the two inner loops do to it: `cfg` for a child of a
`ProjectConfigurations` group, `item` for a child of another item group,
`idg` for an `ItemDefinitionGroup`. -/
theorem rootChild_field {γ : Type} (field : Project → List γ)
    (cfg item : XMLElement → List γ) (idg : XMLElement → List γ)
    (hcfg : ∀ p e, field (ProjectParser.projectConfigurationsChild p e) = field p ++ cfg e)
    (hitem : ∀ p e, field (ProjectParser.itemGroupChild p e) = field p ++ item e)
    (hidg : ∀ (p : Project) (l : List ItemDefinitionGroup) (node : XMLElement),
      field { p with itemDefinitionGroupList := l ++ [from_xml_ItemDefinitionGroup node] }
        = field { p with itemDefinitionGroupList := l } ++ idg node)
    (p : Project) (node : XMLElement) :
    field (ProjectParser.rootChild p node) = field p ++
      (if node.Name = "ItemGroup".toList then
        if node.Attribute "Label".toList = some "ProjectConfigurations".toList then
          (children node).flatMap cfg
        else (children node).flatMap item
      else if node.Name = "ItemDefinitionGroup".toList then idg node
      else []) := by
  unfold ProjectParser.rootChild
  by_cases hg : node.Name = "ItemGroup".toList
  · have hg' : elementis node "ItemGroup".toList = true := (elementis_iff _ _).mpr hg
    rw [if_pos hg', if_pos hg]
    by_cases hl : node.Attribute "Label".toList = some "ProjectConfigurations".toList
    · have hl' : ProjectParser.isProjectConfigurations node = true := (isProjectConfigurations_iff _).mpr hl
      rw [if_pos hl', if_pos hl]
      exact foldl_field_append _ field cfg hcfg _ _
    · have hl' : ¬ ProjectParser.isProjectConfigurations node = true :=
        fun h => hl ((isProjectConfigurations_iff _).mp h)
      rw [if_neg hl', if_neg hl]
      exact foldl_field_append _ field item hitem _ _
  · have hg' : ¬ elementis node "ItemGroup".toList = true :=
      fun h => hg ((elementis_iff _ _).mp h)
    rw [if_neg hg', if_neg hg]
    by_cases hd : node.Name = "ItemDefinitionGroup".toList
    · have hd' : elementis node "ItemDefinitionGroup".toList = true := (elementis_iff _ _).mpr hd
      rw [if_pos hd', if_pos hd]
      have := hidg p p.itemDefinitionGroupList node
      rw [this]
    · have hd' : ¬ elementis node "ItemDefinitionGroup".toList = true :=
        fun h => hd ((elementis_iff _ _).mp h)
      rw [if_neg hd', if_neg hd, List.append_nil]

theorem parse_field {γ : Type} (field : Project → List γ)
    (cfg item : XMLElement → List γ) (idg : XMLElement → List γ)
    (hcfg : ∀ p e, field (ProjectParser.projectConfigurationsChild p e) = field p ++ cfg e)
    (hitem : ∀ p e, field (ProjectParser.itemGroupChild p e) = field p ++ item e)
    (hidg : ∀ (p : Project) (l : List ItemDefinitionGroup) (node : XMLElement),
      field { p with itemDefinitionGroupList := l ++ [from_xml_ItemDefinitionGroup node] }
        = field { p with itemDefinitionGroupList := l } ++ idg node)
    (project : Project) (root : XMLElement) :
    field (ProjectParser.parse project root) = field project ++
      (children root).flatMap fun node =>
        if node.Name = "ItemGroup".toList then
          if node.Attribute "Label".toList = some "ProjectConfigurations".toList then
            (children node).flatMap cfg
          else (children node).flatMap item
        else if node.Name = "ItemDefinitionGroup".toList then idg node
        else [] :=
  foldl_field_append ProjectParser.rootChild field _ (rootChild_field field cfg item idg hcfg hitem hidg) _ _

theorem flatMap_congr' {α β : Type} (f g : α → List β) (l : List α) (h : ∀ a, f a = g a) :
    l.flatMap f = l.flatMap g := by
  rw [funext h]

theorem flatMap_nil' {α β : Type} (l : List α) : l.flatMap (fun _ => ([] : List β)) = [] := by
  induction l with
  | nil => rfl
  | cons a l ih => rw [List.flatMap_cons, ih]; rfl

theorem filter_map_flatMap {α β γ : Type} (g : α → List β) (m : β → γ) (q : γ → Bool)
    (l : List α) :
    ((l.flatMap g).map m).filter q = l.flatMap fun x => ((g x).map m).filter q := by
  induction l with
  | nil => rfl
  | cons a l ih => simp [List.flatMap_cons, ih]

theorem filter_map_filter (m : XMLElement → ProjectConfiguration) (l : List XMLElement) :
    ((l.filter fun cfg => cfg.Name == "ProjectConfiguration".toList).map m).filter
        (fun c => c.platform != Platform.Unknown)
      = l.flatMap fun cfg =>
          if cfg.Name = "ProjectConfiguration".toList ∧ (m cfg).platform ≠ Platform.Unknown
          then [m cfg] else [] := by
  induction l with
  | nil => rfl
  | cons a l ih =>
    rw [List.flatMap_cons, ← ih]
    by_cases h1 : a.Name = "ProjectConfiguration".toList
    · have hb : (a.Name == "ProjectConfiguration".toList) = true := by
        rw [h1]; exact beq_self_eq_true _
      rw [List.filter_cons, if_pos hb, List.map_cons, List.filter_cons]
      by_cases h2 : (m a).platform = Platform.Unknown
      · have hq : ¬ ((m a).platform != Platform.Unknown) = true := by simp [h2]
        rw [if_neg hq, if_neg (fun h => h.2 h2), List.nil_append]
      · have hq : ((m a).platform != Platform.Unknown) = true := by simp [h2]
        rw [if_pos hq, if_pos ⟨h1, h2⟩, List.singleton_append]
    · have hb : ¬ (a.Name == "ProjectConfiguration".toList) = true := by
        intro h; exact h1 (beq_iff_eq.mp h)
      rw [List.filter_cons, if_neg hb, if_neg (fun h => h1 h.1), List.nil_append]

theorem flatMap_singleton_filter (m : XMLElement → ItemDefinitionGroup) (name : List Char)
    (l : List XMLElement) :
    (l.flatMap fun x => if x.Name = name then [m x] else [])
      = (l.filter fun x => x.Name == name).map m := by
  induction l with
  | nil => rfl
  | cons a l ih =>
    rw [List.flatMap_cons, ih, List.filter_cons]
    by_cases h : a.Name = name
    · have hb : (a.Name == name) = true := by rw [h]; exact beq_self_eq_true _
      rw [if_pos h, if_pos hb, List.map_cons, List.singleton_append]
    · have hb : ¬ (a.Name == name) = true := fun e => h (beq_iff_eq.mp e)
      rw [if_neg h, if_neg hb, List.nil_append]

theorem parse_projectConfigurationList (project : Project) (root : XMLElement) :
    (ProjectParser.parse project root).projectConfigurationList
      = project.projectConfigurationList ++
        ((configurationElements root).map from_xml_ProjectConfiguration).filter
          (fun c => c.platform != Platform.Unknown) := by
  rw [parse_field Project.projectConfigurationList
    (fun cfg => if cfg.Name = "ProjectConfiguration".toList ∧
        (from_xml_ProjectConfiguration cfg).platform ≠ Platform.Unknown
      then [from_xml_ProjectConfiguration cfg] else [])
    (fun _ => []) (fun _ => [])
    projectConfigurationsChild_list
    (fun p e => by rw [(itemGroupChild_other p e).1, List.append_nil])
    (fun p l node => by rw [List.append_nil])]
  congr 1
  rw [configurationElements, filter_map_flatMap]
  apply flatMap_congr'
  intro node
  by_cases hg : node.Name = "ItemGroup".toList
  · by_cases hl : node.Attribute "Label".toList = some "ProjectConfigurations".toList
    · rw [if_pos hg, if_pos hl, if_pos ⟨hg, hl⟩, filter_map_filter]
    · rw [if_pos hg, if_neg hl, if_neg (fun h => hl h.2), flatMap_nil']; rfl
  · simp only [hg, false_and, ↓reduceIte, ite_self, List.map_nil, List.filter_nil]

theorem parse_includes (project : Project) (root : XMLElement) (name : List Char)
    (field : Project → List (List Char))
    (hcfg : ∀ p e, field (ProjectParser.projectConfigurationsChild p e) = field p)
    (hitem : ∀ p e, field (ProjectParser.itemGroupChild p e) = field p ++
      (if e.Name = name then e.Attribute "Include".toList else none).toList)
    (hidg : ∀ (p : Project) (l l' : List ItemDefinitionGroup),
      field { p with itemDefinitionGroupList := l } = field { p with itemDefinitionGroupList := l' }) :
    field (ProjectParser.parse project root) = field project ++ includesOf name (itemElements root) := by
  rw [parse_field field (fun _ => [])
    (fun e => (if e.Name = name then e.Attribute "Include".toList else none).toList)
    (fun _ => [])
    (fun p e => by rw [hcfg, List.append_nil]) hitem
    (fun p l node => by rw [List.append_nil]; exact hidg p _ _)]
  congr 1
  rw [itemElements, includesOf, filterMap_flatMap']
  apply flatMap_congr'
  intro node
  by_cases hg : node.Name = "ItemGroup".toList
  · by_cases hl : node.Attribute "Label".toList = some "ProjectConfigurations".toList
    · rw [if_pos hg, if_pos hl, if_neg (fun h => h.2 hl), flatMap_nil']; rfl
    · rw [if_pos hg, if_neg hl, if_pos ⟨hg, hl⟩, flatMap_toList_eq_filterMap]
  · simp only [hg, false_and, ↓reduceIte, ite_self, List.filterMap_nil]

theorem parse_itemDefinitionGroupList (project : Project) (root : XMLElement) :
    (ProjectParser.parse project root).itemDefinitionGroupList
      = project.itemDefinitionGroupList ++
        ((children root).filter fun node => node.Name == "ItemDefinitionGroup".toList).map
          from_xml_ItemDefinitionGroup := by
  rw [parse_field Project.itemDefinitionGroupList (fun _ => []) (fun _ => [])
    (fun node => [from_xml_ItemDefinitionGroup node])
    (fun p e => by rw [(projectConfigurationsChild_other p e).2.2, List.append_nil])
    (fun p e => by rw [(itemGroupChild_other p e).2, List.append_nil])
    (fun p l node => rfl)]
  congr 1
  rw [← flatMap_singleton_filter]
  apply flatMap_congr'
  intro node
  by_cases hg : node.Name = "ItemGroup".toList
  · have hne : ¬ node.Name = "ItemDefinitionGroup".toList := by
      rw [hg]; decide
    rw [if_pos hg, if_neg hne]
    split_ifs <;> exact flatMap_nil' _
  · rw [if_neg hg]

theorem from_xml_ItemDefinitionGroup_fields (xml : XMLElement) :
    (from_xml_ItemDefinitionGroup xml).cppstd
      = ((textsOf "LanguageStandard".toList (clCompileElements xml)).filterMap
          standardOf).getLast?.getD CppStandard.CppLatest ∧
    (from_xml_ItemDefinitionGroup xml).additionalIncludeDirectories
      = (textsOf "AdditionalIncludeDirectories".toList (clCompileElements xml)).flatten ∧
    (from_xml_ItemDefinitionGroup xml).preprocessorDefinitions
      = (textsOf "PreprocessorDefinitions".toList (clCompileElements xml)).getLast?.getD [] ∧
    (from_xml_ItemDefinitionGroup xml).condition
      = (xml.Attribute "Condition".toList).getD [] := by
  rw [from_xml_ItemDefinitionGroup_eq]
  refine ⟨?_, ?_, ?_, ?_⟩
  · rw [foldl_field_last clCompileChild ItemDefinitionGroup.cppstd _ clCompileChild_cppstd,
      textsOf, List.filterMap_filterMap]
    cases xml.Attribute "Condition".toList <;> rfl
  · rw [foldl_field_append clCompileChild ItemDefinitionGroup.additionalIncludeDirectories _
      clCompileChild_additionalIncludeDirectories, flatMap_getD_eq_flatten, textsOf]
    cases xml.Attribute "Condition".toList <;> rfl
  · rw [foldl_field_last clCompileChild ItemDefinitionGroup.preprocessorDefinitions
      (fun e => if e.Name = "PreprocessorDefinitions".toList then e.GetText else none)
      clCompileChild_preprocessorDefinitions, textsOf]
    cases xml.Attribute "Condition".toList <;> rfl
  · rw [foldl_field_eq clCompileChild ItemDefinitionGroup.condition clCompileChild_condition]
    cases xml.Attribute "Condition".toList <;> rfl

/-- C13: the platform of a parsed `ProjectConfiguration` element is the one its
`Platform` text stands for (the text of its last text-bearing `Platform`
child): `Win32` gives Win32, `x64` gives x64, any other text or no text gives
Unknown. The parser appends to `projectConfigurationList`, in document order,
exactly the parsed `ProjectConfiguration` elements of the item groups labelled
`ProjectConfigurations` whose platform is not Unknown, so every entry of the
resulting list was there before or has a platform other than Unknown. -/
theorem parse_projectConfigurations (project : Project) (root : XMLElement) :
    (∀ cfg, (from_xml_ProjectConfiguration cfg).platform
      = platformOf ((textsOf "Platform".toList (children cfg)).getLast?)) ∧
    platformOf (some "Win32".toList) = Platform.Win32 ∧
    platformOf (some "x64".toList) = Platform.x64 ∧
    platformOf none = Platform.Unknown ∧
    (∀ text, text = "Win32".toList ∨ text = "x64".toList ∨
      platformOf (some text) = Platform.Unknown) ∧
    (ProjectParser.parse project root).projectConfigurationList
      = project.projectConfigurationList ++
        ((configurationElements root).map from_xml_ProjectConfiguration).filter
          (fun c => c.platform != Platform.Unknown) ∧
    (∀ c ∈ (ProjectParser.parse project root).projectConfigurationList,
      c ∈ project.projectConfigurationList ∨ c.platform ≠ Platform.Unknown) := by
  refine ⟨from_xml_ProjectConfiguration_platform, by decide, by decide, rfl, ?_,
    parse_projectConfigurationList project root, ?_⟩
  · intro text
    by_cases h1 : text = "Win32".toList
    · exact Or.inl h1
    · by_cases h2 : text = "x64".toList
      · exact Or.inr (Or.inl h2)
      · exact Or.inr (Or.inr (by rw [platformOf, if_neg h1, if_neg h2]))
  · intro c hc
    rw [parse_projectConfigurationList] at hc
    rcases List.mem_append.mp hc with h | h
    · exact Or.inl h
    · have := (List.mem_filter.mp h).2
      exact Or.inr (by simpa using this)

/-- C14: the `cppstd` of a parsed `ItemDefinitionGroup` is the standard named by
the `LanguageStandard` text under its `ClCompile` children (the last text that
is one of the four literals): `stdcpp14` gives Cpp14, `stdcpp17` Cpp17,
`stdcpp20` Cpp20, `stdcpplatest` CppLatest; a text that is none of the four
names no standard, and with no such text the field keeps its default
CppLatest. -/
theorem from_xml_ItemDefinitionGroup_cppstd (xml : XMLElement) :
    (from_xml_ItemDefinitionGroup xml).cppstd
      = ((textsOf "LanguageStandard".toList (clCompileElements xml)).filterMap
          standardOf).getLast?.getD CppStandard.CppLatest ∧
    standardOf "stdcpp14".toList = some CppStandard.Cpp14 ∧
    standardOf "stdcpp17".toList = some CppStandard.Cpp17 ∧
    standardOf "stdcpp20".toList = some CppStandard.Cpp20 ∧
    standardOf "stdcpplatest".toList = some CppStandard.CppLatest ∧
    (∀ text, text ∈ ["stdcpp14".toList, "stdcpp17".toList, "stdcpp20".toList,
        "stdcpplatest".toList] ∨ standardOf text = none) ∧
    (([] : List (List Char)).filterMap standardOf).getLast?.getD CppStandard.CppLatest
      = CppStandard.CppLatest := by
  refine ⟨(from_xml_ItemDefinitionGroup_fields xml).1, by decide, by decide, by decide,
    by decide, ?_, rfl⟩
  intro text
  by_cases h1 : text = "stdcpp14".toList
  · exact Or.inl (by rw [h1]; decide)
  · by_cases h2 : text = "stdcpp17".toList
    · exact Or.inl (by rw [h2]; decide)
    · by_cases h3 : text = "stdcpp20".toList
      · exact Or.inl (by rw [h3]; decide)
      · by_cases h4 : text = "stdcpplatest".toList
        · exact Or.inl (by rw [h4]; decide)
        · exact Or.inr (by rw [standardOf, if_neg h1, if_neg h2, if_neg h3, if_neg h4])

/-- C15: in a parsed `ItemDefinitionGroup`, `additionalIncludeDirectories` is
the concatenation, in document order, of the texts of the text-bearing
`AdditionalIncludeDirectories` elements under its `ClCompile` children, and
`preprocessorDefinitions` is the text of the last text-bearing
`PreprocessorDefinitions` element there, or empty when there is none; an
element without text changes nothing. -/
theorem from_xml_ItemDefinitionGroup_texts (xml : XMLElement) :
    (from_xml_ItemDefinitionGroup xml).additionalIncludeDirectories
      = (textsOf "AdditionalIncludeDirectories".toList (clCompileElements xml)).flatten ∧
    (from_xml_ItemDefinitionGroup xml).preprocessorDefinitions
      = (textsOf "PreprocessorDefinitions".toList (clCompileElements xml)).getLast?.getD [] ∧
    (∀ ret name attributes cs, clCompileChild ret (XMLElement.mk name attributes none cs) = ret) :=
  ⟨(from_xml_ItemDefinitionGroup_fields xml).2.1, (from_xml_ItemDefinitionGroup_fields xml).2.2.1,
    fun _ _ _ _ => rfl⟩

/-- C16: the parser appends to `compileList` exactly the `Include` attributes of
the `ClCompile` children, and to `includeList` exactly those of the
`ClInclude` children, of the root-level item groups not labelled
`ProjectConfigurations`, in document order; children without the attribute,
children of other names and children of the `ProjectConfigurations` group
give nothing. -/
theorem parse_compile_include (project : Project) (root : XMLElement) :
    (ProjectParser.parse project root).compileList
      = project.compileList ++ includesOf "ClCompile".toList (itemElements root) ∧
    (ProjectParser.parse project root).includeList
      = project.includeList ++ includesOf "ClInclude".toList (itemElements root) :=
  ⟨parse_includes project root "ClCompile".toList Project.compileList
      (fun p e => (projectConfigurationsChild_other p e).1) itemGroupChild_compileList
      (fun _ _ _ => rfl),
    parse_includes project root "ClInclude".toList Project.includeList
      (fun p e => (projectConfigurationsChild_other p e).2.1) itemGroupChild_includeList
      (fun _ _ _ => rfl)⟩

/-- C17: the parser appends one `ItemDefinitionGroup` per root-level
`ItemDefinitionGroup` child, in document order, whatever the child holds: a
child with no attribute and no children gives the all-default group. On the
root whose only child is
`<ItemDefinitionGroup><ClCompile><LanguageStandard>stdcpp20</LanguageStandard></ClCompile></ItemDefinitionGroup>`
an empty project gets exactly one group, with `cppstd` Cpp20 and empty
condition, definitions and include directories. -/
theorem parse_itemDefinitionGroups (project : Project) (root : XMLElement) :
    (ProjectParser.parse project root).itemDefinitionGroupList
      = project.itemDefinitionGroupList ++
        ((children root).filter fun node => node.Name == "ItemDefinitionGroup".toList).map
          from_xml_ItemDefinitionGroup ∧
    from_xml_ItemDefinitionGroup (XMLElement.mk "ItemDefinitionGroup".toList [] none []) = {} ∧
    ProjectParser.parse {} scenarioRoot
      = { itemDefinitionGroupList :=
            [{ condition := [], preprocessorDefinitions := [],
               additionalIncludeDirectories := [], cppstd := CppStandard.Cpp20 }] } :=
  ⟨parse_itemDefinitionGroupList project root, by decide, by decide⟩

/-! ## Termination of the loop of `evaluate` -/

theorem findIn_tok_some (l : List Char) (j : Nat) (h : findIn tok l = some j) :
    ∃ a X, l = a ++ '$' :: '(' :: X ∧ a.length = j := by
  induction l generalizing j with
  | nil => simp [findIn, tok, List.isPrefixOf] at h
  | cons c cs ih =>
    rw [findIn] at h
    by_cases hp : tok.isPrefixOf (c :: cs) = true
    · rw [if_pos hp] at h
      obtain ⟨X, hX⟩ := List.isPrefixOf_iff_prefix.mp hp
      exact ⟨[], X, by rw [← hX]; rfl, by simpa using h⟩
    · rw [if_neg hp] at h
      cases hf : findIn tok cs with
      | none => rw [hf] at h; cases h
      | some j' =>
        rw [hf] at h
        obtain ⟨a, X, hl, ha⟩ := ih j' hf
        refine ⟨c :: a, X, by rw [hl]; rfl, ?_⟩
        simp only [Option.map_some', Option.some.injEq] at h
        simp [ha, h]

theorem findIn_char_some (c : Char) (l : List Char) (k : Nat) (h : findIn [c] l = some k) :
    ∃ a b, l = a ++ c :: b ∧ a.length = k ∧ c ∉ a := by
  induction l generalizing k with
  | nil => simp [findIn, List.isPrefixOf] at h
  | cons d l ih =>
    by_cases hd : c = d
    · subst hd
      refine ⟨[], l, rfl, ?_, by simp⟩
      simpa [findIn, List.isPrefixOf] using h
    · cases hf : findIn [c] l with
      | none => simp [findIn, List.isPrefixOf, hd, hf] at h
      | some k' =>
        obtain ⟨a, b, hl, ha, hc⟩ := ih k' hf
        refine ⟨d :: a, b, by rw [hl]; rfl, ?_, ?_⟩
        · simp [findIn, List.isPrefixOf, hd, hf] at h
          simp [ha, h]
        · simp [hd, hc]

theorem find_some_split (s pat : List Char) (start i : Nat) (h : find s pat start = some i) :
    start ≤ i ∧ findIn pat (s.drop start) = some (i - start) ∧ start ≤ s.length := by
  unfold find at h
  split at h
  · cases h
  · rename_i hlen
    cases hf : findIn pat (s.drop start) with
    | none => rw [hf] at h; cases h
    | some j =>
      rw [hf] at h
      simp only [Option.map_some', Option.some.injEq] at h
      subst h
      exact ⟨by omega, by simp, by omega⟩

/-- The shape of the string at a round that goes on: a closed reference at the
position found. -/
theorem find_token_shape (s : List Char) (start f e : Nat)
    (hf : find s tok start = some f) (he : find s [')'] f = some e) :
    ∃ pre n q, s = pre ++ '$' :: '(' :: (n ++ ')' :: q) ∧ pre.length = f ∧ ')' ∉ n ∧
      e = f + 2 + n.length := by
  obtain ⟨h1, h2, h3⟩ := find_some_split s tok start f hf
  obtain ⟨a, X, hl, ha⟩ := findIn_tok_some _ _ h2
  obtain ⟨h4, h5, h6⟩ := find_some_split s [')'] f e he
  have hs : s = (s.take start ++ a) ++ '$' :: '(' :: X := by
    rw [List.append_assoc, ← hl, List.take_append_drop]
  have hlen : (s.take start ++ a).length = f := by
    simp [List.length_take, Nat.min_eq_left h3, ha]; omega
  have hdrop : s.drop f = '$' :: '(' :: X := by
    conv_lhs => rw [hs, ← hlen, List.drop_left]
  rw [hdrop] at h5
  obtain ⟨a', b, hl', ha', hc'⟩ := findIn_char_some ')' _ _ h5
  -- a' starts with `$(`
  match a', hl', ha', hc' with
  | [], hl', _, _ => simp at hl'
  | [x], hl', _, _ => simp at hl'
  | x :: y :: n, hl', ha', hc' =>
    simp only [List.cons_append, List.cons.injEq] at hl'
    obtain ⟨_, _, hX⟩ := hl'
    refine ⟨s.take start ++ a, n, b, by rw [← hX]; exact hs, hlen, ?_, ?_⟩
    · exact fun hm => hc' (by simp [hm])
    · simp only [List.length_cons] at ha'
      omega

theorem evaluateStep_next_shape (vars : VarTable) (getenv : Env) (readenv : Bool)
    (s : List Char) (start : Nat) (s' : List Char) (start' : Nat)
    (h : evaluateStep vars getenv readenv s start = .next s' start') :
    ∃ pre n q v, s = pre ++ '$' :: '(' :: (n ++ ')' :: q) ∧
      find s tok start = some pre.length ∧ resolve vars getenv readenv n = some v ∧
      s' = pre ++ v ++ q ∧ start' = pre.length := by
  cases hf : find s tok start with
  | none => simp [evaluateStep, hf] at h
  | some f =>
    cases he : find s [')'] f with
    | none => simp [evaluateStep, hf, he] at h
    | some e =>
      obtain ⟨pre, n, q, hs, hpre, hn, _⟩ := find_token_shape s start f e hf he
      have hfind : find s tok start = find s tok pre.length := by
        rw [hf, hs, find_append]
        simp [findIn, tok, List.isPrefixOf, hpre]
      rw [evaluateStep_congr vars getenv readenv s start pre.length hfind, hs,
        evaluateStep_token vars getenv readenv pre n q hn] at h
      cases hr : resolve vars getenv readenv n with
      | none => rw [hr] at h; cases h
      | some v =>
        rw [hr] at h
        simp only [Step.next.injEq] at h
        exact ⟨pre, n, q, v, hs, by rw [hpre], hr, h.1.symm, h.2.symm⟩

theorem findIn_tok_append_ge (v q : List Char) (j : Nat) (hv : ¬ tok <:+: v)
    (h : findIn tok (v ++ q) = some j) : v.length ≤ j + 1 := by
  induction v generalizing j with
  | nil => simp
  | cons c v ih =>
    have hv' : ¬ tok <:+: v := fun hi => hv (List.infix_cons hi)
    rw [List.cons_append, findIn] at h
    by_cases hp : tok.isPrefixOf (c :: (v ++ q)) = true
    · cases v with
      | nil => simp
      | cons d v =>
        exfalso
        apply hv
        have : tok.isPrefixOf (c :: d :: v) = true := by
          simpa [tok, List.isPrefixOf] using hp
        exact (List.isPrefixOf_iff_prefix.mp this).isInfix
    · rw [if_neg hp] at h
      cases hf : findIn tok (v ++ q) with
      | none => rw [hf] at h; cases h
      | some j' =>
        rw [hf] at h
        simp only [Option.map_some', Option.some.injEq] at h
        have := ih j' hv' hf
        simp only [List.length_cons]
        omega

theorem remaining_next (vars : VarTable) (getenv : Env) (readenv : Bool)
    (hval : ∀ n v, resolve vars getenv readenv n = some v → ¬ tok <:+: v)
    (s : List Char) (start : Nat) (s' : List Char) (start' : Nat)
    (h : evaluateStep vars getenv readenv s start = .next s' start') :
    remaining s' start' < remaining s start := by
  obtain ⟨pre, n, q, v, hs, hf, hr, hs', hstart'⟩ :=
    evaluateStep_next_shape vars getenv readenv s start s' start' h
  have hv := hval n v hr
  have h1 : remaining s start = 3 + n.length + q.length := by
    rw [remaining, hf, hs]
    simp only [List.length_append, List.length_cons]
    omega
  have h2 : remaining s' start' ≤ 1 + q.length := by
    rw [remaining, hs', hstart', List.append_assoc, find_append]
    cases hj : findIn tok (v ++ q) with
    | none => simp
    | some j =>
      have := findIn_tok_append_ge v q j hv hj
      simp only [Option.map_some', List.length_append]
      omega
  omega

theorem evaluateLoop_terminates (vars : VarTable) (getenv : Env) (readenv : Bool)
    (hval : ∀ n v, resolve vars getenv readenv n = some v → ¬ tok <:+: v)
    (fuel : Nat) (s : List Char) (start : Nat) (h : remaining s start < fuel) :
    ∃ r, evaluateLoop vars getenv readenv fuel s start = some r := by
  induction fuel generalizing s start with
  | zero => omega
  | succ fuel ih =>
    rw [evaluateLoop]
    cases hs : evaluateStep vars getenv readenv s start with
    | done ok s' => exact ⟨_, rfl⟩
    | next s' start' =>
      have := remaining_next vars getenv readenv hval s start s' start' hs
      exact ih s' start' (by omega)

theorem evaluateLoop_mono (vars : VarTable) (getenv : Env) (readenv : Bool)
    (fuel k : Nat) (s : List Char) (start : Nat) (r : Bool × List Char)
    (h : evaluateLoop vars getenv readenv fuel s start = some r) :
    evaluateLoop vars getenv readenv (fuel + k) s start = some r := by
  induction fuel generalizing s start with
  | zero => simp [evaluateLoop] at h
  | succ fuel ih =>
    rw [Nat.add_right_comm, evaluateLoop]
    rw [evaluateLoop] at h
    cases hs : evaluateStep vars getenv readenv s start with
    | done ok s' => rw [hs] at h; exact h
    | next s' start' => rw [hs] at h; exact ih s' start' h

theorem remaining_le (s : List Char) (start : Nat) : remaining s start ≤ s.length := by
  rw [remaining]
  split <;> omega

/-- C20: when no value of the table contains `$(` (nor, with `readenv`, any value
of the environment), `evaluate` terminates on every string: each round that
goes on strictly decreases the number of characters from the next `$(` to
the last character of the string, so the loop is a well-founded recursion on
that measure, and any fuel above the length of `s` yields the same result. -/
theorem evaluate_terminates (s : List Char) (vars : VarTable) (getenv : Env) (readenv : Bool)
    (hvars : ∀ n v, List.lookup n vars = some v → ¬ tok <:+: v)
    (henv : readenv = true → ∀ n v, getenv n = some v → ¬ tok <:+: v) :
    (∃ r, ∀ k, evaluate (s.length + 1 + k) s vars getenv readenv = some r) ∧
    (∀ t start t' start', evaluateStep vars getenv readenv t start = .next t' start' →
      remaining t' start' < remaining t start) := by
  have hval : ∀ n v, resolve vars getenv readenv n = some v → ¬ tok <:+: v := by
    intro n v h
    unfold resolve at h
    cases hl : List.lookup n vars with
    | some w =>
      rw [hl] at h
      simp only [Option.some.injEq] at h
      exact h ▸ hvars n w hl
    | none =>
      rw [hl] at h
      cases readenv with
      | false => simp at h
      | true => exact henv rfl _ v (by simpa using h)
  refine ⟨?_, remaining_next vars getenv readenv hval⟩
  obtain ⟨r, hr⟩ := evaluateLoop_terminates vars getenv readenv hval (s.length + 1) s 0
    (Nat.lt_succ_of_le (remaining_le s 0))
  exact ⟨r, fun k => evaluateLoop_mono vars getenv readenv _ k s 0 r hr⟩

/-- C20 (witness): `$(A)(A)` with `A ↦ x$`, a value that ends in `$` and joins
the `(` after it, still terminates. -/
theorem evaluate_terminates_witness :
    (∃ r, ∀ k, evaluate ("$(A)(A)".toList.length + 1 + k) "$(A)(A)".toList
      [("A".toList, "x$".toList)] (fun _ => none) true = some r) ∧
    (∀ t start t' start',
      evaluateStep [("A".toList, "x$".toList)] (fun _ => none) true t start = .next t' start' →
      remaining t' start' < remaining t start) :=
  evaluate_terminates "$(A)(A)".toList [("A".toList, "x$".toList)] (fun _ => none) true
    (by
      intro n v h
      simp only [List.lookup] at h
      split at h
      · cases h; decide
      · cases h)
    (fun _ n v h => by cases h)

/-! ## Lines without `=`, and texts that stop inside a block -/

theorem mem_of_mem_simplifiedLoop (c : Char) (fuel : Nat) (t : List Char)
    (h : c ∈ simplifiedLoop fuel t) : c ∈ t ∨ c = ' ' := by
  induction fuel generalizing t with
  | zero => simp [simplifiedLoop] at h
  | succ fuel ih =>
    rw [simplifiedLoop] at h
    have hsplit := List.takeWhile_append_dropWhile (fun c => !isspace c) t
    have hw : ∀ x, x ∈ t.takeWhile (fun c => !isspace c) → x ∈ t :=
      fun x hx => (List.takeWhile_sublist _).subset hx
    split at h
    · exact Or.inl (hw c h)
    · rename_i c0 rest1 heq
      have hd : ∀ x, x ∈ (c0 :: rest1).dropWhile isspace → x ∈ t := fun x hx => by
        have h1 : x ∈ c0 :: rest1 := (List.dropWhile_sublist _).subset hx
        rw [← heq] at h1
        exact (List.dropWhile_sublist _).subset h1
      split at h
      · rcases List.mem_append.mp h with h1 | h1
        · exact Or.inl (hw c h1)
        · exact Or.inr (by simpa using h1)
      · rename_i d rest2 heq2
        rcases List.mem_append.mp h with h1 | h1
        · exact Or.inl (hw c h1)
        · rcases List.mem_cons.mp h1 with h2 | h2
          · exact Or.inr h2
          · rcases ih _ h2 with h3 | h3
            · exact Or.inl (hd c (heq2 ▸ h3))
            · exact Or.inr h3

theorem mem_of_mem_simplified (c : Char) (l : List Char) (h : c ∈ simplified l) :
    c ∈ l ∨ c = ' ' := by
  rw [simplified] at h
  rcases mem_of_mem_simplifiedLoop c _ _ h with h1 | h1
  · left
    have h2 : c ∈ l.rdropWhile isspace := (List.dropWhile_sublist _).subset h1
    exact (List.rdropWhile_prefix isspace l).subset h2
  · exact Or.inr h1

theorem find_equal_simplified (l : List Char) (h : '=' ∉ l) : find (simplified l) ['='] 0 = none :=
  find_char_of_not_mem '=' _ fun hm =>
    (mem_of_mem_simplified '=' l hm).elim h (by decide)

theorem simplified_nil : simplified [] = [] := by decide

theorem readDependencies_no_equal (lines : List (List Char)) (bad : List Char)
    (rest : List (List Char)) (project : Project) (fuel : Nat)
    (hl : ∀ l ∈ lines, IsLine l ∧ simplified l ≠ "EndProjectSection".toList)
    (hb : IsLine bad) (hbt : simplified bad ≠ "EndProjectSection".toList) (hbe : '=' ∉ bad)
    (hf : lines.length < fuel) :
    readDependencies fuel (streamOf (lines ++ bad :: rest)) project = .error .out_of_range := by
  induction lines generalizing project fuel with
  | nil =>
    obtain ⟨fuel, rfl⟩ : ∃ f, fuel = f + 1 := ⟨fuel - 1, by simp at hf; omega⟩
    rw [List.nil_append, readDependencies]
    simp only [streamOf_eofbit, List.isEmpty_cons, Bool.false_eq_true, ↓reduceIte,
      read_line_simplified_streamOf bad rest hb, hbt, find_equal_simplified bad hbe]
  | cons l lines ih =>
    obtain ⟨fuel, rfl⟩ : ∃ f, fuel = f + 1 := ⟨fuel - 1, by simp at hf; omega⟩
    obtain ⟨h1, h2⟩ := hl l (by simp)
    have hf' : lines.length < fuel := by simp at hf; omega
    rw [List.cons_append, readDependencies]
    simp only [streamOf_eofbit, List.isEmpty_cons, Bool.false_eq_true, ↓reduceIte,
      read_line_simplified_streamOf l _ h1, h2]
    cases find (simplified l) ['='] 0 with
    | none => rfl
    | some i => exact ih _ _ (fun l' hl' => hl l' (List.mem_cons_of_mem _ hl')) hf'

theorem readConfigurations_no_equal (lines : List (List Char)) (bad : List Char)
    (rest : List (List Char)) (solution : Solution) (fuel : Nat)
    (hl : ∀ l ∈ lines, IsLine l ∧ simplified l ≠ "EndGlobalSection".toList)
    (hb : IsLine bad) (hbt : simplified bad ≠ "EndGlobalSection".toList) (hbe : '=' ∉ bad)
    (hf : lines.length < fuel) :
    readConfigurations fuel (streamOf (lines ++ bad :: rest)) solution
      = .error .out_of_range := by
  induction lines generalizing solution fuel with
  | nil =>
    obtain ⟨fuel, rfl⟩ : ∃ f, fuel = f + 1 := ⟨fuel - 1, by simp at hf; omega⟩
    rw [List.nil_append, readConfigurations]
    simp only [streamOf_eofbit, List.isEmpty_cons, Bool.false_eq_true, ↓reduceIte,
      read_line_simplified_streamOf bad rest hb, hbt, find_equal_simplified bad hbe]
  | cons l lines ih =>
    obtain ⟨fuel, rfl⟩ : ∃ f, fuel = f + 1 := ⟨fuel - 1, by simp at hf; omega⟩
    obtain ⟨h1, h2⟩ := hl l (by simp)
    have hf' : lines.length < fuel := by simp at hf; omega
    rw [List.cons_append, readConfigurations]
    simp only [streamOf_eofbit, List.isEmpty_cons, Bool.false_eq_true, ↓reduceIte,
      read_line_simplified_streamOf l _ h1, h2]
    cases find (simplified l) ['='] 0 with
    | none => rfl
    | some i => exact ih _ _ (fun l' hl' => hl l' (List.mem_cons_of_mem _ hl')) hf'

theorem readProjectBody_body_error (body : List BodyItem) (tail : List (List Char))
    (solution : Solution) (ps : List Project) (p : Project) (fuel k : Nat) (e : Exn)
    (hb : ∀ item ∈ body, item.WF "EndProject".toList "ProjectSection".toList
      "ProjectSection(ProjectDependencies)".toList "EndProjectSection".toList)
    (htail : ∀ (q : Project) (f : Nat), k < f →
      readProjectBody f (streamOf tail) { solution with projects := ps ++ [q] } = .error e)
    (hf : (renderBody body).length + k < fuel) :
    readProjectBody fuel (streamOf (renderBody body ++ tail))
        { solution with projects := ps ++ [p] } = .error e := by
  induction body generalizing p fuel with
  | nil =>
    simp only [renderBody, List.flatMap_nil, List.nil_append]
    exact htail p fuel (by simp [renderBody] at hf; omega)
  | cons item body ih =>
    obtain ⟨fuel, rfl⟩ : ∃ f, fuel = f + 1 := ⟨fuel - 1, by omega⟩
    have hb' : ∀ item ∈ body, item.WF "EndProject".toList "ProjectSection".toList
      "ProjectSection(ProjectDependencies)".toList "EndProjectSection".toList :=
      fun i hi => hb i (List.mem_cons_of_mem _ hi)
    have hitem := hb item (by simp)
    rw [length_renderBody_cons] at hf
    cases item with
    | line l =>
      obtain ⟨h1, h2, h3⟩ := hitem
      have hf' : (renderBody body).length + k < fuel := by simp [BodyItem.render] at hf; omega
      have e1 : renderBody (BodyItem.line l :: body) ++ tail
          = l :: (renderBody body ++ tail) := by simp [renderBody, BodyItem.render]
      rw [e1, readProjectBody]
      simp only [streamOf_eofbit, List.isEmpty_cons, Bool.false_eq_true, ↓reduceIte,
        read_line_streamOf l _ h1, h2, h3]
      exact ih _ _ hb' hf'
    | sect s =>
      have hs : s.WF "ProjectSection".toList "ProjectSection(ProjectDependencies)".toList
        "EndProjectSection".toList := hitem
      have hhead := hs.1
      have hopen := hs.2.1
      have hne : simplified s.header ≠ "EndProject".toList :=
        starts_with_ne _ _ _ hopen (by decide)
      have hf1 : s.lines.length < fuel := by
        simp [BodyItem.render, Sect.render] at hf; omega
      have hf2 : (renderBody body).length + k < fuel := by
        simp [BodyItem.render, Sect.render] at hf; omega
      have e1 : renderBody (BodyItem.sect s :: body) ++ tail
          = s.header :: (s.lines ++ s.terminator :: (renderBody body ++ tail)) := by
        simp [renderBody, BodyItem.render, Sect.render]
      have hlast : (ps ++ [p]).getLast? = some p := by simp
      have hdrop : (ps ++ [p]).dropLast = ps := by simp
      rw [e1, readProjectBody]
      simp only [streamOf_eofbit, List.isEmpty_cons, Bool.false_eq_true, ↓reduceIte,
        read_line_streamOf s.header _ hhead, hne, hopen, hlast, hdrop,
        readProjectSection_sect s hs _ _ fuel hf1]
      exact ih _ _ hb' hf2

theorem readGlobal_body_error (body : List BodyItem) (tail : List (List Char))
    (solution : Solution) (fuel k : Nat) (e : Exn)
    (hb : ∀ item ∈ body, item.WF "EndGlobal".toList "GlobalSection(".toList
      "GlobalSection(SolutionConfigurationPlatforms)".toList "EndGlobalSection".toList)
    (htail : ∀ (sol : Solution) (f : Nat), k < f →
      readGlobal f (streamOf tail) sol = .error e)
    (hf : (renderBody body).length + k < fuel) :
    readGlobal fuel (streamOf (renderBody body ++ tail)) solution = .error e := by
  induction body generalizing solution fuel with
  | nil =>
    simp only [renderBody, List.flatMap_nil, List.nil_append]
    exact htail solution fuel (by simp [renderBody] at hf; omega)
  | cons item body ih =>
    obtain ⟨fuel, rfl⟩ : ∃ f, fuel = f + 1 := ⟨fuel - 1, by omega⟩
    have hb' : ∀ item ∈ body, item.WF "EndGlobal".toList "GlobalSection(".toList
      "GlobalSection(SolutionConfigurationPlatforms)".toList "EndGlobalSection".toList :=
      fun i hi => hb i (List.mem_cons_of_mem _ hi)
    have hitem := hb item (by simp)
    rw [length_renderBody_cons] at hf
    cases item with
    | line l =>
      obtain ⟨h1, h2, h3⟩ := hitem
      have hf' : (renderBody body).length + k < fuel := by simp [BodyItem.render] at hf; omega
      have e1 : renderBody (BodyItem.line l :: body) ++ tail
          = l :: (renderBody body ++ tail) := by simp [renderBody, BodyItem.render]
      rw [e1, readGlobal]
      simp only [streamOf_eofbit, List.isEmpty_cons, Bool.false_eq_true, ↓reduceIte,
        read_line_simplified_streamOf l _ h1, h2, h3]
      exact ih _ _ hb' hf'
    | sect s =>
      have hs : s.WF "GlobalSection(".toList
        "GlobalSection(SolutionConfigurationPlatforms)".toList "EndGlobalSection".toList := hitem
      have hhead := hs.1
      have hopen := hs.2.1
      have hne : simplified s.header ≠ "EndGlobal".toList :=
        starts_with_ne _ _ _ hopen (by decide)
      have hf1 : s.lines.length < fuel := by
        simp [BodyItem.render, Sect.render] at hf; omega
      have hf2 : (renderBody body).length + k < fuel := by
        simp [BodyItem.render, Sect.render] at hf; omega
      have e1 : renderBody (BodyItem.sect s :: body) ++ tail
          = s.header :: (s.lines ++ s.terminator :: (renderBody body ++ tail)) := by
        simp [renderBody, BodyItem.render, Sect.render]
      rw [e1, readGlobal]
      simp only [streamOf_eofbit, List.isEmpty_cons, Bool.false_eq_true, ↓reduceIte,
        read_line_simplified_streamOf s.header _ hhead, hne, hopen,
        readGlobalSection_sect s hs _ _ fuel hf1]
      exact ih _ _ hb' hf2

theorem topLevel_items_error (items : List TopItem) (tail : List (List Char))
    (solution : Solution) (fuel k : Nat) (e : Exn)
    (hwf : ∀ item ∈ items, item.WF)
    (htail : ∀ (sol : Solution) (f : Nat), k < f → topLevel f (streamOf tail) sol = .error e)
    (hf : (renderItems items).length + k < fuel) :
    topLevel fuel (streamOf (renderItems items ++ tail)) solution = .error e := by
  induction items generalizing solution fuel with
  | nil =>
    simp only [renderItems, List.flatMap_nil, List.nil_append]
    exact htail solution fuel (by simp [renderItems] at hf; omega)
  | cons item items ih =>
    obtain ⟨fuel, rfl⟩ : ∃ f, fuel = f + 1 := ⟨fuel - 1, by omega⟩
    have hwf' : ∀ item ∈ items, item.WF := fun i hi => hwf i (List.mem_cons_of_mem _ hi)
    have hitem := hwf item (by simp)
    rw [length_renderItems_cons] at hf
    cases item with
    | line l =>
      obtain ⟨h1, h2, h3, h4⟩ := hitem
      have hf' : (renderItems items).length + k < fuel := by simp [TopItem.render] at hf; omega
      have e1 : renderItems (TopItem.line l :: items) ++ tail
          = l :: (renderItems items ++ tail) := by
        simp [renderItems, TopItem.render]
      rw [e1, topLevel]
      simp only [streamOf_eofbit, List.isEmpty_cons, Bool.false_eq_true, ↓reduceIte,
        read_line_streamOf l _ h1, h2, h3]
      by_cases hv : starts_with l
          "Microsoft Visual Studio Solution File, Format Version".toList = true
      · have hlen := h4 hv
        simp only [hv, ↓reduceIte, readVersion, Nat.not_lt.mpr hlen]
        exact ih _ _ hwf' hf'
      · simp only [hv, Bool.false_eq_true, ↓reduceIte]
        exact ih _ _ hwf' hf'
    | project b =>
      obtain ⟨h1, h2, ⟨stub, h3⟩, h4, h5, h6⟩ := hitem
      have hv : starts_with b.header
          "Microsoft Visual Studio Solution File, Format Version".toList = false :=
        starts_with_head b.header 'P' 'M' _ _ h2 (by decide)
      have hf1 : (renderBody b.body).length < fuel := by
        simp [TopItem.render, Block.render] at hf; omega
      have hf2 : (renderItems items).length + k < fuel := by
        simp [TopItem.render, Block.render] at hf; omega
      have e1 : renderItems (TopItem.project b :: items) ++ tail
          = b.header :: (renderBody b.body ++ b.terminator :: (renderItems items ++ tail)) := by
        simp [renderItems, TopItem.render, Block.render]
      rw [e1, topLevel]
      simp only [streamOf_eofbit, List.isEmpty_cons, Bool.false_eq_true, ↓reduceIte,
        read_line_streamOf b.header _ h1, hv, h2, readProject, h3,
        readProjectBody_body b.body b.terminator _ solution solution.projects stub fuel h4 h5 h6 hf1]
      exact ih _ _ hwf' hf2
    | global b =>
      obtain ⟨h1, h2, h4, h5, h6⟩ := hitem
      have hv : starts_with b.header
          "Microsoft Visual Studio Solution File, Format Version".toList = false :=
        starts_with_head b.header 'G' 'M' _ _ h2 (by decide)
      have hp : starts_with b.header "Project(".toList = false :=
        starts_with_head b.header 'G' 'P' _ _ h2 (by decide)
      have hf1 : (renderBody b.body).length < fuel := by
        simp [TopItem.render, Block.render] at hf; omega
      have hf2 : (renderItems items).length + k < fuel := by
        simp [TopItem.render, Block.render] at hf; omega
      have e1 : renderItems (TopItem.global b :: items) ++ tail
          = b.header :: (renderBody b.body ++ b.terminator :: (renderItems items ++ tail)) := by
        simp [renderItems, TopItem.render, Block.render]
      rw [e1, topLevel]
      simp only [streamOf_eofbit, List.isEmpty_cons, Bool.false_eq_true, ↓reduceIte,
        read_line_streamOf b.header _ h1, hv, hp, h2,
        readGlobal_body b.body b.terminator _ solution fuel h4 h5 h6 hf1]
      exact ih _ _ hwf' hf2

theorem topLevel_open_dependencies (blockHeader : List Char) (body : List BodyItem)
    (sectHeader : List Char) (lines : List (List Char)) (bad : List Char)
    (rest : List (List Char))
    (hopen : OpenDependencies blockHeader body sectHeader (lines ++ [bad])) (hbe : '=' ∉ bad)
    (solution : Solution) (fuel : Nat)
    (hf : (renderBody body).length + lines.length + 2 < fuel) :
    topLevel fuel (streamOf (blockHeader :: (renderBody body ++ sectHeader ::
      (lines ++ bad :: rest)))) solution = .error .out_of_range := by
  obtain ⟨h1, h2, ⟨stub, h3⟩, h4, h5, h6, h7⟩ := hopen
  obtain ⟨fuel, rfl⟩ : ∃ f, fuel = f + 1 := ⟨fuel - 1, by omega⟩
  have hv : starts_with blockHeader
      "Microsoft Visual Studio Solution File, Format Version".toList = false :=
    starts_with_head blockHeader 'P' 'M' _ _ h2 (by decide)
  have hbody : readProjectBody fuel
      (streamOf (renderBody body ++ sectHeader :: (lines ++ bad :: rest)))
      { solution with projects := solution.projects ++ [stub] } = .error .out_of_range := by
    refine readProjectBody_body_error body _ solution solution.projects stub fuel
      (lines.length + 1) .out_of_range h4 ?_ (by omega)
    intro q f hq
    obtain ⟨f, rfl⟩ : ∃ g, f = g + 1 := ⟨f - 1, by omega⟩
    have hne : simplified sectHeader ≠ "EndProject".toList :=
      starts_with_ne _ _ _ h6 (by decide)
    have hsec : starts_with (simplified sectHeader) "ProjectSection".toList = true :=
      starts_with_append _ "ProjectSection".toList "(ProjectDependencies)".toList h6
    have hlast : (solution.projects ++ [q]).getLast? = some q := by simp
    rw [readProjectBody]
    simp only [streamOf_eofbit, List.isEmpty_cons, Bool.false_eq_true, ↓reduceIte,
      read_line_streamOf sectHeader _ h5, hne, hsec, hlast, readProjectSection, h6,
      readDependencies_no_equal lines bad rest q f
        (fun l hl => h7 l (List.mem_append_left _ hl)) (h7 bad (by simp)).1
        (h7 bad (by simp)).2 hbe (by omega)]
  rw [topLevel]
  simp only [streamOf_eofbit, List.isEmpty_cons, Bool.false_eq_true, ↓reduceIte,
    read_line_streamOf blockHeader _ h1, hv, h2, readProject, h3, hbody]

theorem topLevel_open_configurations (blockHeader : List Char) (body : List BodyItem)
    (sectHeader : List Char) (lines : List (List Char)) (bad : List Char)
    (rest : List (List Char))
    (hopen : OpenConfigurations blockHeader body sectHeader (lines ++ [bad])) (hbe : '=' ∉ bad)
    (solution : Solution) (fuel : Nat)
    (hf : (renderBody body).length + lines.length + 2 < fuel) :
    topLevel fuel (streamOf (blockHeader :: (renderBody body ++ sectHeader ::
      (lines ++ bad :: rest)))) solution = .error .out_of_range := by
  obtain ⟨h1, h2, h4, h5, h6, h7⟩ := hopen
  obtain ⟨fuel, rfl⟩ : ∃ f, fuel = f + 1 := ⟨fuel - 1, by omega⟩
  have hv : starts_with blockHeader
      "Microsoft Visual Studio Solution File, Format Version".toList = false :=
    starts_with_head blockHeader 'G' 'M' _ _ h2 (by decide)
  have hp : starts_with blockHeader "Project(".toList = false :=
    starts_with_head blockHeader 'G' 'P' _ _ h2 (by decide)
  have hbody : readGlobal fuel
      (streamOf (renderBody body ++ sectHeader :: (lines ++ bad :: rest))) solution
      = .error .out_of_range := by
    refine readGlobal_body_error body _ solution fuel (lines.length + 1) .out_of_range h4 ?_
      (by omega)
    intro sol f hq
    obtain ⟨f, rfl⟩ : ∃ g, f = g + 1 := ⟨f - 1, by omega⟩
    have hne : simplified sectHeader ≠ "EndGlobal".toList :=
      starts_with_ne _ _ _ h6 (by decide)
    have hsec : starts_with (simplified sectHeader) "GlobalSection(".toList = true :=
      starts_with_append _ "GlobalSection(".toList "SolutionConfigurationPlatforms)".toList h6
    rw [readGlobal]
    simp only [streamOf_eofbit, List.isEmpty_cons, Bool.false_eq_true, ↓reduceIte,
      read_line_simplified_streamOf sectHeader _ h5, hne, hsec, readGlobalSection, h6,
      readConfigurations_no_equal lines bad rest sol f
        (fun l hl => h7 l (List.mem_append_left _ hl)) (h7 bad (by simp)).1
        (h7 bad (by simp)).2 hbe (by omega)]
  rw [topLevel]
  simp only [streamOf_eofbit, List.isEmpty_cons, Bool.false_eq_true, ↓reduceIte,
    read_line_streamOf blockHeader _ h1, hv, hp, h2, hbody]

theorem parseSolution_open_section (first : List Char) (items : List TopItem)
    (blockHeader : List Char) (body : List BodyItem) (sectHeader : List Char)
    (lines : List (List Char)) (bad : List Char) (rest : List (List Char))
    (hfirst : IsLine first) (hwf : ∀ item ∈ items, item.WF)
    (hopen : OpenDependencies blockHeader body sectHeader (lines ++ [bad]) ∨
      OpenConfigurations blockHeader body sectHeader (lines ++ [bad]))
    (hbe : '=' ∉ bad) :
    parseSolution (joinLines (first :: (renderItems items ++ blockHeader ::
      (renderBody body ++ sectHeader :: (lines ++ bad :: rest))))) = .error .out_of_range := by
  have h := length_le_joinLines (first :: (renderItems items ++ blockHeader ::
      (renderBody body ++ sectHeader :: (lines ++ bad :: rest))))
  simp only [List.length_cons, List.length_append] at h
  have hs : ({ buf := joinLines (first :: (renderItems items ++ blockHeader ::
      (renderBody body ++ sectHeader :: (lines ++ bad :: rest)))), eofbit := false } : IStream)
      = streamOf (first :: (renderItems items ++ blockHeader ::
      (renderBody body ++ sectHeader :: (lines ++ bad :: rest)))) := rfl
  rw [parseSolution, parse, hs, read_line_streamOf first _ hfirst]
  refine topLevel_items_error items _ {} _ ((renderBody body).length + lines.length + 2)
    .out_of_range hwf ?_ (by omega)
  intro sol f hf
  rcases hopen with ho | ho
  · exact topLevel_open_dependencies blockHeader body sectHeader lines bad rest ho hbe sol f hf
  · exact topLevel_open_configurations blockHeader body sectHeader lines bad rest ho hbe sol f hf

set_option maxRecDepth 100000

theorem joinLines_append_empty (l : List Char) (ls : List (List Char)) :
    joinLines ((l :: ls) ++ [[]]) = joinLines (l :: ls) ++ ['\n'] := by
  induction ls generalizing l with
  | nil => simp [joinLines]
  | cons l' ls ih =>
    have h := ih l'
    simp only [List.cons_append] at h ⊢
    simp only [joinLines, h, List.append_assoc, List.cons_append]

theorem openDependencies_empty (blockHeader : List Char) (body : List BodyItem)
    (sectHeader : List Char) (lines : List (List Char))
    (h : OpenDependencies blockHeader body sectHeader lines) :
    OpenDependencies blockHeader body sectHeader (lines ++ [[]]) := by
  obtain ⟨h1, h2, h3, h4, h5, h6, h7⟩ := h
  refine ⟨h1, h2, h3, h4, h5, h6, ?_⟩
  intro l hl
  rcases List.mem_append.mp hl with hl | hl
  · exact h7 l hl
  · simp only [List.mem_singleton] at hl
    subst hl
    exact ⟨by simp [IsLine], by decide⟩

theorem openConfigurations_empty (blockHeader : List Char) (body : List BodyItem)
    (sectHeader : List Char) (lines : List (List Char))
    (h : OpenConfigurations blockHeader body sectHeader lines) :
    OpenConfigurations blockHeader body sectHeader (lines ++ [[]]) := by
  obtain ⟨h1, h2, h4, h5, h6, h7⟩ := h
  refine ⟨h1, h2, h4, h5, h6, ?_⟩
  intro l hl
  rcases List.mem_append.mp hl with hl | hl
  · exact h7 l hl
  · simp only [List.mem_singleton] at hl
    subst hl
    exact ⟨by simp [IsLine], by decide⟩

theorem openProjectSample_open :
    OpenDependencies
      "Project(\"\x7bT\x7d\") = \"App\", \"App.vcxproj\", \"\x7bA\x7d\"".toList []
      "\tProjectSection(ProjectDependencies) = postProject".toList
      ["\t\t\x7bB\x7d = \x7bB\x7d".toList] :=
  ⟨by decide, by decide,
    ⟨{ name := "App".toList, filepath := "App.vcxproj".toList, id := "A".toList }, by decide⟩,
    by simp, by decide, by decide, by decide⟩

/-- C11: the parser does not stop normally at every end of input inside a nested
block. When the text ends, with a final newline, inside a
`ProjectSection(ProjectDependencies)` or a
`GlobalSection(SolutionConfigurationPlatforms)` section, `parseSolution` ends
with `std::out_of_range`: the loop reads one more, empty, line and erases from
a `=` that is not there. The same files without the final newline, and files
that end (with a final newline) inside a section of another kind or inside
the block itself, are parsed normally and keep the entries read so far. -/
theorem parseSolution_ends_in_section (first : List Char) (items : List TopItem)
    (blockHeader : List Char) (body : List BodyItem) (sectHeader : List Char)
    (lines : List (List Char))
    (hfirst : IsLine first) (hwf : ∀ item ∈ items, item.WF)
    (hopen : OpenDependencies blockHeader body sectHeader lines ∨
      OpenConfigurations blockHeader body sectHeader lines) :
    parseSolution (joinLines (first :: (renderItems items ++ blockHeader ::
      (renderBody body ++ sectHeader :: lines))) ++ ['\n']) = .error .out_of_range ∧
    parseSolution (joinLines openProjectSample)
      = .ok { projects := [{ name := "App".toList, filepath := "App.vcxproj".toList,
                             id := "A".toList, dependencies := ["B".toList] }] } ∧
    parseSolution (joinLines openGlobalSample)
      = .ok { configurations := ["Debug|x64".toList] } ∧
    parseSolution (joinLines openOtherSample ++ ['\n'])
      = .ok { projects := [{ name := "App".toList, filepath := "App.vcxproj".toList,
                             id := "A".toList }] } ∧
    parseSolution (joinLines (openProjectSample.take 2) ++ ['\n'])
      = .ok { projects := [{ name := "App".toList, filepath := "App.vcxproj".toList,
                             id := "A".toList }] } ∧
    parseSolution (joinLines (openGlobalSample.take 2) ++ ['\n']) = .ok {} := by
  refine ⟨?_, by decide, by decide, by decide, by decide, by decide⟩
  have e : joinLines (first :: (renderItems items ++ blockHeader ::
      (renderBody body ++ sectHeader :: lines))) ++ ['\n']
      = joinLines (first :: (renderItems items ++ blockHeader ::
      (renderBody body ++ sectHeader :: (lines ++ [] :: [])))) := by
    rw [← joinLines_append_empty]
    simp
  rw [e]
  exact parseSolution_open_section first items blockHeader body sectHeader lines [] [] hfirst hwf
    (hopen.imp (openDependencies_empty _ _ _ _) (openConfigurations_empty _ _ _ _))
    (by simp)

/-- C11 (failing input): the file of `openProjectSample` followed by a final
newline. -/
theorem parseSolution_ends_in_section_witness :
    parseSolution (joinLines openProjectSample ++ ['\n']) = .error .out_of_range :=
  (parseSolution_ends_in_section "# header".toList []
    "Project(\"\x7bT\x7d\") = \"App\", \"App.vcxproj\", \"\x7bA\x7d\"".toList []
    "\tProjectSection(ProjectDependencies) = postProject".toList
    ["\t\t\x7bB\x7d = \x7bB\x7d".toList]
    (by decide) (by simp) (Or.inl openProjectSample_open)).1

/-- C12: a line in a `ProjectSection(ProjectDependencies)` or a
`GlobalSection(SolutionConfigurationPlatforms)` section that is not the
terminator of the section and contains no `=` makes the parser fail. For a
file that, after its first line and a list of complete top-level items, opens
a block, reads body items through, opens such a section and holds the lines
`lines` and then the line `bad` without `=`, none of them the terminator,
`parseSolution` ends with `std::out_of_range`, whatever follows `bad`; no
solution, and so no entry for `bad`, is returned. -/
theorem parseSolution_line_without_equal (first : List Char) (items : List TopItem)
    (blockHeader : List Char) (body : List BodyItem) (sectHeader : List Char)
    (lines : List (List Char)) (bad : List Char) (rest : List (List Char))
    (hfirst : IsLine first) (hwf : ∀ item ∈ items, item.WF)
    (hopen : OpenDependencies blockHeader body sectHeader (lines ++ [bad]) ∨
      OpenConfigurations blockHeader body sectHeader (lines ++ [bad]))
    (hbad : '=' ∉ bad) :
    parseSolution (joinLines (first :: (renderItems items ++ blockHeader ::
      (renderBody body ++ sectHeader :: (lines ++ bad :: rest))))) = .error .out_of_range :=
  parseSolution_open_section first items blockHeader body sectHeader lines bad rest hfirst hwf
    hopen hbad

/-- C12 (witness): in the global block of a file with one project block, the
line `Debug|x64` between a good configuration line and the terminator. -/
theorem parseSolution_line_without_equal_witness :
    parseSolution (joinLines ("# header".toList :: (renderItems sampleItems ++
      "Global".toList :: (renderBody [] ++
        "\tGlobalSection(SolutionConfigurationPlatforms) = preSolution".toList ::
          (["\t\tRelease|x64 = Release|x64".toList] ++ "\t\tDebug|x64".toList ::
            ["\tEndGlobalSection".toList, "EndGlobal".toList])))))
      = .error .out_of_range :=
  parseSolution_line_without_equal "# header".toList sampleItems "Global".toList []
    "\tGlobalSection(SolutionConfigurationPlatforms) = preSolution".toList
    ["\t\tRelease|x64 = Release|x64".toList] "\t\tDebug|x64".toList
    ["\tEndGlobalSection".toList, "EndGlobal".toList]
    (by decide)
    (by
      intro item h
      simp only [sampleItems, List.mem_cons, List.mem_singleton, List.not_mem_nil, or_false] at h
      rcases h with rfl | rfl | rfl | rfl
      · exact ⟨by decide, by decide, by decide, fun _ => by decide⟩
      · refine ⟨by decide, by decide,
          ⟨{ name := "App".toList, filepath := "App.vcxproj".toList, id := "A".toList },
            by decide⟩, ?_, by decide, by decide⟩
        intro item hitem
        simp only [List.mem_singleton] at hitem
        subst hitem
        exact ⟨by decide, by decide, by decide, by decide, by decide⟩
      · exact ⟨by decide, by decide,
          ⟨{ name := "Lib".toList, filepath := "Lib.vcxproj".toList, id := "B".toList },
            by decide⟩, by simp, by decide, by decide⟩
      · exact ⟨by decide, by decide, by decide, fun h => absurd h (by decide)⟩)
    (Or.inr ⟨by decide, by decide, by simp, by decide, by decide, by decide⟩)
    (by decide)


/-! ## The top level reads raw lines -/

theorem starts_with_space (c : Char) (l : List Char) (a : Char) (as : List Char)
    (hc : isspace c = true) (ha : isspace a = false) : starts_with (c :: l) (a :: as) = false := by
  have hne : a ≠ c := fun h => by rw [h, hc] at ha; cases ha
  simp [starts_with, List.isPrefixOf, hne]

/-- C18: the top level does not dispatch on the whitespace-normalised line. A
line that begins with a whitespace character is ignored by the loop of
`operator()`, whatever its normalised form starts with: the loop goes on with
the next line and the same solution. So the line `indentedHeader` opens no
project block and its file yields no project, although the normalised line
is a `Project(` header, while the same file with
the header line normalised yields the project `App`; an indented `Global`
line is ignored in the same way and the configurations after it are lost. -/
theorem topLevel_ignores_indented (c : Char) (l : List Char) (rest : List (List Char))
    (solution : Solution) (fuel : Nat) (hc : isspace c = true) (hl : IsLine (c :: l)) :
    topLevel (fuel + 1) (streamOf ((c :: l) :: rest)) solution
      = topLevel fuel (streamOf rest) solution ∧
    starts_with (simplified indentedHeader) "Project(".toList = true ∧
    parseSolution (joinLines ["# header".toList, indentedHeader, "EndProject".toList, []])
      = .ok {} ∧
    parseSolution (joinLines ["# header".toList, simplified indentedHeader,
        "EndProject".toList, []])
      = .ok { projects := [{ name := "App".toList, filepath := "App.vcxproj".toList,
                             id := "A".toList }] } ∧
    parseSolution (joinLines ("# header".toList :: "\tGlobal".toList :: openGlobalSample.drop 2
        ++ ["\tEndGlobalSection".toList, "EndGlobal".toList, []]))
      = .ok {} ∧
    parseSolution (joinLines ("# header".toList :: simplified "\tGlobal".toList ::
        openGlobalSample.drop 2 ++ ["\tEndGlobalSection".toList, "EndGlobal".toList, []]))
      = .ok { configurations := ["Debug|x64".toList] } := by
  refine ⟨?_, by decide, by decide, by decide, by decide, by decide⟩
  rw [topLevel]
  simp only [streamOf_eofbit, List.isEmpty_cons, Bool.false_eq_true, ↓reduceIte,
    read_line_streamOf (c :: l) rest hl]
  rw [show starts_with (c :: l)
      "Microsoft Visual Studio Solution File, Format Version".toList = false from
      starts_with_space c l 'M' _ hc (by decide),
    show starts_with (c :: l) "Project(".toList = false from
      starts_with_space c l 'P' _ hc (by decide),
    show starts_with (c :: l) "Global".toList = false from
      starts_with_space c l 'G' _ hc (by decide)]
  simp

/-- C18 (failing input): the line `indentedHeader`, read by the top
level with fuel 3, is skipped and the next line is read with the solution
unchanged. -/
theorem topLevel_ignores_indented_witness :
    topLevel (2 + 1) (streamOf ((' ' :: indentedHeader.tail) :: ["EndProject".toList, []])) {}
      = topLevel 2 (streamOf ["EndProject".toList, []]) {} :=
  (topLevel_ignores_indented ' ' indentedHeader.tail ["EndProject".toList, []] {} 2
    (by decide) (by decide)).1

/-! ## `simplified` and the runs of non-whitespace characters -/

theorem modifyHead_append_of_ne_nil {α : Type} (f : α → α) (l m : List α) (h : l ≠ []) :
    (l ++ m).modifyHead f = l.modifyHead f ++ m := by
  cases l with
  | nil => exact absurd rfl h
  | cons a l => simp

theorem splitOnP_append_sep (p : Char → Bool) (s : List Char) (x : Char) (t : List Char)
    (hx : p x = true) : (s ++ x :: t).splitOnP p = s.splitOnP p ++ t.splitOnP p := by
  induction s with
  | nil => simp [List.splitOnP_cons, hx]
  | cons a s ih =>
    rw [List.cons_append, List.splitOnP_cons, List.splitOnP_cons, ih]
    split
    · rfl
    · exact modifyHead_append_of_ne_nil _ _ _ (List.splitOnP_ne_nil p s)

theorem runs_nil : runs [] = [] := by decide

theorem runs_append_sep (s : List Char) (x : Char) (t : List Char) (hx : isspace x = true) :
    runs (s ++ x :: t) = runs s ++ runs t := by
  simp [runs, splitOnP_append_sep isspace s x t hx]

theorem runs_cons_space (x : Char) (t : List Char) (hx : isspace x = true) :
    runs (x :: t) = runs t := by
  have := runs_append_sep [] x t hx
  simpa [runs_nil] using this

theorem runs_concat_space (s : List Char) (x : Char) (hx : isspace x = true) :
    runs (s ++ [x]) = runs s := by
  have := runs_append_sep s x [] hx
  simpa [runs_nil] using this

theorem runs_dropWhile (s : List Char) : runs (s.dropWhile isspace) = runs s := by
  induction s with
  | nil => rfl
  | cons x s ih =>
    rw [List.dropWhile_cons]
    split
    · rename_i hx; rw [ih, runs_cons_space x s hx]
    · rfl

theorem runs_rdropWhile (s : List Char) : runs (s.rdropWhile isspace) = runs s := by
  induction s using List.reverseRecOn with
  | nil => rfl
  | append_singleton s x ih =>
    rw [List.rdropWhile_concat]
    split
    · rename_i hx; rw [ih, runs_concat_space s x hx]
    · rfl

theorem runs_word (w : List Char) (hw : ∀ c ∈ w, isspace c = false) (hne : w ≠ []) :
    runs w = [w] := by
  have h : ∀ x ∈ w, ¬ isspace x = true := fun x hx => by simp [hw x hx]
  rw [runs, List.splitOnP_eq_single isspace w h]
  cases w with
  | nil => exact absurd rfl hne
  | cons a w => simp

theorem runs_word_sep (w : List Char) (hw : ∀ c ∈ w, isspace c = false) (hne : w ≠ [])
    (x : Char) (t : List Char) (hx : isspace x = true) :
    runs (w ++ x :: t) = w :: runs t := by
  rw [runs_append_sep w x t hx, runs_word w hw hne]
  rfl

theorem mem_splitOnP (p : Char → Bool) (s : List Char) :
    ∀ w ∈ s.splitOnP p, ∀ c ∈ w, p c = false := by
  induction s with
  | nil => simp
  | cons x s ih =>
    intro w hw c hc
    rw [List.splitOnP_cons] at hw
    split at hw
    · rcases List.mem_cons.mp hw with h | h
      · subst h; simp at hc
      · exact ih w h c hc
    · rename_i hx
      cases hL : s.splitOnP p with
      | nil => exact absurd hL (List.splitOnP_ne_nil p s)
      | cons a L =>
        rw [hL, List.modifyHead_cons] at hw
        rcases List.mem_cons.mp hw with h | h
        · subst h
          rcases List.mem_cons.mp hc with h2 | h2
          · subst h2; simpa using hx
          · exact ih a (by rw [hL]; simp) c h2
        · exact ih w (by rw [hL]; simp [h]) c hc

theorem mem_runs (s w : List Char) (h : w ∈ runs s) : w ≠ [] ∧ ∀ c ∈ w, isspace c = false := by
  rw [runs, List.mem_filter] at h
  refine ⟨?_, mem_splitOnP isspace s w h.1⟩
  intro e
  rw [e] at h
  simp at h

theorem runs_cons_non_space (d : Char) (t : List Char) (hd : isspace d = false) :
    runs (d :: t) ≠ [] := by
  rw [runs, List.splitOnP_cons]
  simp only [hd, Bool.false_eq_true, ↓reduceIte]
  cases hL : t.splitOnP isspace with
  | nil => exact absurd hL (List.splitOnP_ne_nil _ t)
  | cons a L => simp [List.filter_cons]

theorem flatten_splitOnP (p : Char → Bool) (s : List Char) :
    (s.splitOnP p).flatten = s.filter fun c => !p c := by
  induction s with
  | nil => simp
  | cons x s ih =>
    rw [List.splitOnP_cons]
    split
    · rename_i hx; simp [ih, hx]
    · rename_i hx
      cases hL : s.splitOnP p with
      | nil => exact absurd hL (List.splitOnP_ne_nil p s)
      | cons a L =>
        rw [hL] at ih
        simp only [List.flatten_cons] at ih
        simp [hx, ← ih]

theorem flatten_filter_nonempty (L : List (List Char)) :
    (L.filter fun w => !w.isEmpty).flatten = L.flatten := by
  induction L with
  | nil => rfl
  | cons a L ih =>
    cases a with
    | nil => simpa using ih
    | cons c a => simp [List.filter_cons, ih]

theorem flatten_runs (s : List Char) : (runs s).flatten = s.filter fun c => !isspace c := by
  rw [runs, flatten_filter_nonempty, flatten_splitOnP]

theorem intercalate_cons_of_ne_nil (w : List Char) (ws : List (List Char)) (h : ws ≠ []) :
    List.intercalate [' '] (w :: ws) = w ++ ' ' :: List.intercalate [' '] ws := by
  cases ws with
  | nil => exact absurd rfl h
  | cons w' ws => simp [List.intercalate]

theorem takeWhile_non_space (t : List Char) :
    ∀ c ∈ t.takeWhile (fun c => !isspace c), isspace c = false := by
  intro c hc
  have := List.mem_takeWhile_imp hc
  simpa using this

theorem simplifiedLoop_runs (fuel : Nat) (t : List Char) (hf : t.length < fuel)
    (hhead : ∀ x ∈ t.head?, isspace x = false) (hlast : ∀ x ∈ t.getLast?, isspace x = false) :
    simplifiedLoop fuel t = List.intercalate [' '] (runs t) := by
  induction fuel generalizing t with
  | zero => omega
  | succ fuel ih =>
    rw [simplifiedLoop]
    have hsplit := List.takeWhile_append_dropWhile (fun c => !isspace c) t
    have hword := takeWhile_non_space t
    split
    · rename_i heq
      rw [heq, List.append_nil] at hsplit
      rw [hsplit] at hword ⊢
      cases t with
      | nil => rfl
      | cons a t => rw [runs_word _ hword (by simp)]; simp [List.intercalate]
    · rename_i c rest1 heq
      have hc : isspace c = true := by
        have := dropWhile_cons_head_false _ _ _ _ heq
        simpa using this
      have hne : t.takeWhile (fun c => !isspace c) ≠ [] := by
        cases t with
        | nil => simp at heq
        | cons a t =>
          have ha := hhead a (by simp)
          simp [List.takeWhile_cons, ha]
      have ht : t = t.takeWhile (fun c => !isspace c) ++ c :: rest1 := by
        rw [← heq]; exact hsplit.symm
      have hlast1 : ∀ x ∈ (c :: rest1).getLast?, isspace x = false := by
        intro x hx
        apply hlast x
        rw [ht, List.getLast?_append_of_ne_nil _ (by simp)]
        exact hx
      have hsplit2 := List.takeWhile_append_dropWhile isspace (c :: rest1)
      have hruns : runs t = t.takeWhile (fun c => !isspace c)
          :: runs ((c :: rest1).dropWhile isspace) := by
        conv_lhs => rw [ht]
        rw [runs_word_sep _ hword hne c rest1 hc, runs_dropWhile, runs_cons_space c rest1 hc]
      split
      · rename_i heq2
        exfalso
        have hall := List.dropWhile_eq_nil_iff.mp heq2
        cases hl : (c :: rest1).getLast? with
        | none => simp at hl
        | some x =>
          have h1 := hlast1 x (by rw [hl]; simp)
          have h2 := hall x (List.mem_of_mem_getLast? hl)
          rw [h1] at h2; cases h2
      · rename_i d rest2 heq2
        have hd : isspace d = false := by
          have := dropWhile_cons_head_false _ _ _ _ heq2
          simpa using this
        have hlen : (d :: rest2).length < fuel := by
          have h0 : (c :: rest1).dropWhile isspace = rest1.dropWhile isspace := by
            rw [List.dropWhile_cons]; simp [hc]
          have h1 := length_dropWhile_le isspace rest1
          have h2 := length_dropWhile_le (fun c => !isspace c) t
          rw [heq] at h2
          rw [← h0, heq2] at h1
          simp only [List.length_cons] at h1 h2 hf ⊢
          omega
        have hlast2 : ∀ x ∈ (d :: rest2).getLast?, isspace x = false := by
          intro x hx
          apply hlast1 x
          rw [← hsplit2, heq2, List.getLast?_append_of_ne_nil _ (by simp)]
          exact hx
        rw [ih (d :: rest2) hlen (by simpa using hd) hlast2, hruns, heq2,
          intercalate_cons_of_ne_nil _ _ (runs_cons_non_space d rest2 hd)]

theorem simplified_eq_runs (s : List Char) :
    simplified s = List.intercalate [' '] (runs s) := by
  rw [simplified]
  have hhead : ∀ x ∈ ((s.rdropWhile isspace).dropWhile isspace).head?, isspace x = false := by
    intro x hx
    cases h : (s.rdropWhile isspace).dropWhile isspace with
    | nil => rw [h] at hx; simp at hx
    | cons a u =>
      rw [h] at hx
      simp only [List.head?_cons, Option.mem_def, Option.some.injEq] at hx
      subst hx
      exact dropWhile_cons_head_false _ _ _ _ h
  have hlast : ∀ x ∈ ((s.rdropWhile isspace).dropWhile isspace).getLast?,
      isspace x = false := by
    intro x hx
    have hsplit := List.takeWhile_append_dropWhile isspace (s.rdropWhile isspace)
    have hne : (s.rdropWhile isspace).dropWhile isspace ≠ [] := by
      intro e; rw [e] at hx; simp at hx
    have hne2 : s.rdropWhile isspace ≠ [] := by
      intro e; rw [e] at hne; simp at hne
    have h1 : (s.rdropWhile isspace).getLast? = some x := by
      rw [← hsplit, List.getLast?_append_of_ne_nil _ hne]; exact hx
    have h2 := List.rdropWhile_last_not isspace s hne2
    rw [List.getLast?_eq_getLast _ hne2] at h1
    simp only [Option.some.injEq] at h1
    rw [h1] at h2
    simpa using h2
  rw [simplifiedLoop_runs _ _ (Nat.lt_succ_self _) hhead hlast, runs_dropWhile, runs_rdropWhile]

theorem intercalate_head (ws : List (List Char))
    (hws : ∀ w ∈ ws, w ≠ [] ∧ ∀ c ∈ w, isspace c = false) :
    ∀ x ∈ (List.intercalate [' '] ws).head?, isspace x = false := by
  intro x hx
  cases ws with
  | nil => simp [List.intercalate] at hx
  | cons w ws =>
    obtain ⟨hne, hw⟩ := hws w (by simp)
    cases w with
    | nil => exact absurd rfl hne
    | cons a w =>
      have : (List.intercalate [' '] ((a :: w) :: ws)).head? = some a := by
        cases ws with
        | nil => simp [List.intercalate]
        | cons w' ws => simp [List.intercalate]
      rw [this] at hx
      simp only [Option.mem_def, Option.some.injEq] at hx
      subst hx
      exact hw _ (by simp)

theorem intercalate_ne_nil (w : List Char) (ws : List (List Char)) (hne : w ≠ []) :
    List.intercalate [' '] (w :: ws) ≠ [] := by
  cases w with
  | nil => exact absurd rfl hne
  | cons a w =>
    cases ws with
    | nil => simp [List.intercalate]
    | cons w' ws => simp [List.intercalate]

theorem intercalate_last (ws : List (List Char))
    (hws : ∀ w ∈ ws, w ≠ [] ∧ ∀ c ∈ w, isspace c = false) :
    ∀ x ∈ (List.intercalate [' '] ws).getLast?, isspace x = false := by
  induction ws with
  | nil => intro x hx; simp [List.intercalate] at hx
  | cons w ws ih =>
    intro x hx
    obtain ⟨hne, hw⟩ := hws w (by simp)
    cases ws with
    | nil =>
      have e : List.intercalate [' '] [w] = w := by simp [List.intercalate]
      rw [e] at hx
      exact hw x (List.mem_of_mem_getLast? hx)
    | cons w' ws =>
      have hne' := (hws w' (by simp)).1
      have e : w ++ ' ' :: List.intercalate [' '] (w' :: ws)
          = (w ++ [' ']) ++ List.intercalate [' '] (w' :: ws) := by simp
      rw [intercalate_cons_of_ne_nil w (w' :: ws) (by simp), e,
        List.getLast?_append_of_ne_nil _ (intercalate_ne_nil w' ws hne')] at hx
      exact ih (fun v hv => hws v (List.mem_cons_of_mem _ hv)) x hx

theorem intercalate_spaces (ws : List (List Char))
    (hws : ∀ w ∈ ws, w ≠ [] ∧ ∀ c ∈ w, isspace c = false)
    (a : List Char) (c : Char) (b : List Char)
    (h : List.intercalate [' '] ws = a ++ c :: b) (hc : isspace c = true) :
    c = ' ' ∧ (∃ a1 x, a = a1 ++ [x] ∧ isspace x = false) ∧
      (∃ y b1, b = y :: b1 ∧ isspace y = false) := by
  induction ws generalizing a with
  | nil => simp [List.intercalate] at h
  | cons w ws ih =>
    obtain ⟨hne, hw⟩ := hws w (by simp)
    have hws' : ∀ v ∈ ws, v ≠ [] ∧ ∀ c ∈ v, isspace c = false :=
      fun v hv => hws v (List.mem_cons_of_mem _ hv)
    cases ws with
    | nil =>
      have e : List.intercalate [' '] [w] = w := by simp [List.intercalate]
      rw [e] at h
      have := hw c (by rw [h]; simp)
      rw [this] at hc; cases hc
    | cons w' ws =>
      rw [intercalate_cons_of_ne_nil w (w' :: ws) (by simp)] at h
      have hsep : a = w → c :: b = ' ' :: List.intercalate [' '] (w' :: ws) →
          c = ' ' ∧ (∃ a1 x, a = a1 ++ [x] ∧ isspace x = false) ∧
            (∃ y b1, b = y :: b1 ∧ isspace y = false) := by
        intro h1 h2
        simp only [List.cons.injEq] at h2
        obtain ⟨h3, h4⟩ := h2
        refine ⟨h3, ?_, ?_⟩
        · subst h1
          exact ⟨a.dropLast, a.getLast hne, (List.dropLast_append_getLast hne).symm,
            hw _ (List.getLast_mem hne)⟩
        · have hh := intercalate_head (w' :: ws) hws'
          rw [← h4] at hh
          cases b with
          | nil =>
            exact absurd h4.symm (intercalate_ne_nil w' ws (hws' w' (by simp)).1)
          | cons y b1 => exact ⟨y, b1, rfl, hh y (by simp)⟩
      rcases List.append_eq_append_iff.mp h with ⟨m, h1, h2⟩ | ⟨m, h1, h2⟩
      · cases m with
        | nil =>
          rw [List.append_nil] at h1
          rw [List.nil_append] at h2
          exact hsep h1 h2.symm
        | cons sp m =>
          simp only [List.cons_append, List.cons.injEq] at h2
          obtain ⟨h3, h4⟩ := h2
          obtain ⟨hc1, ⟨a1, x, ha, hx⟩, hb⟩ := ih hws' m h4
          refine ⟨hc1, ⟨w ++ sp :: a1, x, ?_, hx⟩, hb⟩
          rw [h1, ha]; simp
      · cases m with
        | nil =>
          rw [List.append_nil] at h1
          rw [List.nil_append] at h2
          exact hsep h1.symm h2
        | cons y m =>
          simp only [List.cons_append, List.cons.injEq] at h2
          have hy := hw y (by rw [h1]; simp)
          rw [← h2.1, hc] at hy
          cases hy

theorem filter_intercalate (ws : List (List Char))
    (hws : ∀ w ∈ ws, w ≠ [] ∧ ∀ c ∈ w, isspace c = false) :
    (List.intercalate [' '] ws).filter (fun c => !isspace c) = ws.flatten := by
  induction ws with
  | nil => simp [List.intercalate]
  | cons w ws ih =>
    have hw : w.filter (fun c => !isspace c) = w :=
      List.filter_eq_self.mpr fun c hc => by simp [(hws w (by simp)).2 c hc]
    have hws' : ∀ v ∈ ws, v ≠ [] ∧ ∀ c ∈ v, isspace c = false :=
      fun v hv => hws v (List.mem_cons_of_mem _ hv)
    cases ws with
    | nil => simpa [List.intercalate] using hw
    | cons w' ws =>
      have hsp : isspace ' ' = true := by decide
      rw [intercalate_cons_of_ne_nil w (w' :: ws) (by simp), List.filter_append,
        List.filter_cons, hw, ih hws']
      simp [hsp]

theorem runs_all_space (s : List Char) (h : ∀ c ∈ s, isspace c = true) : runs s = [] := by
  rw [← runs_dropWhile, List.dropWhile_eq_nil_iff.mpr h, runs_nil]

/-- C19: `simplified s` is the maximal runs of non-whitespace characters of `s`,
in order, joined by single spaces. The runs are non-empty and hold no
whitespace, so `simplified s` neither starts nor ends with a whitespace
character, every whitespace character in it is a `' '` that stands right
after and right before a non-whitespace character, and `s` and
`simplified s` hold the same non-whitespace characters in the same order. For
an empty string and for a string of whitespace only the result is empty. -/
theorem simplified_runs (s : List Char) :
    simplified s = List.intercalate [' '] (runs s) ∧
    (∀ w ∈ runs s, w ≠ [] ∧ ∀ c ∈ w, isspace c = false) ∧
    (∀ x ∈ (simplified s).head?, isspace x = false) ∧
    (∀ x ∈ (simplified s).getLast?, isspace x = false) ∧
    (∀ a c b, simplified s = a ++ c :: b → isspace c = true →
      c = ' ' ∧ (∃ a1 x, a = a1 ++ [x] ∧ isspace x = false) ∧
        (∃ y b1, b = y :: b1 ∧ isspace y = false)) ∧
    (simplified s).filter (fun c => !isspace c) = s.filter (fun c => !isspace c) ∧
    simplified [] = [] ∧
    ((∀ c ∈ s, isspace c = true) → simplified s = []) := by
  have hruns := mem_runs s
  have he := simplified_eq_runs s
  refine ⟨he, hruns, ?_, ?_, ?_, ?_, by decide, ?_⟩
  · rw [he]; exact intercalate_head _ hruns
  · rw [he]; exact intercalate_last _ hruns
  · rw [he]; exact intercalate_spaces _ hruns
  · rw [he, filter_intercalate _ hruns, flatten_runs]
  · intro h
    rw [he, runs_all_space s h]
    rfl

end vcxproj
